import Mathlib

/-!
Verification development for the Markdown WYSIWYG editor core
(WysiwygEditor): a shallow embedding of its Markdown-to-tree parser
pipeline (markdownToHTML composed with the browser HTML parser and the
ProseMirror DOMParser over the editor schema), its tree-to-Markdown
serializer (prosemirrorToMarkdown / getNodeTextContent), its
reconciliation controller (dispatchTransaction plus the external-update
effect), and the Mermaid side-channel recovery (renderMermaidDiagrams).

Strings are modelled as lists of characters.  All scanners are written
with explicit fuel so that every definition is executable by the kernel.
JavaScript regular expressions used by the source are concrete and fixed,
so each is embedded as a dedicated deterministic scanner with the same
matching semantics (leftmost match, lazy or greedy as in the pattern,
dot excluding newline).
-/

abbrev Str := List Char

def strL (s : String) : Str := s.data

/-- Whitespace per JavaScript regexp class backslash-s (the ASCII members
plus no-break space; the exotic Unicode members never occur here). -/
def isJsWs (c : Char) : Bool :=
  c = ' ' || c = '\t' || c = '\n' || c = '\r' || c = '\x0b' || c = '\x0c' || c = ' '

def dropWs (s : Str) : Str := s.dropWhile isJsWs

/-- Model of the JavaScript String.prototype.trim. -/
def trimJs (s : Str) : Str := ((s.dropWhile isJsWs).reverse.dropWhile isJsWs).reverse

/-- Model of the JavaScript String.prototype.split on a one-character
separator: an empty string yields one empty field. -/
def splitOnChar (sep : Char) : Str → List Str
  | [] => [[]]
  | c :: rest =>
    if c = sep then [] :: splitOnChar sep rest
    else
      match splitOnChar sep rest with
      | [] => [[c]]
      | l :: ls => (c :: l) :: ls

def splitNL (s : Str) : List Str := splitOnChar '\n' s

def joinNL (ls : List Str) : Str := (ls.intersperse (strL "\n")).flatten

/-- Model of escapeHtml from the source: a detached div's textContent set
then read back through innerHTML, which entity-escapes the three
markup-significant characters. -/
def escapeHtml (s : Str) : Str :=
  s.flatMap fun c =>
    if c = '&' then strL "&amp;"
    else if c = '<' then strL "&lt;"
    else if c = '>' then strL "&gt;"
    else [c]

/-- Lazy body scanner shared by the wrapping inline patterns: the shortest
nonempty body (dot excludes newline) followed by the closing delimiter.
Returns the body and the remainder after the closing delimiter. -/
def findLazy (close : Str) : Nat → Str → Option (Str × Str)
  | 0, _ => none
  | _, [] => none
  | fuel + 1, c :: rest =>
    if c = '\n' then none
    else if close.isPrefixOf rest then some ([c], rest.drop close.length)
    else
      match findLazy close fuel rest with
      | some (body, rest') => some (c :: body, rest')
      | none => none

/-- Generic global replace for the wrapping inline patterns
(open delimiter, lazy nonempty body, close delimiter), replacing each
match by pre ++ body ++ post, scanning left to right as the JavaScript
regexp engine does. -/
def wrapScan (l r pre post : Str) : Nat → Str → Str
  | 0, s => s
  | _ + 1, [] => []
  | fuel + 1, c :: rest =>
    if l.isPrefixOf (c :: rest) then
      match findLazy r fuel ((c :: rest).drop l.length) with
      | some (body, rest') => pre ++ body ++ post ++ wrapScan l r pre post fuel rest'
      | none => c :: wrapScan l r pre post fuel rest
    else c :: wrapScan l r pre post fuel rest

/-- Splits s as (before, after) around the first occurrence of the stop
character; none if the stop character does not occur. -/
def splitUntil (stop : Char) : Str → Option (Str × Str)
  | [] => none
  | c :: rest =>
    if c = stop then some ([], rest)
    else
      match splitUntil stop rest with
      | some (a, b) => some (c :: a, b)
      | none => none

/-- Matcher for the image pattern: bang, bracketed possibly-empty alt
without closing bracket, parenthesised nonempty src without closing
parenthesis.  Returns alt, src and the remainder. -/
def matchImage : Str → Option (Str × Str × Str)
  | c1 :: c2 :: rest =>
    if c1 = '!' ∧ c2 = '[' then
      match splitUntil ']' rest with
      | some (alt, rest1) =>
        (match rest1 with
         | c3 :: rest2 =>
           if c3 = '(' then
             match splitUntil ')' rest2 with
             | some (src, rest3) => if src = [] then none else some (alt, src, rest3)
             | none => none
           else none
         | [] => none)
      | none => none
    else none
  | _ => none

/-- Matcher for the link pattern: bracketed nonempty text, parenthesised
nonempty url. -/
def matchLink : Str → Option (Str × Str × Str)
  | c1 :: rest =>
    if c1 = '[' then
      match splitUntil ']' rest with
      | some (txt, rest1) =>
        if txt = [] then none
        else
          match rest1 with
          | c2 :: rest2 =>
            if c2 = '(' then
              match splitUntil ')' rest2 with
              | some (url, rest3) => if url = [] then none else some (txt, url, rest3)
              | none => none
            else none
          | [] => none
      | none => none
    else none
  | [] => none

def imageScan : Nat → Str → Str
  | 0, s => s
  | _ + 1, [] => []
  | fuel + 1, c :: rest =>
    match matchImage (c :: rest) with
    | some (alt, src, rest') =>
      strL "<img src=\"" ++ src ++ strL "\" alt=\"" ++ alt ++ strL "\" />" ++ imageScan fuel rest'
    | none => c :: imageScan fuel rest

def linkScan : Nat → Str → Str
  | 0, s => s
  | _ + 1, [] => []
  | fuel + 1, c :: rest =>
    match matchLink (c :: rest) with
    | some (txt, url, rest') =>
      strL "<a href=\"" ++ url ++ strL "\">" ++ txt ++ strL "</a>" ++ linkScan fuel rest'
    | none => c :: linkScan fuel rest

/-- Matcher for the inline code pattern: backtick, greedy nonempty run of
non-backtick characters, backtick. -/
def matchCodeSpan : Str → Option (Str × Str)
  | c :: rest =>
    if c = '`' then
      match splitUntil '`' rest with
      | some (body, rest') => if body = [] then none else some (body, rest')
      | none => none
    else none
  | [] => none

def codeScan : Nat → Str → Str
  | 0, s => s
  | _ + 1, [] => []
  | fuel + 1, c :: rest =>
    match matchCodeSpan (c :: rest) with
    | some (body, rest') => strL "<code>" ++ body ++ strL "</code>" ++ codeScan fuel rest'
    | none => c :: codeScan fuel rest

def replTriple (s : Str) : Str :=
  wrapScan (strL "***") (strL "***") (strL "<strong><em>") (strL "</em></strong>") (s.length + 1) s

def replDouble (s : Str) : Str :=
  wrapScan (strL "**") (strL "**") (strL "<strong>") (strL "</strong>") (s.length + 1) s

def replSingle (s : Str) : Str :=
  wrapScan (strL "*") (strL "*") (strL "<em>") (strL "</em>") (s.length + 1) s

def replTilde (s : Str) : Str :=
  wrapScan (strL "~~") (strL "~~") (strL "<del>") (strL "</del>") (s.length + 1) s

def replCode (s : Str) : Str := codeScan (s.length + 1) s

def replImage (s : Str) : Str := imageScan (s.length + 1) s

def replLink (s : Str) : Str := linkScan (s.length + 1) s

/-- Model of parseInlineMarkdown: the seven chained global replaces, in
source order (triple emphasis, strong, emphasis, strikethrough, code
span, image, link). -/
def parseInlineMarkdown (text : Str) : Str :=
  replLink (replImage (replCode (replTilde (replSingle (replDouble (replTriple text))))))

/-- Matcher for the task item line pattern: optional indent, dash,
optional spaces, bracketed space-or-lowercase-x, at least one space,
rest of line.  Returns the check character and the item text. -/
def taskMatch (line : Str) : Option (Char × Str) :=
  match dropWs line with
  | c0 :: s1 =>
    if c0 = '-' then
      match dropWs s1 with
      | c1 :: m :: c2 :: s3 =>
        if c1 = '[' ∧ (m = ' ' || m = 'x') ∧ c2 = ']' then
          match s3 with
          | c :: _ => if isJsWs c then some (m, dropWs s3) else none
          | [] => none
        else none
      | _ => none
    else none
  | [] => none

/-- Matcher for the bullet list line pattern: optional indent, dash or
asterisk marker, at least one space, rest of line. -/
def listMatch (line : Str) : Option (Char × Str) :=
  match dropWs line with
  | m :: s1 =>
    if m = '-' || m = '*' then
      match s1 with
      | c :: _ => if isJsWs c then some (m, dropWs s1) else none
      | [] => none
    else none
  | [] => none

/-- Matcher for the ordered list line pattern: optional indent, digits,
dot, at least one space, rest of line. -/
def orderedMatch (line : Str) : Option Str :=
  let s := dropWs line
  let digits := s.takeWhile Char.isDigit
  if digits = [] then none
  else
    match s.drop digits.length with
    | '.' :: s2 =>
      match s2 with
      | c :: _ => if isJsWs c then some (dropWs s2) else none
      | [] => none
    | _ => none

/-- Matcher for the heading line pattern: one to six leading hashes then
at least one space.  Returns the level and the heading text. -/
def headingMatch (line : Str) : Option (Nat × Str) :=
  let hashes := line.takeWhile (· = '#')
  let k := hashes.length
  if 1 ≤ k ∧ k ≤ 6 then
    match line.drop k with
    | c :: _ => if isJsWs c then some (k, dropWs (line.drop k)) else none
    | [] => none
  else none

/-- Matcher for the horizontal rule line: the whole line is three or more
dashes, or three or more underscores, or three or more asterisks. -/
def hrMatch (line : Str) : Bool :=
  3 ≤ line.length &&
    (line.all (· = '-') || line.all (· = '_') || line.all (· = '*'))

/-- Matcher for the table separator line: a pipe, a nonempty run of
whitespace, dashes and colons, and a closing pipe, over the raw line. -/
def tableSepMatch (line : Str) : Bool :=
  match line with
  | '|' :: rest =>
    match rest.reverse with
    | '|' :: midRev =>
      let mid := midRev.reverse
      mid ≠ [] && mid.all (fun c => isJsWs c || c = '-' || c = ':')
    | _ => false
  | _ => false

/-- Cells of a table line: split the raw line on pipes and discard the
first and last fields, as the source's filter on indices does. -/
def tableCells (line : Str) : List Str :=
  ((splitOnChar '|' line).drop 1).dropLast

def natDigits (n : Nat) : Str := (Nat.repr n).data

/-- Parser state of the markdownToHTML line loop, one field per mutable
local of the source. -/
structure MdState where
  result : List Str
  inCodeBlock : Bool
  codeBlockLang : Option Str
  codeBlockContent : List Str
  inList : Bool
  inTaskList : Bool
  inTable : Bool
  tableRows : List Str
  tableHeader : Bool
deriving Repr, DecidableEq

def mdInit : MdState :=
  ⟨[], false, none, [], false, false, false, [], false⟩

def pushR (st : MdState) (xs : List Str) : MdState :=
  { st with result := st.result ++ xs }

def taskLiHtml (checked : Bool) (text : Str) : Str :=
  strL "<li class=\"task-item\" data-checked=\"" ++ strL (if checked then "true" else "false") ++
  strL "\"><input type=\"checkbox\" " ++ strL (if checked then "checked" else "") ++
  strL " contentEditable=\"false\" />" ++ parseInlineMarkdown text ++ strL "</li>"

def tableFlushParts (st : MdState) : List Str :=
  [strL "<table>", joinNL st.tableRows, strL "</table>"]

/-- One iteration of the markdownToHTML for-loop, mirroring the source's
branch order: fence toggle, code accumulation, table, task list, bullet
list, ordered list, heading, blockquote, horizontal rule, blank line,
paragraph. -/
def processLine (st : MdState) (line : Str) : MdState :=
  if (strL "```").isPrefixOf (trimJs line) then
    if !st.inCodeBlock then
      let lang := trimJs ((trimJs line).drop 3)
      { st with inCodeBlock := true,
                codeBlockLang := if lang = [] then none else some lang,
                codeBlockContent := [] }
    else
      let codeClass := match st.codeBlockLang with
        | some l => strL " class=\"language-" ++ l ++ strL "\""
        | none => []
      let dataLang := match st.codeBlockLang with
        | some l => strL " data-language=\"" ++ l ++ strL "\""
        | none => []
      { pushR st [strL "<pre><code" ++ codeClass ++ dataLang ++ strL ">" ++
                  escapeHtml (joinNL st.codeBlockContent) ++ strL "</code></pre>"] with
        inCodeBlock := false, codeBlockLang := none, codeBlockContent := [] }
  else if st.inCodeBlock then
    { st with codeBlockContent := st.codeBlockContent ++ [line] }
  else if (strL "|").isPrefixOf (trimJs line) && (strL "|").isPrefixOf (trimJs line).reverse then
    let st := if !st.inTable then { st with inTable := true, tableRows := [], tableHeader := false } else st
    if tableSepMatch line then { st with tableHeader := true }
    else
      let cellTags := ((tableCells line).map fun cell =>
        strL "<td>" ++ parseInlineMarkdown (trimJs cell) ++ strL "</td>").flatten
      { st with tableRows := st.tableRows ++ [strL "<tr>" ++ cellTags ++ strL "</tr>"] }
  else
    let st :=
      if st.inTable then
        let st := if st.tableRows ≠ [] then pushR st (tableFlushParts st) else st
        { st with inTable := false, tableRows := [] }
      else st
    match taskMatch line with
    | some (m, text) =>
      let st :=
        if !st.inTaskList then
          let st := if st.inList then pushR st [strL "</ul>"] else st
          { pushR st [strL "<ul class=\"task-list\">"] with inTaskList := true }
        else st
      pushR st [taskLiHtml (m = 'x' || m = 'X') text]
    | none =>
      let st := if st.inTaskList then { pushR st [strL "</ul>"] with inTaskList := false } else st
      match listMatch line with
      | some (_, text) =>
        let st := if !st.inList then { pushR st [strL "<ul>"] with inList := true } else st
        pushR st [strL "<li>" ++ parseInlineMarkdown text ++ strL "</li>"]
      | none =>
        let st := if st.inList then { pushR st [strL "</ul>"] with inList := false } else st
        match orderedMatch line with
        | some text =>
          let st := if !st.inList then { pushR st [strL "<ol>"] with inList := true } else st
          pushR st [strL "<li>" ++ parseInlineMarkdown text ++ strL "</li>"]
        | none =>
          match headingMatch line with
          | some (k, text) =>
            pushR st [strL "<h" ++ natDigits k ++ strL ">" ++ parseInlineMarkdown text ++
                      strL "</h" ++ natDigits k ++ strL ">"]
          | none =>
            if (strL ">").isPrefixOf (trimJs line) then
              pushR st [strL "<blockquote>" ++
                        parseInlineMarkdown (trimJs ((trimJs line).drop 1)) ++
                        strL "</blockquote>"]
            else if hrMatch line then pushR st [strL "<hr>"]
            else if trimJs line = [] then st
            else pushR st [strL "<p>" ++ parseInlineMarkdown line ++ strL "</p>"]

/-- The close-any-open-tags epilogue of markdownToHTML.  An unterminated
fenced code block is silently dropped: there is no branch for it. -/
def finalizeMd (st : MdState) : MdState :=
  let st := if st.inTable && st.tableRows ≠ [] then pushR st (tableFlushParts st) else st
  let st := if st.inTaskList then pushR st [strL "</ul>"] else st
  let st := if st.inList then pushR st [strL "</ul>"] else st
  st

/-- Model of markdownToHTML: split into physical lines, run the line
state machine, close open tags, join the emitted fragments. -/
def markdownToHTML (markdown : Str) : Str :=
  (finalizeMd ((splitNL markdown).foldl processLine mdInit)).result |> joinNL

/-!
Document model: the node and mark taxonomy of the editor schema.
Marks carry the schema's rank order (link, em, strong, code), which
ProseMirror uses to keep mark sets sorted.
-/

inductive Mark where
  | link (href : Str) (title : Option Str)
  | em
  | strong
  | code
deriving Repr, DecidableEq

inductive Inline where
  | text (s : Str) (marks : List Mark)
  | image (src : Str) (alt : Option Str) (title : Option Str)
  | hard_break
deriving Repr, DecidableEq

inductive N where
  | paragraph (inl : List Inline)
  | heading (level : Nat) (inl : List Inline)
  | blockquote (children : List N)
  | code_block (language : Option Str) (text : Str)
  | horizontal_rule
  | ordered_list (order : Int) (children : List N)
  | bullet_list (children : List N)
  | list_item (children : List N)
  | task_list (children : List N)
  | task_item (checked : Bool) (children : List N)
  | table (children : List N)
  | table_row (children : List N)
  | table_cell (children : List N)
  | table_header (children : List N)
deriving Repr

abbrev Doc := List N

def markRank : Mark → Nat
  | .link _ _ => 0
  | .em => 1
  | .strong => 2
  | .code => 3

def sameMarkType (a b : Mark) : Bool := markRank a = markRank b

/-- Model of Mark.addToSet: insert keeping the schema rank order,
replacing an existing mark of the same type. -/
def addMark (m : Mark) (ms : List Mark) : List Mark :=
  match ms with
  | [] => [m]
  | x :: rest =>
    if sameMarkType m x then m :: rest
    else if markRank m < markRank x then m :: x :: rest
    else x :: addMark m rest

def removeMark (m : Mark) (ms : List Mark) : List Mark :=
  match ms with
  | [] => []
  | x :: rest => if sameMarkType m x then rest else x :: removeMark m rest

/-!
Model of the HTML stage: the browser DOMParser tokenizing the HTML text
produced by markdownToHTML, composed with the ProseMirror DOMParser for
the editor schema.  The tokenizer covers the well-formed dialect the
parser emits (lower-case tags, double-quoted attributes, comments, the
three entities produced by escapeHtml) plus graceful recovery (unmatched
close tags ignored, misplaced nodes closed out to an accepting ancestor)
matching the HTML5 and ProseMirror behaviours exercised here.
-/

inductive Tok where
  | openTag (tag : Str) (attrs : List (Str × Option Str))
  | closeTag (tag : Str)
  | textTok (s : Str)
deriving Repr, DecidableEq

def decodeEntities : Nat → Str → Str
  | 0, s => s
  | fuel + 1, s =>
    if (strL "&amp;").isPrefixOf s then '&' :: decodeEntities fuel (s.drop 5)
    else if (strL "&lt;").isPrefixOf s then '<' :: decodeEntities fuel (s.drop 4)
    else if (strL "&gt;").isPrefixOf s then '>' :: decodeEntities fuel (s.drop 4)
    else if (strL "&quot;").isPrefixOf s then '"' :: decodeEntities fuel (s.drop 6)
    else if (strL "&nbsp;").isPrefixOf s then ' ' :: decodeEntities fuel (s.drop 6)
    else
      match s with
      | [] => []
      | c :: rest => c :: decodeEntities fuel rest

def isTagChar (c : Char) : Bool := c.isAlpha || c.isDigit

def isAttrNameChar (c : Char) : Bool :=
  !(isJsWs c) && c ≠ '=' && c ≠ '>' && c ≠ '/'

/-- Attribute scanner of an open tag, returning the attribute list and the
input remaining after the closing angle bracket. -/
def parseAttrs : Nat → Str → (List (Str × Option Str)) × Str
  | 0, s => ([], s)
  | _, [] => ([], [])
  | fuel + 1, c :: rest =>
    if isJsWs c then parseAttrs fuel rest
    else if c = '>' then ([], rest)
    else if c = '/' then parseAttrs fuel rest
    else
      let name := (c :: rest).takeWhile isAttrNameChar
      let r1 := (c :: rest).drop name.length
      match r1 with
      | e :: r1t =>
        if e = '=' then
          match r1t with
          | q :: r2 =>
            if q = '"' then
              match splitUntil '"' r2 with
              | some (v, r3) =>
                let (rest4, r4) := parseAttrs fuel r3
                ((name, some v) :: rest4, r4)
              | none => ([(name, some r2)], [])
            else
              let v := r1t.takeWhile (fun d => !(isJsWs d) && d ≠ '>')
              let (rest4, r4) := parseAttrs fuel (r1t.drop v.length)
              ((name, some v) :: rest4, r4)
          | [] =>
            let v := ([] : Str).takeWhile (fun d => !(isJsWs d) && d ≠ '>')
            let (rest4, r4) := parseAttrs fuel (([] : Str).drop v.length)
            ((name, some v) :: rest4, r4)
        else
          let (rest4, r4) := parseAttrs fuel r1
          ((name, none) :: rest4, r4)
      | [] =>
        let (rest4, r4) := parseAttrs fuel r1
        ((name, none) :: rest4, r4)

def skipComment : Nat → Str → Str
  | 0, s => s
  | fuel + 1, s =>
    if (strL "-->").isPrefixOf s then s.drop 3
    else
      match s with
      | [] => []
      | _ :: rest => skipComment fuel rest

def flushText (pend : Str) (toks : List Tok) : List Tok :=
  if pend = [] then toks else Tok.textTok (decodeEntities (pend.reverse.length + 1) pend.reverse) :: toks

def tokenizeGo : Nat → Str → Str → List Tok
  | 0, pend, s => flushText pend (if s = [] then [] else [Tok.textTok s])
  | _ + 1, pend, [] => flushText pend []
  | fuel + 1, pend, c :: rest =>
    if c = '<' then
      if (strL "!--").isPrefixOf rest then
        flushText pend (tokenizeGo fuel [] (skipComment (rest.length + 1) (rest.drop 3)))
      else
        match rest with
        | d :: r1 =>
          if d = '/' then
            if r1.takeWhile isTagChar = [] then tokenizeGo fuel ('<' :: pend) (d :: r1)
            else
              let tag := r1.takeWhile isTagChar
              let r2 := r1.drop tag.length
              let r3 := (r2.dropWhile (· ≠ '>')).drop 1
              flushText pend (Tok.closeTag tag :: tokenizeGo fuel [] r3)
          else if (d :: r1).takeWhile isTagChar = [] then tokenizeGo fuel ('<' :: pend) (d :: r1)
          else
            let tag := (d :: r1).takeWhile isTagChar
            let r1x := (d :: r1).drop tag.length
            let (attrs, r2) := parseAttrs (r1x.length + 1) r1x
            flushText pend (Tok.openTag tag attrs :: tokenizeGo fuel [] r2)
        | [] => tokenizeGo fuel ('<' :: pend) []
    else tokenizeGo fuel (c :: pend) rest

def tokenize (s : Str) : List Tok := tokenizeGo (s.length + 1) [] s

def lookupAttr (attrs : List (Str × Option Str)) (name : Str) : Option (Option Str) :=
  match attrs with
  | [] => none
  | (n, v) :: rest => if n = name then some v else lookupAttr rest name

def hasAttr (attrs : List (Str × Option Str)) (name : Str) : Bool :=
  (lookupAttr attrs name).isSome

def attrVal (attrs : List (Str × Option Str)) (name : Str) : Option Str :=
  match lookupAttr attrs name with
  | some (some v) => some v
  | some none => some []
  | none => none

/-- Does the class attribute contain the given class name, per the
space-separated token semantics of class matching. -/
def classHas (attrs : List (Str × Option Str)) (cls : Str) : Bool :=
  match attrVal attrs (strL "class") with
  | some v => (splitOnChar ' ' v).any (· = cls)
  | none => false

/-- Extracts the capture of the language dash word pattern from a class
attribute value, as the code_block parse rule does. -/
def langOfClass (v : Str) : Option Str :=
  match v with
  | [] => none
  | c :: rest =>
    if (strL "language-").isPrefixOf (c :: rest) then
      let w := ((c :: rest).drop 9).takeWhile (fun d => d.isAlpha || d.isDigit || d = '_')
      if w = [] then langOfClass rest else some w
    else langOfClass rest

def parseNatDigits (s : Str) : Option Nat :=
  if s ≠ [] ∧ s.all Char.isDigit then
    some (s.foldl (fun n c => n * 10 + (c.toNat - 48)) 0)
  else none

/-- Frame kinds of the tree-building context stack, one per schema node
kind that can be open during DOM parsing. -/
inductive FrameKind where
  | fDoc
  | fPara
  | fHeading (level : Nat)
  | fBlockquote
  | fPre (language : Option Str) (sawCode : Bool)
  | fBulletL
  | fOrderedL (order : Int)
  | fTaskL
  | fListIt
  | fTaskIt (checked : Bool) (sawInput : Bool)
  | fTable
  | fRow
  | fCell
  | fHeaderC
deriving Repr, DecidableEq

structure Frame where
  kind : FrameKind
  children : List N
  inl : List Inline
  rawText : Str
  marksAtOpen : List Mark
deriving Repr

def newFrame (k : FrameKind) (marks : List Mark) : Frame :=
  ⟨k, [], [], [], marks⟩

structure BuildState where
  stack : List Frame
  marks : List Mark
deriving Repr

/-- Core whitespace class collapsed by the ProseMirror DOM parser in
non-code textblocks (space, tab, carriage return, newline, form feed). -/
def isCollWs (c : Char) : Bool :=
  c = ' ' || c = '\t' || c = '\r' || c = '\n' || c = '\x0c'

def collapseGo (prevWs : Bool) : Str → Str
  | [] => []
  | c :: rest =>
    if isCollWs c then
      if prevWs then collapseGo true rest else ' ' :: collapseGo true rest
    else c :: collapseGo false rest

def collapseWs (s : Str) : Str := collapseGo false s

/-- Strip one trailing whitespace run off the final text child when a
textblock closes, dropping the child when it becomes empty. -/
def stripTrailingInl (inl : List Inline) : List Inline :=
  match inl.reverse with
  | Inline.text s m :: restRev =>
    let s' := (s.reverse.dropWhile isCollWs).reverse
    if s' = [] then restRev.reverse else (Inline.text s' m :: restRev).reverse
  | _ => inl

/-- Block kinds for placement decisions: which node kinds a frame's
remaining content can accept directly. -/
inductive BKind where
  | bPara | bHeading | bBlockquote | bPre | bHr
  | bBulletL | bOrderedL | bTaskL | bListIt | bTaskIt
  | bTable | bRow | bCell | bHeaderC
deriving Repr, DecidableEq

def bkindOfNode : N → BKind
  | .paragraph _ => .bPara
  | .heading _ _ => .bHeading
  | .blockquote _ => .bBlockquote
  | .code_block _ _ => .bPre
  | .horizontal_rule => .bHr
  | .ordered_list _ _ => .bOrderedL
  | .bullet_list _ => .bBulletL
  | .list_item _ => .bListIt
  | .task_list _ => .bTaskL
  | .task_item _ _ => .bTaskIt
  | .table _ => .bTable
  | .table_row _ => .bRow
  | .table_cell _ => .bCell
  | .table_header _ => .bHeaderC

/-- Kinds in the schema group of blocks (usable wherever a generic block
is allowed; list items, task items, rows and cells are not). -/
def groupBlock : BKind → Bool
  | .bPara | .bHeading | .bBlockquote | .bPre | .bHr
  | .bBulletL | .bOrderedL | .bTaskL | .bTable => true
  | _ => false

/-- Whether a frame, given its children so far, directly accepts a node
of the given kind, per the schema content expressions. -/
def frameAccepts (f : Frame) (k : BKind) : Bool :=
  match f.kind with
  | .fDoc => groupBlock k
  | .fBlockquote => groupBlock k
  | .fListIt | .fTaskIt _ _ | .fCell | .fHeaderC =>
    if f.children.isEmpty then k = .bPara else groupBlock k
  | .fBulletL | .fOrderedL _ => k = .bListIt
  | .fTaskL => k = .bTaskIt
  | .fTable => k = .bRow
  | .fRow => k = .bCell || k = .bHeaderC
  | .fPara | .fHeading _ | .fPre _ _ => false

/-- Synthetic wrapper chain allowing a node of the given kind inside a
frame, mirroring the content-match wrapping search of the ProseMirror
DOM parser over this schema (ordered_list precedes bullet_list in the
schema, so it is the wrapper found first for an orphan list item). -/
def frameWrappers (f : Frame) (k : BKind) : Option (List FrameKind) :=
  match f.kind with
  | .fBulletL | .fOrderedL _ => if k = .bPara then some [.fListIt] else none
  | .fTaskL => if k = .bPara then some [.fTaskIt false false] else none
  | .fTable =>
    if k = .bCell || k = .bHeaderC then some [.fRow]
    else if k = .bPara then some [.fRow, .fCell] else none
  | .fRow => if k = .bPara then some [.fCell] else none
  | .fDoc | .fBlockquote =>
    if k = .bListIt then some [.fOrderedL 1]
    else if k = .bTaskIt then some [.fTaskL]
    else if k = .bRow then some [.fTable]
    else if k = .bCell || k = .bHeaderC then some [.fTable, .fRow] else none
  | .fListIt | .fTaskIt _ _ | .fCell | .fHeaderC =>
    if !f.children.isEmpty then
      if k = .bListIt then some [.fOrderedL 1]
      else if k = .bTaskIt then some [.fTaskL]
      else if k = .bRow then some [.fTable]
      else if k = .bCell || k = .bHeaderC then some [.fTable, .fRow] else none
    else none
  | _ => none

/-- Finish an open frame into a schema node, applying the trailing
whitespace strip and the required-content fill of the ProseMirror DOM
parser (an element whose required content is missing is completed with
empty default nodes). -/
def finishFrame (f : Frame) : N :=
  match f.kind with
  | .fDoc => N.blockquote f.children
  | .fPara => N.paragraph (stripTrailingInl f.inl)
  | .fHeading l => N.heading l (stripTrailingInl f.inl)
  | .fPre lang _ => N.code_block lang f.rawText
  | .fBlockquote =>
    N.blockquote (if f.children.isEmpty then [N.paragraph []] else f.children)
  | .fBulletL =>
    N.bullet_list (if f.children.isEmpty then [N.list_item [N.paragraph []]] else f.children)
  | .fOrderedL o =>
    N.ordered_list o (if f.children.isEmpty then [N.list_item [N.paragraph []]] else f.children)
  | .fTaskL =>
    N.task_list (if f.children.isEmpty then [N.task_item false [N.paragraph []]] else f.children)
  | .fListIt => N.list_item (if f.children.isEmpty then [N.paragraph []] else f.children)
  | .fTaskIt c _ => N.task_item c (if f.children.isEmpty then [N.paragraph []] else f.children)
  | .fTable => N.table (if f.children.isEmpty then [N.table_row []] else f.children)
  | .fRow => N.table_row f.children
  | .fCell => N.table_cell (if f.children.isEmpty then [N.paragraph []] else f.children)
  | .fHeaderC => N.table_header (if f.children.isEmpty then [N.paragraph []] else f.children)

def addChild (f : Frame) (n : N) : Frame :=
  { f with children := f.children ++ [n] }

/-- Close the top frame, adding the finished node to its parent; at the
document frame this is the identity. -/
def closeTop (st : BuildState) : BuildState :=
  match st.stack with
  | f :: parent :: rest =>
    { st with stack := addChild parent (finishFrame f) :: rest,
              marks := f.marksAtOpen }
  | _ => st

def isTextblock : FrameKind → Bool
  | .fPara | .fHeading _ => true
  | _ => false

def isPreKind : FrameKind → Bool
  | .fPre _ _ => true
  | _ => false

def closeMany : Nat → BuildState → BuildState
  | 0, st => st
  | n + 1, st => closeMany n (closeTop st)

/-- Find a place for a block node of the given kind: close open frames
and open wrapper frames until the context accepts it, as the ProseMirror
findPlace search does.  The document frame accepts every group block and
wraps the rest, so the search always resolves. -/
def placeGo : Nat → BuildState → BKind → BuildState
  | 0, st, _ => st
  | fuel + 1, st, k =>
    match st.stack with
    | [] => st
    | f :: _ =>
      if frameAccepts f k then st
      else
        match frameWrappers f k with
        | some ws =>
          { st with stack := (ws.map (newFrame · st.marks)).reverse ++ st.stack }
        | none => placeGo fuel (closeTop st) k

def placeBlock (st : BuildState) (k : BKind) : BuildState :=
  placeGo (st.stack.length + 2) st k

/-- Insert a finished block node at its place. -/
def insertBlock (st : BuildState) (n : N) : BuildState :=
  let st := placeBlock st (bkindOfNode n)
  match st.stack with
  | f :: rest => { st with stack := addChild f n :: rest }
  | [] => st

/-- Wrapper chain making the current frame able to hold inline content,
per the content-match wrapping search (a textblock needs no wrapper). -/
def inlineWrappers (f : Frame) : List FrameKind :=
  match f.kind with
  | .fPara | .fHeading _ | .fPre _ _ => []
  | .fDoc | .fBlockquote | .fListIt | .fTaskIt _ _ | .fCell | .fHeaderC => [.fPara]
  | .fBulletL | .fOrderedL _ => [.fListIt, .fPara]
  | .fTaskL => [.fTaskIt false false, .fPara]
  | .fTable => [.fRow, .fCell, .fPara]
  | .fRow => [.fCell, .fPara]

def placeInline (st : BuildState) : BuildState :=
  match st.stack with
  | f :: _ => { st with stack := ((inlineWrappers f).map (newFrame · st.marks)).reverse ++ st.stack }
  | [] => st

def lastInl (f : Frame) : Option Inline :=
  f.inl.getLast?

/-- Append an inline node into the top textblock frame, merging adjacent
text nodes that carry the same mark set. -/
def pushInline (st : BuildState) (i : Inline) : BuildState :=
  match st.stack with
  | f :: rest =>
    let inl' :=
      match i, f.inl.getLast? with
      | Inline.text s m, some (Inline.text s0 m0) =>
        if m = m0 then f.inl.dropLast ++ [Inline.text (s0 ++ s) m0]
        else f.inl ++ [i]
      | _, _ => f.inl ++ [i]
    { st with stack := { f with inl := inl' } :: rest }
  | [] => st

/-- Add a text run to the current textblock with the active marks,
applying whitespace collapsing and the leading-space drop rule of the
ProseMirror DOM parser. -/
def addTextIn (st : BuildState) (s : Str) : BuildState :=
  match st.stack with
  | f :: _ =>
    let v := collapseWs s
    let dropLead :=
      if v.head? = some ' ' then
        (match lastInl f with
         | none => true
         | some Inline.hard_break => true
         | some (Inline.text t _) => t.getLast? = some ' '
         | some _ => false)
      else false
    let v := if dropLead then v.drop 1 else v
    if v = [] then st else pushInline st (Inline.text v st.marks)
  | [] => st

def applyText (st : BuildState) (s : Str) : BuildState :=
  match st.stack with
  | f :: rest =>
    match f.kind with
    | .fPre lang sawCode =>
      { st with stack := { f with kind := .fPre lang sawCode, rawText := f.rawText ++ s } :: rest }
    | _ =>
      if isTextblock f.kind then addTextIn st s
      else if s.all isCollWs then st
      else addTextIn (placeInline st) s
  | [] => st

def applyInlineLeaf (st : BuildState) (i : Inline) : BuildState :=
  match st.stack with
  | f :: _ =>
    if isPreKind f.kind then st
    else if isTextblock f.kind then pushInline st i
    else pushInline (placeInline st) i
  | [] => st

def openBlockFrame (st : BuildState) (k : FrameKind) (b : BKind) : BuildState :=
  match st.stack with
  | f :: _ =>
    if isPreKind f.kind then st
    else
      let st := placeBlock st b
      { st with stack := newFrame k st.marks :: st.stack }
  | [] => st

def pushMark (st : BuildState) (m : Mark) : BuildState :=
  { st with marks := addMark m st.marks }

def popMark (st : BuildState) (m : Mark) : BuildState :=
  { st with marks := removeMark m st.marks }

/-- Record the checkbox state on the enclosing task items that have not
seen their first checkbox yet (the getAttrs querySelector finds the
first input in the subtree). -/
def applyInput (st : BuildState) (checked : Bool) : BuildState :=
  { st with stack := st.stack.map fun f =>
      match f.kind with
      | .fTaskIt _ false => { f with kind := .fTaskIt checked true }
      | _ => f }

def frameMatchesTag (tag : Str) (k : FrameKind) : Bool :=
  if tag = strL "p" then k = .fPara
  else if tag = strL "h1" || tag = strL "h2" || tag = strL "h3" ||
          tag = strL "h4" || tag = strL "h5" || tag = strL "h6" then
    match k with | .fHeading _ => true | _ => false
  else if tag = strL "pre" then isPreKind k
  else if tag = strL "blockquote" then k = .fBlockquote
  else if tag = strL "ul" then k = .fBulletL || k = .fTaskL
  else if tag = strL "ol" then match k with | .fOrderedL _ => true | _ => false
  else if tag = strL "li" then
    match k with | .fListIt => true | .fTaskIt _ _ => true | _ => false
  else if tag = strL "table" then k = .fTable
  else if tag = strL "tr" then k = .fRow
  else if tag = strL "td" then k = .fCell
  else if tag = strL "th" then k = .fHeaderC
  else false

def findFrameIdx (tag : Str) : List Frame → Option Nat
  | [] => none
  | f :: rest =>
    if frameMatchesTag tag f.kind then some 0
    else
      match findFrameIdx tag rest with
      | some n => some (n + 1)
      | none => none

def isMarkTag (tag : Str) : Bool :=
  tag = strL "strong" || tag = strL "b" || tag = strL "em" || tag = strL "i" ||
  tag = strL "code" || tag = strL "a"

/-- Apply one open tag token. -/
def applyOpen (st : BuildState) (tag : Str) (attrs : List (Str × Option Str)) : BuildState :=
  if tag = strL "p" then openBlockFrame st .fPara .bPara
  else if tag = strL "h1" then openBlockFrame st (.fHeading 1) .bHeading
  else if tag = strL "h2" then openBlockFrame st (.fHeading 2) .bHeading
  else if tag = strL "h3" then openBlockFrame st (.fHeading 3) .bHeading
  else if tag = strL "h4" then openBlockFrame st (.fHeading 4) .bHeading
  else if tag = strL "h5" then openBlockFrame st (.fHeading 5) .bHeading
  else if tag = strL "h6" then openBlockFrame st (.fHeading 6) .bHeading
  else if tag = strL "blockquote" then openBlockFrame st .fBlockquote .bBlockquote
  else if tag = strL "pre" then openBlockFrame st (.fPre none false) .bPre
  else if tag = strL "ul" then
    if classHas attrs (strL "task-list") then openBlockFrame st .fTaskL .bTaskL
    else openBlockFrame st .fBulletL .bBulletL
  else if tag = strL "ol" then
    let order : Int :=
      match attrVal attrs (strL "start") with
      | some v => (match parseNatDigits v with | some n => (n : Int) | none => 1)
      | none => 1
    openBlockFrame st (.fOrderedL order) .bOrderedL
  else if tag = strL "li" then
    if classHas attrs (strL "task-item") then openBlockFrame st (.fTaskIt false false) .bTaskIt
    else openBlockFrame st .fListIt .bListIt
  else if tag = strL "table" then openBlockFrame st .fTable .bTable
  else if tag = strL "tr" then openBlockFrame st .fRow .bRow
  else if tag = strL "td" then openBlockFrame st .fCell .bCell
  else if tag = strL "th" then openBlockFrame st .fHeaderC .bHeaderC
  else if tag = strL "hr" then
    match st.stack with
    | f :: _ => if isPreKind f.kind then st else insertBlock st N.horizontal_rule
    | [] => st
  else if tag = strL "br" then applyInlineLeaf st Inline.hard_break
  else if tag = strL "img" then
    match attrVal attrs (strL "src") with
    | some src => applyInlineLeaf st (Inline.image src (attrVal attrs (strL "alt")) (attrVal attrs (strL "title")))
    | none => st
  else if tag = strL "input" then applyInput st (hasAttr attrs (strL "checked"))
  else if tag = strL "strong" || tag = strL "b" then pushMark st Mark.strong
  else if tag = strL "em" || tag = strL "i" then pushMark st Mark.em
  else if tag = strL "code" then
    match st.stack with
    | f :: rest =>
      (match f.kind with
       | .fPre lang false =>
         let lang' := match attrVal attrs (strL "class") with
           | some v => langOfClass v
           | none => none
         { st with stack := { f with kind := .fPre (match lang' with | some l => some l | none => lang) true } :: rest }
       | .fPre _ true => st
       | _ => pushMark st Mark.code)
    | [] => st
  else if tag = strL "a" then
    match attrVal attrs (strL "href") with
    | some href => pushMark st (Mark.link href (attrVal attrs (strL "title")))
    | none => st
  else st

/-- Apply one close tag token. -/
def applyClose (st : BuildState) (tag : Str) : BuildState :=
  match st.stack with
  | f :: _ =>
    if isPreKind f.kind ∧ ¬ (tag = strL "pre") then
      if tag = strL "code" then st else st
    else if tag = strL "strong" || tag = strL "b" then popMark st Mark.strong
    else if tag = strL "em" || tag = strL "i" then popMark st Mark.em
    else if tag = strL "code" then popMark st Mark.code
    else if tag = strL "a" then popMark st (Mark.link [] none)
    else
      match findFrameIdx tag st.stack with
      | some n => closeMany (n + 1) st
      | none => st
  | [] => st

def applyTok (st : BuildState) (t : Tok) : BuildState :=
  match t with
  | Tok.textTok s => applyText st s
  | Tok.openTag tag attrs => applyOpen st tag attrs
  | Tok.closeTag tag => applyClose st tag

def buildInit : BuildState := ⟨[newFrame .fDoc []], []⟩

def docOfState (st : BuildState) : Doc :=
  let st := closeMany (st.stack.length - 1) st
  match st.stack with
  | f :: _ => if f.children.isEmpty then [N.paragraph []] else f.children
  | [] => [N.paragraph []]

/-- Model of the composition of the browser DOMParser and the ProseMirror
DOMParser for the editor schema, on the HTML dialect that markdownToHTML
emits. -/
def htmlToTree (html : Str) : Doc :=
  docOfState ((tokenize html).foldl applyTok buildInit)

/-- The full external-Markdown-to-document parse used by the editor: the
markdownToHTML text stage followed by the DOM parsing stage. -/
def parseMarkdown (md : Str) : Doc :=
  htmlToTree (markdownToHTML md)

/-!
Model of the tree-to-Markdown serializer: getNodeTextContent and
prosemirrorToMarkdown, including the Mermaid side-channel recovery that
reads the pre element at the node's document position.
-/

def wrapMarkMd (m : Mark) (t : Str) : Str :=
  match m with
  | .strong => strL "**" ++ t ++ strL "**"
  | .em => strL "*" ++ t ++ strL "*"
  | .code => strL "`" ++ t ++ strL "`"
  | .link href _ => strL "[" ++ t ++ strL "](" ++ href ++ strL ")"

/-- Inline serialization inside getNodeTextContent: a text child is
wrapped by its marks in stored order, an image child becomes image
syntax, and any other inline child (the hard break) contributes
nothing, since it is neither text, nor an image, nor a block. -/
def inlineToMd : Inline → Str
  | .text s marks => marks.foldl (fun acc m => wrapMarkMd m acc) s
  | .image src alt _ => strL "![" ++ (match alt with | some a => a | none => []) ++ strL "](" ++ src ++ strL ")"
  | .hard_break => []

mutual

/-- Model of getNodeTextContent: text children are serialized with their
marks, image children as image syntax, block children recursively; all
other children (hard breaks) are skipped. -/
def getNodeTextContent : N → Str
  | .paragraph inl => inlListToMd inl
  | .heading _ inl => inlListToMd inl
  | .code_block _ t => t
  | .horizontal_rule => []
  | .blockquote cs => getTCList cs
  | .ordered_list _ cs => getTCList cs
  | .bullet_list cs => getTCList cs
  | .list_item cs => getTCList cs
  | .task_list cs => getTCList cs
  | .task_item _ cs => getTCList cs
  | .table cs => getTCList cs
  | .table_row cs => getTCList cs
  | .table_cell cs => getTCList cs
  | .table_header cs => getTCList cs

def getTCList : List N → Str
  | [] => []
  | n :: rest => getNodeTextContent n ++ getTCList rest

def inlListToMd : List Inline → Str
  | [] => []
  | i :: rest => inlineToMd i ++ inlListToMd rest

end

def inlineSize : Inline → Nat
  | .text s _ => s.length
  | .image _ _ _ => 1
  | .hard_break => 1

mutual

/-- ProseMirror node sizes, used to compute the document position passed
to the side-channel DOM lookup. -/
def nodeSize : N → Nat
  | .paragraph inl => 2 + inlSizes inl
  | .heading _ inl => 2 + inlSizes inl
  | .code_block _ t => 2 + t.length
  | .horizontal_rule => 1
  | .blockquote cs => 2 + sizeList cs
  | .ordered_list _ cs => 2 + sizeList cs
  | .bullet_list cs => 2 + sizeList cs
  | .list_item cs => 2 + sizeList cs
  | .task_list cs => 2 + sizeList cs
  | .task_item _ cs => 2 + sizeList cs
  | .table cs => 2 + sizeList cs
  | .table_row cs => 2 + sizeList cs
  | .table_cell cs => 2 + sizeList cs
  | .table_header cs => 2 + sizeList cs

def sizeList : List N → Nat
  | [] => 0
  | n :: rest => nodeSize n + sizeList rest

def inlSizes : List Inline → Nat
  | [] => 0
  | i :: rest => inlineSize i + inlSizes rest

end

/-- The DOM pre element a mermaid code block may resolve to: its stored
original-code data attribute and its inner HTML. -/
structure PreDom where
  dataOriginalCode : Option Str
  innerHTML : Str
deriving Repr

/-- Side channel of code block positions to rendered pre elements,
modelling view.domAtPos over the editor DOM. -/
def SideChannel := Nat → Option PreDom

def scEmpty : SideChannel := fun _ => none

def hexVal (c : Char) : Option Nat :=
  if '0' ≤ c ∧ c ≤ '9' then some (c.toNat - 48)
  else if 'A' ≤ c ∧ c ≤ 'F' then some (c.toNat - 55)
  else if 'a' ≤ c ∧ c ≤ 'f' then some (c.toNat - 87)
  else none

def hexDigit (n : Nat) : Char :=
  if n < 10 then Char.ofNat (48 + n) else Char.ofNat (55 + n)

def uriUnreserved (c : Char) : Bool :=
  c.isAlpha || c.isDigit || c = '-' || c = '_' || c = '.' || c = '!' || c = '~' ||
  c = '*' || c = '(' || c = ')' || c = '\x27'

/-- Model of encodeURIComponent over the character range used here. -/
def encodeURIComponent (s : Str) : Str :=
  s.flatMap fun c =>
    if uriUnreserved c then [c]
    else ['%', hexDigit (c.toNat / 16 % 16), hexDigit (c.toNat % 16)]

/-- Model of decodeURIComponent, total by leaving malformed escapes
unchanged (the source would raise there; no reachable call does). -/
def decodeURIComponent : Str → Str
  | [] => []
  | '%' :: h1 :: h2 :: rest =>
    (match hexVal h1, hexVal h2 with
     | some a, some b => Char.ofNat (a * 16 + b) :: decodeURIComponent rest
     | _, _ => '%' :: decodeURIComponent (h1 :: h2 :: rest))
  | c :: rest => c :: decodeURIComponent rest

/-- Scanner for the mermaid original-code comment pattern: the literal
comment prefix, a nonempty dash-free capture, then the literal closing.
The capture class excludes dashes, so the trailing space before the
closing dashes must come from the captured run's final position. -/
def mermaidCommentScan : Nat → Str → Option Str
  | 0, _ => none
  | _, [] => none
  | fuel + 1, s =>
    if (strL "<!-- MERMAID_ORIGINAL_CODE:").isPrefixOf s then
      let after := s.drop 27
      let run := after.takeWhile (· ≠ '-')
      if run.getLast? = some ' ' ∧ run.dropLast ≠ [] ∧
          (strL "-->").isPrefixOf (after.drop run.length) then
        some run.dropLast
      else
        match s with
        | [] => none
        | _ :: rest => mermaidCommentScan fuel rest
    else
      match s with
      | [] => none
      | _ :: rest => mermaidCommentScan fuel rest

/-- The code_block serialization text: prefer the live text; for an
empty-bodied mermaid block consult the side channel, first the stored
data attribute, then the encoded comment. -/
def codeBlockTextOut (sc : SideChannel) (nodePos : Nat) (lang : Str) (text : Str) : Str :=
  if lang = strL "mermaid" ∧ trimJs text = [] then
    match sc nodePos with
    | some pre =>
      (match pre.dataOriginalCode with
       | some d => d
       | none =>
         match mermaidCommentScan (pre.innerHTML.length + 1) pre.innerHTML with
         | some m => decodeURIComponent m
         | none => text)
    | none => text
  else text

def checkedOf : N → Bool
  | .task_item c _ => c
  | _ => false

def joinSep (sep : Str) (xs : List Str) : Str := (xs.intersperse sep).flatten

def tableRowCells : N → Option (List N)
  | .table_row cs => some cs
  | .table_header cs => some cs
  | _ => none

def cellTextOf (c : N) : Option Str :=
  match c with
  | .table_cell _ => some (trimJs (getNodeTextContent c))
  | .table_header _ => some (trimJs (getNodeTextContent c))
  | _ => none

/-- Rows of cell texts extracted by the table case of the serializer:
rows are children recognised as table_row or table_header, cells are
children recognised as table_cell or table_header, text is the trimmed
node text content. -/
def tableMatrix (cs : List N) : List (List Str) :=
  cs.foldl (fun acc row =>
    match tableRowCells row with
    | some cells => acc ++ [cells.foldl (fun cacc c =>
        match cellTextOf c with
        | some t => cacc ++ [t]
        | none => cacc) []]
    | none => acc) []

def tableBlockStrings (cs : List N) : List Str :=
  let tbl := tableMatrix cs
  match tbl with
  | [] => []
  | header :: dataRows =>
    let separator := joinSep (strL " | ") (header.map fun _ => strL "---")
    [strL "| " ++ joinSep (strL " | ") header ++ strL " |\n",
     strL "| " ++ separator ++ strL " |\n"] ++
    (dataRows.map fun row => strL "| " ++ joinSep (strL " | ") row ++ strL " |\n") ++
    [strL "\n"]

/-- The strings one top-level node contributes to the serializer's blocks
array, given its document position for the side-channel lookup. -/
def blockStrings (sc : SideChannel) (nodePos : Nat) : N → List Str
  | .heading level inl =>
    [List.replicate level '#' ++ strL " " ++ inlListToMd inl ++ strL "\n"]
  | .paragraph inl =>
    let text := inlListToMd inl
    if trimJs text = [] then [] else [text ++ strL "\n"]
  | .blockquote cs => [strL "> " ++ getTCList cs ++ strL "\n"]
  | .code_block language text =>
    let lang := match language with | some l => l | none => []
    let out := codeBlockTextOut sc nodePos lang text
    [strL "```" ++ lang ++ strL "\n" ++ out ++ strL "\n```\n"]
  | .ordered_list _ cs =>
    (cs.map fun li => strL "1. " ++ getNodeTextContent li ++ strL "\n") ++ [strL "\n"]
  | .bullet_list cs =>
    (cs.map fun li => strL "- " ++ getNodeTextContent li ++ strL "\n") ++ [strL "\n"]
  | .task_list cs =>
    (cs.map fun ti =>
      strL "- " ++ strL (if checkedOf ti then "[x]" else "[ ]") ++ strL " " ++
      getNodeTextContent ti ++ strL "\n") ++ [strL "\n"]
  | .horizontal_rule => [strL "---\n\n"]
  | .table cs => tableBlockStrings cs
  | _ => []

def pmBlocksGo (sc : SideChannel) : Nat → List N → List Str
  | _, [] => []
  | offset, n :: rest =>
    blockStrings sc (offset + 1) n ++ pmBlocksGo sc (offset + nodeSize n) rest

/-- Model of prosemirrorToMarkdown: walk the document's top-level nodes
in order, switch on the node kind, join the pushed strings. -/
def prosemirrorToMarkdown (sc : SideChannel) (doc : Doc) : Str :=
  (pmBlocksGo sc 0 doc).flatten

/-- Serialization against an empty DOM side channel (no rendered mermaid
artifacts), the baseline for the round-trip statements. -/
def serializeDoc (doc : Doc) : Str := prosemirrorToMarkdown scEmpty doc

/-- Model of the side-channel write of renderMermaidDiagrams for a block
whose code is nonempty and whose render succeeded: the original code is
stored in the data attribute before rendering, and the rendered inner
HTML is prefixed by the encoded original-code comment. -/
def renderMermaidPre (code : Str) (svg : Str) : PreDom :=
  { dataOriginalCode := some code,
    innerHTML := strL "<!-- MERMAID_ORIGINAL_CODE:" ++ encodeURIComponent code ++
                 strL " -->" ++ svg }

/-!
Model of the reconciliation controller: the mutable refs of the editor
component (lastMarkdownRef, isUpdatingRef, isExternalUpdateRef,
updateTimeoutRef), the dispatchTransaction handler, the debounce timer
callback, and the external-update effect.  The timeout ref is modelled
by two booleans: whether a timer is actually pending, and whether the
ref currently holds a (possibly stale) timeout id — the source's timer
callback never clears the ref, so the id stays set after firing.
-/

structure CtrlState where
  doc : Doc
  lastMarkdown : Str
  isUpdating : Bool
  isExternalUpdate : Bool
  timerPending : Bool
  timeoutIdSet : Bool
deriving Repr

/-- The initial controller state right after mount: the document parsed
from the initial content and lastMarkdownRef initialized to its
serialization. -/
def ctrlInit (content : Str) : CtrlState :=
  let doc := parseMarkdown content
  ⟨doc, serializeDoc doc, false, false, false, false⟩

inductive CtrlEvent where
  | localEdit (newDoc : Doc) (docChanged : Bool)
  | timerFire
  | external (content : Str)

/-- One dispatchTransaction call: update the view state; if the document
changed, either consume the external-update flag, or mark updating and
re-arm the debounce timer. -/
def dispatchTransaction (s : CtrlState) (newDoc : Doc) (docChanged : Bool) : CtrlState :=
  let s := { s with doc := newDoc }
  if docChanged then
    if s.isExternalUpdate then { s with isExternalUpdate := false }
    else { s with isUpdating := true, timerPending := true, timeoutIdSet := true }
  else s

/-- The debounce timer callback: serialize, emit onChange when the result
differs from the last known markdown, clear the updating flag.  The
timeout ref is left set. -/
def timerFireStep (s : CtrlState) : CtrlState × List Str :=
  if s.timerPending then
    let markdown := serializeDoc s.doc
    if markdown ≠ s.lastMarkdown then
      ({ s with lastMarkdown := markdown, isUpdating := false, timerPending := false }, [markdown])
    else
      ({ s with isUpdating := false, timerPending := false }, [])
  else (s, [])

/-- The external-update effect: return early if the user is updating or
the timeout ref is set; otherwise compare the incoming content against
the current serialization and, when different, wholesale-replace the
document through a dispatched transaction flagged as external. -/
def externalStep (s : CtrlState) (content : Str) : CtrlState :=
  if s.isUpdating || s.timeoutIdSet then s
  else
    let currentMarkdown := serializeDoc s.doc
    if currentMarkdown ≠ content then
      let s := { s with isExternalUpdate := true }
      let s := dispatchTransaction s (parseMarkdown content) true
      { s with lastMarkdown := content }
    else s

def ctrlStep (s : CtrlState) : CtrlEvent → CtrlState × List Str
  | .localEdit newDoc docChanged => (dispatchTransaction s newDoc docChanged, [])
  | .timerFire => timerFireStep s
  | .external content => (externalStep s content, [])

/-- Run a sequence of controller events, collecting onChange emissions. -/
def ctrlRun (s : CtrlState) : List CtrlEvent → CtrlState × List Str
  | [] => (s, [])
  | e :: rest =>
    let (s1, out1) := ctrlStep s e
    let (s2, out2) := ctrlRun s1 rest
    (s2, out1 ++ out2)

/-- A burst of local structural edits, as controller events. -/
def burstEvents (docs : List Doc) : List CtrlEvent :=
  docs.map fun d => CtrlEvent.localEdit d true

/-!
Remaining definitions: substring test, hard-break stripping, table
construction, and the benign document class for the round-trip
statements.
-/

def hasSubstr (pat : Str) : Str → Bool
  | [] => pat.isEmpty
  | c :: rest => pat.isPrefixOf (c :: rest) || hasSubstr pat rest

def isHardBreak : Inline → Bool
  | .hard_break => true
  | _ => false

def dropHardBreaks (inl : List Inline) : List Inline :=
  inl.filter fun i => !(isHardBreak i)

mutual

/-- The same document with every hard_break removed from every inline
run. -/
def stripHardBreaksN : N → N
  | .paragraph inl => .paragraph (dropHardBreaks inl)
  | .heading l inl => .heading l (dropHardBreaks inl)
  | .blockquote cs => .blockquote (stripHardBreaksList cs)
  | .code_block l t => .code_block l t
  | .horizontal_rule => .horizontal_rule
  | .ordered_list o cs => .ordered_list o (stripHardBreaksList cs)
  | .bullet_list cs => .bullet_list (stripHardBreaksList cs)
  | .list_item cs => .list_item (stripHardBreaksList cs)
  | .task_list cs => .task_list (stripHardBreaksList cs)
  | .task_item c cs => .task_item c (stripHardBreaksList cs)
  | .table cs => .table (stripHardBreaksList cs)
  | .table_row cs => .table_row (stripHardBreaksList cs)
  | .table_cell cs => .table_cell (stripHardBreaksList cs)
  | .table_header cs => .table_header (stripHardBreaksList cs)

def stripHardBreaksList : List N → List N
  | [] => []
  | n :: rest => stripHardBreaksN n :: stripHardBreaksList rest

end

def stripHardBreaksDoc (doc : Doc) : Doc := stripHardBreaksList doc

/-- A table of plain-text cells, for the serialization format statement. -/
def mkTable (rows : List (List Str)) : N :=
  N.table (rows.map fun r =>
    N.table_row (r.map fun t => N.table_cell [N.paragraph [Inline.text t []]]))

def docA : Doc := [N.paragraph [Inline.text (strL "a") []]]

def docB : Doc := [N.paragraph [Inline.text (strL "b") []]]

/-- Characters free of Markdown block or inline significance and of HTML
significance, for the non-lossy round-trip class. -/
def benignChar (c : Char) : Bool :=
  c.isAlpha || c.isDigit || c = ' ' || c = '.' || c = ',' || c = ':' ||
  c = ';' || c = '/' || c = '?' || c = '='

def noDoubleSpace : Str → Bool
  | c1 :: c2 :: rest => !(c1 = ' ' && c2 = ' ') && noDoubleSpace (c2 :: rest)
  | _ => true

/-- Benign text: nonempty, benign characters only, not digit-initial (so
an unmarked paragraph line cannot look like an ordered list item), no
edge spaces and no double spaces (so DOM whitespace normalization is the
identity). -/
def benignText (t : Str) : Bool :=
  (match t with
   | [] => false
   | c :: _ => benignChar c && !c.isDigit && c ≠ ' ') &&
  t.all benignChar &&
  t.getLast? ≠ some ' ' &&
  noDoubleSpace t

def benignHref (u : Str) : Bool := !u.isEmpty && u.all benignChar

/-- Subsets of em, strong, code in the schema's canonical rank order. -/
def benignMarksTail (tail : List Mark) : Bool :=
  tail = [] || tail = [Mark.em] || tail = [Mark.strong] || tail = [Mark.code] ||
  tail = [Mark.em, Mark.strong] || tail = [Mark.em, Mark.code] ||
  tail = [Mark.strong, Mark.code] || tail = [Mark.em, Mark.strong, Mark.code]

/-- Benign mark sets: subsets of link (title-less, benign href), em,
strong, code in the schema's canonical rank order. -/
def benignMarks (ms : List Mark) : Bool :=
  match ms with
  | Mark.link u ti :: rest => ti = none && benignHref u && benignMarksTail rest
  | other => benignMarksTail other

def benignInline : Inline → Bool
  | .text t ms => benignText t && benignMarks ms
  | _ => false

/-- An inline run of at most one benign text node. -/
def benignRun : List Inline → Bool
  | [] => true
  | [i] => benignInline i
  | _ => false

/-- An inline run of exactly one benign text node. -/
def benignRun1 : List Inline → Bool
  | [i] => benignInline i
  | _ => false

def benignItem : N → Bool
  | .list_item [N.paragraph inl] => benignRun inl
  | _ => false

/-- Blocks of the non-lossy round-trip class: paragraphs with one benign
text node, headings of level one to six, single-paragraph blockquotes,
nonempty bullet lists of single-paragraph items, horizontal rules. -/
def benignBlock : N → Bool
  | .paragraph inl => benignRun1 inl
  | .heading l inl => decide (1 ≤ l) && decide (l ≤ 6) && benignRun inl
  | .blockquote cs =>
    (match cs with
     | [N.paragraph inl] => benignRun inl
     | _ => false)
  | .bullet_list cs => !cs.isEmpty && cs.all benignItem
  | .horizontal_rule => true
  | _ => false

def benignDoc (doc : Doc) : Bool := !doc.isEmpty && doc.all benignBlock

/-- Opening tag text of a mark, as emitted by parseInlineMarkdown. -/
def markTagOpen : Mark → Str
  | .link u _ => strL "<a href=\"" ++ u ++ strL "\">"
  | .em => strL "<em>"
  | .strong => strL "<strong>"
  | .code => strL "<code>"

def markTagClose : Mark → Str
  | .link _ _ => strL "</a>"
  | .em => strL "</em>"
  | .strong => strL "</strong>"
  | .code => strL "</code>"

/-- The inline HTML parseInlineMarkdown produces for a benign text node:
tags nested outermost-to-innermost in descending rank order around the
text. -/
def inlineHtmlOf (t : Str) (ms : List Mark) : Str :=
  ms.foldl (fun acc m => markTagOpen m ++ acc ++ markTagClose m) t

def markOpenTok : Mark → Tok
  | .link u _ => .openTag (strL "a") [(strL "href", some u)]
  | .em => .openTag (strL "em") []
  | .strong => .openTag (strL "strong") []
  | .code => .openTag (strL "code") []

def markCloseTok : Mark → Tok
  | .link _ _ => .closeTag (strL "a")
  | .em => .closeTag (strL "em")
  | .strong => .closeTag (strL "strong")
  | .code => .closeTag (strL "code")

/-- Token list of the inline HTML of a benign text node. -/
def inlineToks (t : Str) (ms : List Mark) : List Tok :=
  (ms.reverse.map markOpenTok) ++ [Tok.textTok t] ++ ms.map markCloseTok

/-- The result entries markdownToHTML pushes for one benign block. -/
def blockFrags : N → List Str
  | .paragraph inl => [strL "<p>" ++ parseInlineMarkdown (inlListToMd inl) ++ strL "</p>"]
  | .heading l inl =>
    [strL "<h" ++ natDigits l ++ strL ">" ++ parseInlineMarkdown (inlListToMd inl) ++
     strL "</h" ++ natDigits l ++ strL ">"]
  | .blockquote cs =>
    [strL "<blockquote>" ++ parseInlineMarkdown (getTCList cs) ++ strL "</blockquote>"]
  | .bullet_list cs =>
    [strL "<ul>"] ++
    (cs.map fun li => strL "<li>" ++ parseInlineMarkdown (getNodeTextContent li) ++ strL "</li>") ++
    [strL "</ul>"]
  | .horizontal_rule => [strL "<hr>"]
  | _ => []

/-- The terminated line list one benign block contributes to the
serializer output. -/
def blockLinesOf : N → List Str
  | .paragraph inl => [inlListToMd inl]
  | .heading l inl => [List.replicate l '#' ++ strL " " ++ inlListToMd inl]
  | .blockquote cs => [strL "> " ++ getTCList cs]
  | .bullet_list cs => (cs.map fun li => strL "- " ++ getNodeTextContent li) ++ [[]]
  | .horizontal_rule => [strL "---", []]
  | _ => []

def unlinesT (ls : List Str) : Str := (ls.map fun l => l ++ ['\n']).flatten

def mkDocState (cs : List N) : BuildState :=
  ⟨[⟨FrameKind.fDoc, cs, [], [], []⟩], []⟩

/-- The build state inside an open bullet list at the document level. -/
def mkUlState (cs items : List N) : BuildState :=
  ⟨[⟨FrameKind.fBulletL, items, [], [], []⟩, ⟨FrameKind.fDoc, cs, [], [], []⟩], []⟩

/-- No two adjacent occurrences of the character. -/
def noAdj (c : Char) : Str → Bool
  | x :: y :: r => !(x = c && y = c) && noAdj c (y :: r)
  | _ => true

/-- No three consecutive occurrences of the character. -/
def noTriple (c : Char) : Str → Bool
  | x :: y :: z :: r => !(x = c && y = c && z = c) && noTriple c (y :: z :: r)
  | _ => true

/-- Concatenated opening tags of a mark tail, outermost first. -/
def tailOpens (tail : List Mark) : Str := (tail.reverse.map markTagOpen).flatten

/-- Concatenated closing tags of a mark tail, innermost first. -/
def tailCloses (tail : List Mark) : Str := (tail.map markTagClose).flatten

/-- The markdownToHTML loop state with no open constructs and the given
emitted fragments. -/
def cleanSt (res : List Str) : MdState :=
  ⟨res, false, none, [], false, false, false, [], false⟩

/-- Tokens of a benign inline run. -/
def runToks : List Inline → List Tok
  | [Inline.text t ms] => inlineToks t ms
  | _ => []

/-- The token stream one benign block's HTML fragments produce, with the
newline separators that precede each non-initial fragment. -/
def blockToks : N → List Tok
  | .paragraph inl =>
    Tok.openTag (strL "p") [] :: (runToks inl ++ [Tok.closeTag (strL "p")])
  | .heading l inl =>
    Tok.openTag ('h' :: natDigits l) [] :: (runToks inl ++ [Tok.closeTag ('h' :: natDigits l)])
  | .blockquote cs =>
    Tok.openTag (strL "blockquote") [] ::
      ((match cs with
        | [N.paragraph inl] => runToks inl
        | _ => []) ++ [Tok.closeTag (strL "blockquote")])
  | .bullet_list cs =>
    Tok.openTag (strL "ul") [] ::
      ((cs.map fun li =>
          Tok.textTok ['\n'] :: Tok.openTag (strL "li") [] ::
            (runToks (match li with
                      | N.list_item [N.paragraph inl] => inl
                      | _ => []) ++ [Tok.closeTag (strL "li")])).flatten ++
       [Tok.textTok ['\n'], Tok.closeTag (strL "ul")])
  | .horizontal_rule => [Tok.openTag (strL "hr") []]
  | _ => []

/-- Token stream of a benign document's HTML, newline separators between
adjacent fragments included. -/
def docToks : Doc → List Tok
  | [] => []
  | b :: bs => blockToks b ++ (bs.map fun b2 => Tok.textTok ['\n'] :: blockToks b2).flatten

/-- The HTML text of one block, its fragments joined by newlines. -/
def blockHtml (n : N) : Str := joinNL (blockFrags n)

/-- The inner bracket analysis of the task item matcher after the dash
and its following whitespace are consumed. -/
def taskInner (md : Str) : Option (Char × Str) :=
  match md with
  | c1 :: m :: c2 :: s3 =>
    if c1 = '[' ∧ (m = ' ' || m = 'x') ∧ c2 = ']' then
      match s3 with
      | c :: _ => if isJsWs c then some (m, dropWs s3) else none
      | [] => none
    else none
  | _ => none

/-!
Theorems.  Helper lemmas come first, then one theorem per claim (with
witnesses and counterexamples where required).
-/


theorem ctrlRun_cons (s : CtrlState) (e : CtrlEvent) (rest : List CtrlEvent) :
    ctrlRun s (e :: rest) =
      ((ctrlRun (ctrlStep s e).1 rest).1,
       (ctrlStep s e).2 ++ (ctrlRun (ctrlStep s e).1 rest).2) := rfl

theorem ctrlRun_append (s : CtrlState) (l1 l2 : List CtrlEvent) :
    ctrlRun s (l1 ++ l2) =
      ((ctrlRun (ctrlRun s l1).1 l2).1,
       (ctrlRun s l1).2 ++ (ctrlRun (ctrlRun s l1).1 l2).2) := by
  induction l1 generalizing s with
  | nil => simp [ctrlRun]
  | cons e rest ih =>
    rw [List.cons_append, ctrlRun_cons, ctrlRun_cons, ih]
    simp [List.append_assoc]

theorem localEdit_step (s : CtrlState) (d : Doc) (hext : s.isExternalUpdate = false) :
    ctrlStep s (CtrlEvent.localEdit d true) =
      ({ s with doc := d, isUpdating := true, timerPending := true, timeoutIdSet := true }, []) := by
  simp [ctrlStep, dispatchTransaction, hext]

theorem burst_state (s0 : CtrlState) (docs : List Doc) (h : docs ≠ [])
    (hext : s0.isExternalUpdate = false) :
    ctrlRun s0 (burstEvents docs) =
      ({ s0 with doc := docs.getLast h, isUpdating := true,
                 timerPending := true, timeoutIdSet := true }, []) := by
  induction docs generalizing s0 with
  | nil => exact absurd rfl h
  | cons d rest ih =>
    cases rest with
    | nil =>
      rw [show burstEvents [d] = [CtrlEvent.localEdit d true] from rfl,
          ctrlRun_cons, localEdit_step s0 d hext]
      simp [ctrlRun, List.getLast]
    | cons d2 rest2 =>
      rw [show burstEvents (d :: d2 :: rest2) =
            CtrlEvent.localEdit d true :: burstEvents (d2 :: rest2) from rfl,
          ctrlRun_cons, localEdit_step s0 d hext]
      dsimp only
      have hstep := ih { s0 with doc := d, isUpdating := true, timerPending := true, timeoutIdSet := true } (by simp) hext
      rw [hstep]
      simp [List.getLast]

/-- C3: when the controller receives an external Markdown value equal to
the serialization of its current document, it performs no document
replacement, changes no state at all, and emits no onChange. -/
theorem echo_suppression (s : CtrlState) :
    ctrlStep s (CtrlEvent.external (serializeDoc s.doc)) = (s, []) := by
  unfold ctrlStep externalStep
  by_cases h : (s.isUpdating || s.timeoutIdSet) = true
  · simp [h]
  · simp [h]

/-- C4 counterexample: a burst of two local structural edits inside the
debounce window whose final state serializes back to the last-known
markdown produces zero emissions at timer fire, not exactly one. -/
theorem debounce_burst_zero_emissions :
    (ctrlRun (ctrlInit (strL "a")) (burstEvents [docB, docA] ++ [CtrlEvent.timerFire])).2 = [] := by
  decide

/-- C4 amended: a burst of local edits inside the debounce window emits
nothing during the burst; at timer fire there is exactly one emission,
equal to the serialization of the final state, when that serialization
differs from the last-known markdown, and zero emissions otherwise. -/
theorem debounce_coalescing (s0 : CtrlState) (docs : List Doc) (h : docs ≠ [])
    (hext : s0.isExternalUpdate = false) :
    (ctrlRun s0 (burstEvents docs)).2 = [] ∧
    (ctrlRun s0 (burstEvents docs ++ [CtrlEvent.timerFire])).2 =
      (if serializeDoc (docs.getLast h) ≠ s0.lastMarkdown
       then [serializeDoc (docs.getLast h)] else []) := by
  constructor
  · rw [burst_state s0 docs h hext]
  · rw [ctrlRun_append, burst_state s0 docs h hext]
    simp only [ctrlRun, ctrlStep, timerFireStep]
    by_cases hne : serializeDoc (docs.getLast h) ≠ s0.lastMarkdown
    · simp [hne]
    · simp [hne]

theorem debounce_coalescing_witness :
    ([docB] ≠ ([] : List Doc)) ∧ (ctrlInit (strL "a")).isExternalUpdate = false ∧
    ((ctrlRun (ctrlInit (strL "a")) (burstEvents [docB])).2 = [] ∧
     (ctrlRun (ctrlInit (strL "a")) (burstEvents [docB] ++ [CtrlEvent.timerFire])).2 =
       (if serializeDoc ([docB].getLast (by simp)) ≠ (ctrlInit (strL "a")).lastMarkdown
        then [serializeDoc ([docB].getLast (by simp))] else [])) :=
  ⟨by simp, rfl, debounce_coalescing (ctrlInit (strL "a")) [docB] (by simp) rfl⟩

/-- C5: the code drops, rather than defers, an external value arriving
while the debounce timer is pending — and keeps dropping it after the
timer fires, because the timer callback never clears the timeout ref the
effect's guard reads.  After a local edit to docB, the external value c
never replaces the document, even when re-delivered after the fire. -/
theorem external_update_dropped :
    (ctrlRun (ctrlInit (strL "a"))
      [CtrlEvent.localEdit docB true, CtrlEvent.external (strL "c\n"),
       CtrlEvent.timerFire, CtrlEvent.external (strL "c\n")]).1.doc = docB ∧
    parseMarkdown (strL "c\n") ≠ docB := by
  refine ⟨rfl, ?_⟩
  intro hco
  have h1 : parseMarkdown (strL "c\n") = [N.paragraph [Inline.text (strL "c") []]] := rfl
  rw [h1, docB] at hco
  simp [strL] at hco

set_option maxRecDepth 40000 in
/-- C7: the task check regex character class admits only the space and
the lowercase x, so the line with the uppercase X falls through to the
bullet-list branch and parses as a bullet item with the literal bracket
text, while the lowercase and unchecked forms parse as task items; the
dead uppercase comparison in the source shows the case-insensitive
intent. -/
theorem task_check_mark_case :
    parseMarkdown (strL "- [x] t") =
      [N.task_list [N.task_item true [N.paragraph [Inline.text (strL "t") []]]]] ∧
    parseMarkdown (strL "- [ ] t") =
      [N.task_list [N.task_item false [N.paragraph [Inline.text (strL "t") []]]]] ∧
    parseMarkdown (strL "- [X] t") =
      [N.bullet_list [N.list_item [N.paragraph [Inline.text (strL "[X] t") []]]]] :=
  ⟨rfl, rfl, rfl⟩

/-- C9: for a mermaid code block whose live text was emptied by
rendering, serialization recovers the original source from the rendered
pre element's stored data attribute and emits it inside the fence; the
output is never the empty fenced block when the source is nonempty. -/
theorem mermaid_side_channel_recovery (code svg liveText : Str)
    (hlive : trimJs liveText = []) (hcode : code ≠ []) :
    prosemirrorToMarkdown (fun p => if p = 1 then some (renderMermaidPre code svg) else none)
        [N.code_block (some (strL "mermaid")) liveText] =
      strL "```mermaid\n" ++ code ++ strL "\n```\n" ∧
    prosemirrorToMarkdown (fun p => if p = 1 then some (renderMermaidPre code svg) else none)
        [N.code_block (some (strL "mermaid")) liveText] ≠
      strL "```mermaid\n\n```\n" := by
  have h1 : prosemirrorToMarkdown (fun p => if p = 1 then some (renderMermaidPre code svg) else none)
      [N.code_block (some (strL "mermaid")) liveText] =
      strL "```mermaid\n" ++ code ++ strL "\n```\n" := by
    simp [prosemirrorToMarkdown, pmBlocksGo, blockStrings, codeBlockTextOut, hlive,
      renderMermaidPre, strL]
  refine ⟨h1, ?_⟩
  rw [h1]
  intro heq
  have h3 := congrArg List.length heq
  simp only [List.length_append] at h3
  have hA : (strL "```mermaid\n").length = 11 := by decide
  have hB : (strL "\n```\n").length = 5 := by decide
  have hC : (strL "```mermaid\n\n```\n").length = 16 := by decide
  rw [hA, hB, hC] at h3
  have h4 : code.length = 0 := by omega
  exact hcode (List.length_eq_zero.mp h4)

theorem mermaid_side_channel_recovery_witness :
    trimJs [] = [] ∧ strL "graph TD" ≠ [] ∧
    (prosemirrorToMarkdown
        (fun p => if p = 1 then some (renderMermaidPre (strL "graph TD") (strL "<svg></svg>")) else none)
        [N.code_block (some (strL "mermaid")) []] =
      strL "```mermaid\n" ++ strL "graph TD" ++ strL "\n```\n" ∧
     prosemirrorToMarkdown
        (fun p => if p = 1 then some (renderMermaidPre (strL "graph TD") (strL "<svg></svg>")) else none)
        [N.code_block (some (strL "mermaid")) []] ≠
      strL "```mermaid\n\n```\n") :=
  ⟨rfl, by decide, mermaid_side_channel_recovery (strL "graph TD") (strL "<svg></svg>") [] rfl (by decide)⟩

theorem inlListToMd_dropHB (inl : List Inline) :
    inlListToMd (dropHardBreaks inl) = inlListToMd inl := by
  induction inl with
  | nil => rfl
  | cons i rest ih =>
    cases i with
    | text s m => simpa [dropHardBreaks, isHardBreak, inlListToMd, List.filter] using ih
    | image a b c => simpa [dropHardBreaks, isHardBreak, inlListToMd, List.filter] using ih
    | hard_break =>
      simpa [dropHardBreaks, isHardBreak, inlListToMd, inlineToMd, List.filter] using ih

theorem stripList_eq_map (cs : List N) :
    stripHardBreaksList cs = cs.map stripHardBreaksN := by
  induction cs with
  | nil => rfl
  | cons n rest ih => simp [stripHardBreaksList, ih]

mutual

theorem getTC_stripN : ∀ n : N,
    getNodeTextContent (stripHardBreaksN n) = getNodeTextContent n
  | .paragraph inl => by
    simp [stripHardBreaksN, getNodeTextContent, inlListToMd_dropHB]
  | .heading l inl => by
    simp [stripHardBreaksN, getNodeTextContent, inlListToMd_dropHB]
  | .code_block l t => rfl
  | .horizontal_rule => rfl
  | .blockquote cs => by
    simp [stripHardBreaksN, getNodeTextContent, getTC_stripList cs]
  | .ordered_list o cs => by
    simp [stripHardBreaksN, getNodeTextContent, getTC_stripList cs]
  | .bullet_list cs => by
    simp [stripHardBreaksN, getNodeTextContent, getTC_stripList cs]
  | .list_item cs => by
    simp [stripHardBreaksN, getNodeTextContent, getTC_stripList cs]
  | .task_list cs => by
    simp [stripHardBreaksN, getNodeTextContent, getTC_stripList cs]
  | .task_item c cs => by
    simp [stripHardBreaksN, getNodeTextContent, getTC_stripList cs]
  | .table cs => by
    simp [stripHardBreaksN, getNodeTextContent, getTC_stripList cs]
  | .table_row cs => by
    simp [stripHardBreaksN, getNodeTextContent, getTC_stripList cs]
  | .table_cell cs => by
    simp [stripHardBreaksN, getNodeTextContent, getTC_stripList cs]
  | .table_header cs => by
    simp [stripHardBreaksN, getNodeTextContent, getTC_stripList cs]

theorem getTC_stripList : ∀ cs : List N,
    getTCList (stripHardBreaksList cs) = getTCList cs
  | [] => rfl
  | n :: rest => by
    simp [stripHardBreaksList, getTCList, getTC_stripN n, getTC_stripList rest]

end

theorem checkedOf_strip (n : N) : checkedOf (stripHardBreaksN n) = checkedOf n := by
  cases n <;> rfl

theorem tableRowCells_strip (r : N) :
    tableRowCells (stripHardBreaksN r) = (tableRowCells r).map stripHardBreaksList := by
  cases r <;> rfl

theorem cellTextOf_strip (c : N) : cellTextOf (stripHardBreaksN c) = cellTextOf c := by
  cases c <;> simp [cellTextOf, stripHardBreaksN, getTC_stripN, getNodeTextContent,
    getTC_stripList]

theorem cellsFold_strip (cells : List N) : ∀ cacc : List Str,
    (stripHardBreaksList cells).foldl (fun cacc c =>
      match cellTextOf c with
      | some t => cacc ++ [t]
      | none => cacc) cacc =
    cells.foldl (fun cacc c =>
      match cellTextOf c with
      | some t => cacc ++ [t]
      | none => cacc) cacc := by
  induction cells with
  | nil => intro cacc; rfl
  | cons c rest ih =>
    intro cacc
    simp only [stripHardBreaksList, List.foldl_cons, cellTextOf_strip]
    exact ih _

theorem tableMatrixFold_go (cs : List N) : ∀ acc : List (List Str),
    cs.foldl (fun acc row =>
      match tableRowCells row with
      | some cells => acc ++ [cells.foldl (fun cacc c =>
          match cellTextOf c with
          | some t => cacc ++ [t]
          | none => cacc) []]
      | none => acc) acc =
    acc ++ cs.foldl (fun acc row =>
      match tableRowCells row with
      | some cells => acc ++ [cells.foldl (fun cacc c =>
          match cellTextOf c with
          | some t => cacc ++ [t]
          | none => cacc) []]
      | none => acc) [] := by
  induction cs with
  | nil => intro acc; simp
  | cons row rest ih =>
    intro acc
    simp only [List.foldl_cons]
    cases hr : tableRowCells row with
    | none =>
      simp only [hr]
      exact ih acc
    | some cells =>
      simp only [hr]
      rw [ih (acc ++ _), ih ([] ++ _)]
      simp [List.append_assoc]

theorem tableMatrix_cons (row : N) (rest : List N) :
    tableMatrix (row :: rest) =
      (match tableRowCells row with
       | some cells => [cells.foldl (fun cacc c =>
           match cellTextOf c with
           | some t => cacc ++ [t]
           | none => cacc) []]
       | none => []) ++ tableMatrix rest := by
  unfold tableMatrix
  simp only [List.foldl_cons]
  cases hr : tableRowCells row with
  | none => simp [hr]
  | some cells =>
    simp only [hr]
    rw [tableMatrixFold_go rest ([] ++ _)]
    simp

theorem tableMatrix_strip (cs : List N) :
    tableMatrix (stripHardBreaksList cs) = tableMatrix cs := by
  induction cs with
  | nil => rfl
  | cons row rest ih =>
    show tableMatrix (stripHardBreaksN row :: stripHardBreaksList rest) = _
    rw [tableMatrix_cons, tableMatrix_cons, ih, tableRowCells_strip]
    cases hr : tableRowCells row with
    | none => rfl
    | some cells =>
      simp only [Option.map_some']
      rw [cellsFold_strip]

theorem blockStrings_scEmpty_pos (p q : Nat) (n : N) :
    blockStrings scEmpty p n = blockStrings scEmpty q n := by
  cases n <;> simp [blockStrings, codeBlockTextOut, scEmpty]

theorem blockStrings_strip (p : Nat) (n : N) :
    blockStrings scEmpty p (stripHardBreaksN n) = blockStrings scEmpty p n := by
  cases n with
  | paragraph inl => simp [stripHardBreaksN, blockStrings, inlListToMd_dropHB]
  | heading l inl => simp [stripHardBreaksN, blockStrings, inlListToMd_dropHB]
  | blockquote cs => simp [stripHardBreaksN, blockStrings, getTC_stripList]
  | code_block l t => rfl
  | horizontal_rule => rfl
  | ordered_list o cs =>
    simp only [stripHardBreaksN, blockStrings, stripList_eq_map, List.map_map]
    congr 1
    apply List.map_congr_left
    intro li _
    simp [Function.comp, getTC_stripN]
  | bullet_list cs =>
    simp only [stripHardBreaksN, blockStrings, stripList_eq_map, List.map_map]
    congr 1
    apply List.map_congr_left
    intro li _
    simp [Function.comp, getTC_stripN]
  | task_list cs =>
    simp only [stripHardBreaksN, blockStrings, stripList_eq_map, List.map_map]
    congr 1
    apply List.map_congr_left
    intro ti _
    simp [Function.comp, getTC_stripN, checkedOf_strip]
  | table cs =>
    simp only [stripHardBreaksN, blockStrings, tableBlockStrings, tableMatrix_strip]
  | list_item cs => rfl
  | task_item c cs => rfl
  | table_row cs => rfl
  | table_cell cs => rfl
  | table_header cs => rfl

theorem pmBlocks_strip : ∀ (l : List N) (off1 off2 : Nat),
    pmBlocksGo scEmpty off1 (stripHardBreaksList l) = pmBlocksGo scEmpty off2 l
  | [], _, _ => rfl
  | n :: rest, off1, off2 => by
    simp only [stripHardBreaksList, pmBlocksGo]
    rw [blockStrings_strip, blockStrings_scEmpty_pos (off1 + 1) (off2 + 1),
      pmBlocks_strip rest]

/-- C10: serialization drops every hard_break: a document serializes to
exactly the same Markdown as the same document with all hard breaks
removed, so no marker for a hard break ever appears in the output. -/
theorem hard_breaks_silently_dropped (doc : Doc) :
    serializeDoc doc = serializeDoc (stripHardBreaksDoc doc) := by
  unfold serializeDoc prosemirrorToMarkdown stripHardBreaksDoc
  rw [pmBlocks_strip doc 0 0]

set_option maxRecDepth 40000 in
/-- C6 counterexample: the serialized separator row uses plain dashes,
not colon-dashes, and a literal pipe inside cell text is emitted
unescaped (the first cell a|b appears verbatim, corrupting the row
into four columns for any downstream pipe-table reader). -/
theorem table_serialization_counterexample :
    serializeDoc [mkTable [[strL "a|b", strL "c"], [strL "d", strL "e"]]] =
      strL "| a|b | c |\n| --- | --- |\n| d | e |\n\n" ∧
    hasSubstr (strL ":---")
      (serializeDoc [mkTable [[strL "a|b", strL "c"], [strL "d", strL "e"]]]) = false :=
  ⟨rfl, rfl⟩

theorem cellTextOf_mk (t : Str) :
    cellTextOf (N.table_cell [N.paragraph [Inline.text t []]]) = some (trimJs t) := by
  simp [cellTextOf, getNodeTextContent, getTCList, inlListToMd, inlineToMd]

theorem cellsFold_mk (r : List Str) : ∀ cacc : List Str,
    (r.map fun t => N.table_cell [N.paragraph [Inline.text t []]]).foldl
      (fun cacc c => match cellTextOf c with
        | some t => cacc ++ [t]
        | none => cacc) cacc = cacc ++ r.map trimJs := by
  induction r with
  | nil => intro cacc; simp
  | cons t rest ih =>
    intro cacc
    simp only [List.map_cons, List.foldl_cons, cellTextOf_mk]
    rw [ih]
    simp

theorem tableMatrix_mk (rows : List (List Str)) :
    tableMatrix (rows.map fun r =>
      N.table_row (r.map fun t => N.table_cell [N.paragraph [Inline.text t []]])) =
    rows.map fun r => r.map trimJs := by
  induction rows with
  | nil => rfl
  | cons r rest ih =>
    simp only [List.map_cons]
    rw [tableMatrix_cons, ih]
    simp only [tableRowCells]
    rw [cellsFold_mk r []]
    simp

/-- C6 amended: a table serializes to pipe-delimited rows with the first
row as header, a separator row of plain dash entries sized to the header
column count, then the data rows; cell text is trimmed and literal pipe
characters pass through unescaped. -/
theorem table_serialization_format (r0 : List Str) (rs : List (List Str)) :
    serializeDoc [mkTable (r0 :: rs)] =
      strL "| " ++ joinSep (strL " | ") (r0.map trimJs) ++ strL " |\n" ++
      (strL "| " ++ joinSep (strL " | ") (r0.map fun _ => strL "---") ++ strL " |\n") ++
      (rs.map fun r => strL "| " ++ joinSep (strL " | ") (r.map trimJs) ++ strL " |\n").flatten ++
      strL "\n" := by
  unfold serializeDoc prosemirrorToMarkdown pmBlocksGo mkTable
  simp only [blockStrings, tableBlockStrings, tableMatrix_mk, pmBlocksGo]
  simp only [List.map_cons, List.map_map]
  simp [List.flatten, Function.comp_def, List.append_assoc, List.map_const']

set_option maxRecDepth 40000 in
/-- C1 counterexample: a document consisting of one paragraph whose text
is a hash, a space and a letter serializes without escaping, so parsing
the serialization yields a level-one heading, not the original
paragraph. -/
theorem roundtrip_counterexample :
    parseMarkdown (serializeDoc [N.paragraph [Inline.text (strL "# x") []]]) ≠
      [N.paragraph [Inline.text (strL "# x") []]] := by
  have h : parseMarkdown (serializeDoc [N.paragraph [Inline.text (strL "# x") []]]) =
      [N.heading 1 [Inline.text (strL "x") []]] := rfl
  rw [h]
  intro hco
  simp [strL] at hco

set_option maxRecDepth 40000 in
/-- C2 counterexample: the one-paragraph document with text of three
asterisks serializes to a line of three asterisks; reparsing turns it
into a horizontal rule, which reserializes as three dashes, so the
output string is not a fixed point after one round trip. -/
theorem idempotence_counterexample :
    serializeDoc (parseMarkdown (serializeDoc [N.paragraph [Inline.text (strL "***") []]])) ≠
      serializeDoc [N.paragraph [Inline.text (strL "***") []]] := by
  decide

theorem splitUntil_some (stop : Char) :
    ∀ s a b, splitUntil stop s = some (a, b) → s = a ++ stop :: b ∧ stop ∉ a := by
  intro s
  induction s with
  | nil => intro a b h; simp [splitUntil] at h
  | cons c rest ih =>
    intro a b h
    by_cases hc : c = stop
    · subst hc
      simp [splitUntil] at h
      obtain ⟨ha, hb⟩ := h
      subst ha; subst hb
      simp
    · simp only [splitUntil, if_neg hc] at h
      cases hsp : splitUntil stop rest with
      | none => rw [hsp] at h; simp at h
      | some p =>
        rw [hsp] at h
        obtain ⟨a', b'⟩ := p
        simp at h
        obtain ⟨ha, hb⟩ := h
        obtain ⟨hs, hnm⟩ := ih a' b' hsp
        subst ha; subst hb
        constructor
        · simp [hs]
        · simp only [List.mem_cons, not_or]
          exact ⟨fun he => hc he.symm, hnm⟩

theorem splitUntil_append (stop : Char) :
    ∀ a b, stop ∉ a → splitUntil stop (a ++ stop :: b) = some (a, b) := by
  intro a
  induction a with
  | nil => intro b _; simp [splitUntil]
  | cons c rest ih =>
    intro b hnm
    simp only [List.mem_cons, not_or] at hnm
    have hcne : c ≠ stop := fun h => hnm.1 h.symm
    simp only [List.cons_append, splitUntil, if_neg hcne, List.append_eq]
    rw [ih b hnm.2]

theorem splitUntil_rest_len (stop : Char) :
    ∀ s a b, splitUntil stop s = some (a, b) → b.length < s.length := by
  intro s a b h
  obtain ⟨hs, _⟩ := splitUntil_some stop s a b h
  subst hs
  simp
  omega

theorem findLazy_fuel (close : Str) :
    ∀ (s : Str) (f1 f2 : Nat), s.length < f1 → s.length < f2 →
      findLazy close f1 s = findLazy close f2 s := by
  intro s
  induction s with
  | nil =>
    intro f1 f2 h1 h2
    cases f1 with
    | zero => omega
    | succ f1 =>
      cases f2 with
      | zero => omega
      | succ f2 => rfl
  | cons c rest ih =>
    intro f1 f2 h1 h2
    cases f1 with
    | zero => omega
    | succ f1 =>
      cases f2 with
      | zero => omega
      | succ f2 =>
        simp only [findLazy]
        rw [ih f1 f2 (by simp at h1; omega) (by simp at h2; omega)]

theorem findLazy_some_len (close : Str) :
    ∀ (fuel : Nat) (s : Str) b r, findLazy close fuel s = some (b, r) → r.length < s.length := by
  intro fuel
  induction fuel with
  | zero => intro s b r h; simp [findLazy] at h
  | succ fuel ih =>
    intro s b r h
    cases s with
    | nil => simp [findLazy] at h
    | cons c rest =>
      simp only [findLazy] at h
      by_cases hc : c = '\n'
      · simp [hc] at h
      · rw [if_neg hc] at h
        by_cases hp : close.isPrefixOf rest = true
        · simp only [hp, if_true] at h
          simp only [Option.some.injEq, Prod.mk.injEq] at h
          obtain ⟨hb, hr⟩ := h
          subst hr
          have hlen : (rest.drop close.length).length = rest.length - close.length :=
            List.length_drop close.length rest
          simp only [List.length_cons, hlen]
          omega
        · simp only [hp] at h
          cases hfl : findLazy close fuel rest with
          | none => rw [hfl] at h; simp at h
          | some p =>
            obtain ⟨b', r'⟩ := p
            rw [hfl] at h
            simp at h
            have := ih rest b' r' hfl
            obtain ⟨_, hr⟩ := h
            subst hr
            simp
            omega


theorem hasSubstr_false_of_head (c : Char) (pat : Str) :
    ∀ s : Str, c ∉ s → hasSubstr (c :: pat) s = false := by
  intro s
  induction s with
  | nil => intro _; rfl
  | cons d rest ih =>
    intro h
    simp only [List.mem_cons, not_or] at h
    have hpre : (c :: pat).isPrefixOf (d :: rest) = false := by
      simp only [List.isPrefixOf, Bool.and_eq_false_iff]
      left
      simp only [beq_eq_false_iff_ne, ne_eq]
      exact h.1
    simp [hasSubstr, hpre, ih h.2]

theorem wrapScan_nofire (l r pre post : Str) :
    ∀ (s : Str) (fuel : Nat), s.length < fuel → hasSubstr l s = false →
      wrapScan l r pre post fuel s = s := by
  intro s
  induction s with
  | nil =>
    intro fuel h _
    cases fuel with
    | zero => rfl
    | succ fuel => rfl
  | cons c rest ih =>
    intro fuel hf hs
    cases fuel with
    | zero => simp at hf
    | succ fuel =>
      simp only [hasSubstr, Bool.or_eq_false_iff] at hs
      simp only [wrapScan, hs.1, Bool.false_eq_true, if_false]
      rw [ih fuel (by simp at hf; omega) hs.2]

theorem findLazy_boundary (ch : Char) (ctail : Str) :
    ∀ (m : Str) (b : Str) (fuel : Nat), m ≠ [] → ch ∉ m → '\n' ∉ m →
      (m ++ (ch :: ctail) ++ b).length < fuel →
      findLazy (ch :: ctail) fuel (m ++ (ch :: ctail) ++ b) = some (m, b) := by
  intro m
  induction m with
  | nil => intro b fuel hm _ _ _; exact absurd rfl hm
  | cons x rest ih =>
    intro b fuel _ hmem hnl hf
    simp only [List.mem_cons, not_or] at hmem hnl
    cases fuel with
    | zero => simp at hf
    | succ fuel =>
      cases rest with
      | nil =>
        have hshape : ([x] ++ (ch :: ctail) ++ b) = x :: ((ch :: ctail) ++ b) := by simp
        rw [hshape]
        have hxnl : (x = '\n') = False := by
          simp only [eq_iff_iff, iff_false]
          intro he
          exact hnl.1 he.symm
        simp only [findLazy, hxnl, if_false]
        have hpre : (ch :: ctail).isPrefixOf ((ch :: ctail) ++ b) = true := by
          rw [List.isPrefixOf_iff_prefix]
          exact List.prefix_append _ _
        rw [if_pos hpre]
        congr 2
        exact List.drop_left (ch :: ctail) b
      | cons y rest2 =>
        have hshape : ((x :: y :: rest2) ++ (ch :: ctail) ++ b) =
            x :: ((y :: rest2) ++ (ch :: ctail) ++ b) := by simp
        rw [hshape]
        have hxnl : (x = '\n') = False := by
          simp only [eq_iff_iff, iff_false]
          intro he
          exact hnl.1 he.symm
        simp only [findLazy, hxnl, if_false]
        have hcy : ch ≠ y := by
          intro he
          exact hmem.2 (by rw [he]; exact List.mem_cons_self _ _)
        have hpre : (ch :: ctail).isPrefixOf ((y :: rest2) ++ (ch :: ctail) ++ b) = false := by
          simp only [List.cons_append, List.isPrefixOf, Bool.and_eq_false_iff]
          left
          simp only [beq_eq_false_iff_ne, ne_eq]
          exact hcy
        rw [if_neg (by rw [hpre]; exact Bool.false_ne_true)]
        have hrec := ih b fuel (by simp) hmem.2 hnl.2 (by simp at hf ⊢; omega)
        rw [hrec]

theorem wrapScan_fire (trig : Char) (ltail : Str) (rch : Char) (rtail : Str) (pre post : Str) :
    ∀ (a m b : Str) (fuel : Nat),
      trig ∉ a → m ≠ [] → rch ∉ m → '\n' ∉ m → trig ∉ b →
      (a ++ (trig :: ltail) ++ m ++ (rch :: rtail) ++ b).length < fuel →
      wrapScan (trig :: ltail) (rch :: rtail) pre post fuel
        (a ++ (trig :: ltail) ++ m ++ (rch :: rtail) ++ b) =
      a ++ pre ++ m ++ post ++ b := by
  intro a
  induction a with
  | nil =>
    intro m b fuel _ hm hrm hnl hb hf
    cases fuel with
    | zero => simp at hf
    | succ fuel =>
      have hshape : ([] : Str) ++ (trig :: ltail) ++ m ++ (rch :: rtail) ++ b =
          trig :: (ltail ++ (m ++ (rch :: rtail) ++ b)) := by simp
      rw [hshape]
      have hpre : (trig :: ltail).isPrefixOf (trig :: (ltail ++ (m ++ (rch :: rtail) ++ b))) = true := by
        rw [List.isPrefixOf_iff_prefix]
        have : trig :: (ltail ++ (m ++ (rch :: rtail) ++ b)) =
            (trig :: ltail) ++ (m ++ (rch :: rtail) ++ b) := by simp
        rw [this]
        exact List.prefix_append _ _
      simp only [wrapScan, hpre, if_true]
      have hdrop : (trig :: (ltail ++ (m ++ (rch :: rtail) ++ b))).drop (trig :: ltail).length =
          m ++ (rch :: rtail) ++ b := by
        have : trig :: (ltail ++ (m ++ (rch :: rtail) ++ b)) =
            (trig :: ltail) ++ (m ++ (rch :: rtail) ++ b) := by simp
        rw [this]
        exact List.drop_left (trig :: ltail) (m ++ (rch :: rtail) ++ b)
      rw [hdrop]
      rw [findLazy_boundary rch rtail m b fuel hm hrm hnl (by simp at hf ⊢; omega)]
      dsimp only
      rw [wrapScan_nofire _ _ _ _ b fuel (by simp at hf ⊢; omega)
        (hasSubstr_false_of_head trig ltail b hb)]
      simp
  | cons c arest ih =>
    intro m b fuel ha hm hrm hnl hb hf
    simp only [List.mem_cons, not_or] at ha
    cases fuel with
    | zero => simp at hf
    | succ fuel =>
      have hshape : (c :: arest) ++ (trig :: ltail) ++ m ++ (rch :: rtail) ++ b =
          c :: (arest ++ (trig :: ltail) ++ m ++ (rch :: rtail) ++ b) := by simp
      rw [hshape]
      have hpre : (trig :: ltail).isPrefixOf
          (c :: (arest ++ (trig :: ltail) ++ m ++ (rch :: rtail) ++ b)) = false := by
        simp only [List.isPrefixOf, Bool.and_eq_false_iff]
        left
        simp only [beq_eq_false_iff_ne, ne_eq]
        exact ha.1
      simp only [wrapScan, hpre, Bool.false_eq_true, if_false]
      have hrec := ih m b fuel ha.2 hm hrm hnl hb (by simp at hf ⊢; omega)
      rw [hrec]
      simp

theorem noAdj_cons (c x : Char) (s : Str) (hx : x ≠ c) (hs : noAdj c s = true) :
    noAdj c (x :: s) = true := by
  cases s with
  | nil => rfl
  | cons y r =>
    simp only [noAdj, Bool.and_eq_true, Bool.not_eq_true']
    exact ⟨by simp [hx], hs⟩

theorem noAdj_of_not_mem (c : Char) : ∀ s : Str, c ∉ s → noAdj c s = true := by
  intro s
  induction s with
  | nil => intro _; rfl
  | cons x r ih =>
    intro h
    simp only [List.mem_cons, not_or] at h
    exact noAdj_cons c x r (fun he => h.1 he.symm) (ih h.2)

theorem noAdj_append_left (c : Char) : ∀ (X : Str), c ∉ X → ∀ rest, noAdj c rest = true →
    noAdj c (X ++ rest) = true := by
  intro X
  induction X with
  | nil => intro _ rest h; exact h
  | cons x r ih =>
    intro hX rest h
    simp only [List.mem_cons, not_or] at hX
    exact noAdj_cons c x (r ++ rest) (fun he => hX.1 he.symm) (ih hX.2 rest h)

theorem noAdj_cons_c (c : Char) (b : Str) (hb : c ∉ b) : noAdj c (c :: b) = true := by
  cases b with
  | nil => rfl
  | cons b0 b' =>
    have h1 : b0 ≠ c := fun he => hb (by rw [he]; exact List.mem_cons_self _ _)
    simp only [noAdj, Bool.and_eq_true, Bool.not_eq_true']
    exact ⟨by simp [h1], noAdj_of_not_mem c (b0 :: b') hb⟩

theorem noAdj_wrap (c : Char) (X b : Str) (hX : c ∉ X) (hne : X ≠ []) (hb : c ∉ b) :
    noAdj c (c :: X ++ c :: b) = true := by
  cases X with
  | nil => exact absurd rfl hne
  | cons x0 X' =>
    have h0 : x0 ≠ c := fun he => hX (by rw [he]; exact List.mem_cons_self _ _)
    simp only [List.cons_append, noAdj, Bool.and_eq_true, Bool.not_eq_true']
    exact ⟨by simp [h0], noAdj_append_left c (x0 :: X') hX (c :: b) (noAdj_cons_c c b hb)⟩

theorem noAdj_tail (c x : Char) (s : Str) (h : noAdj c (x :: s) = true) : noAdj c s = true := by
  cases s with
  | nil => rfl
  | cons y r =>
    simp only [noAdj, Bool.and_eq_true] at h
    exact h.2

theorem noTriple_cons (c x : Char) (s : Str) (hx : x ≠ c) (hs : noTriple c s = true) :
    noTriple c (x :: s) = true := by
  cases s with
  | nil => rfl
  | cons y r =>
    cases r with
    | nil => rfl
    | cons z r' =>
      simp only [noTriple, Bool.and_eq_true, Bool.not_eq_true']
      exact ⟨by simp [hx], hs⟩

theorem noTriple_of_not_mem (c : Char) : ∀ s : Str, c ∉ s → noTriple c s = true := by
  intro s
  induction s with
  | nil => intro _; rfl
  | cons x r ih =>
    intro h
    simp only [List.mem_cons, not_or] at h
    exact noTriple_cons c x r (fun he => h.1 he.symm) (ih h.2)

theorem noTriple_append_left (c : Char) : ∀ (X : Str), c ∉ X → ∀ rest, noTriple c rest = true →
    noTriple c (X ++ rest) = true := by
  intro X
  induction X with
  | nil => intro _ rest h; exact h
  | cons x r ih =>
    intro hX rest h
    simp only [List.mem_cons, not_or] at hX
    exact noTriple_cons c x (r ++ rest) (fun he => hX.1 he.symm) (ih hX.2 rest h)

theorem noTriple_c_next (c x : Char) (s : Str) (hx : x ≠ c) (hs : noTriple c (x :: s) = true) :
    noTriple c (c :: x :: s) = true := by
  cases s with
  | nil => rfl
  | cons w r =>
    simp only [noTriple, Bool.and_eq_true, Bool.not_eq_true']
    exact ⟨by simp [hx], hs⟩

theorem noTriple_cc_b (c : Char) (b : Str) (hb : c ∉ b) : noTriple c (c :: c :: b) = true := by
  cases b with
  | nil => rfl
  | cons b0 b' =>
    have h1 : b0 ≠ c := fun he => hb (by rw [he]; exact List.mem_cons_self _ _)
    simp only [noTriple, Bool.and_eq_true, Bool.not_eq_true']
    exact ⟨by simp [h1], noTriple_c_next c b0 b' h1 (noTriple_of_not_mem c (b0 :: b') hb)⟩

theorem noTriple_cc (c : Char) (X b : Str) (hX : c ∉ X) (hne : X ≠ []) (hb : c ∉ b) :
    noTriple c (c :: c :: X ++ c :: c :: b) = true := by
  cases X with
  | nil => exact absurd rfl hne
  | cons x0 X' =>
    have h0 : x0 ≠ c := fun he => hX (by rw [he]; exact List.mem_cons_self _ _)
    simp only [List.cons_append, noTriple, Bool.and_eq_true, Bool.not_eq_true']
    refine ⟨by simp [h0], ?_⟩
    exact noTriple_c_next c x0 (X' ++ c :: c :: b) h0
      (noTriple_append_left c (x0 :: X') hX (c :: c :: b) (noTriple_cc_b c b hb))

theorem noTriple_tail (c x : Char) (s : Str) (h : noTriple c (x :: s) = true) :
    noTriple c s = true := by
  cases s with
  | nil => rfl
  | cons y r =>
    cases r with
    | nil => rfl
    | cons z r' =>
      simp only [noTriple, Bool.and_eq_true] at h
      exact h.2

theorem hasSubstr_cc_false (c : Char) (p : Str) : ∀ s : Str, noAdj c s = true →
    hasSubstr (c :: c :: p) s = false := by
  intro s
  induction s with
  | nil => intro _; rfl
  | cons x rest ih =>
    intro h
    have htail := ih (noAdj_tail c x rest h)
    have hpre : (c :: c :: p).isPrefixOf (x :: rest) = false := by
      simp only [List.isPrefixOf, Bool.and_eq_false_iff]
      by_cases hx : x = c
      · right
        cases rest with
        | nil => simp [List.isPrefixOf]
        | cons y r =>
          have hy : y ≠ c := by
            simp only [noAdj, Bool.and_eq_true, Bool.not_eq_true', Bool.and_eq_false_iff,
              decide_eq_false_iff_not, decide_eq_true_eq] at h
            rcases h.1 with h1 | h1
            · exact absurd hx h1
            · exact h1
          simp only [List.isPrefixOf, Bool.and_eq_false_iff]
          left
          exact beq_eq_false_iff_ne.mpr (fun he => hy he.symm)
      · left
        exact beq_eq_false_iff_ne.mpr (fun he => hx he.symm)
    simp [hasSubstr, hpre, htail]

theorem hasSubstr_ccc_false (c : Char) (p : Str) : ∀ s : Str, noTriple c s = true →
    hasSubstr (c :: c :: c :: p) s = false := by
  intro s
  induction s with
  | nil => intro _; rfl
  | cons x rest ih =>
    intro h
    have htail := ih (noTriple_tail c x rest h)
    have hpre : (c :: c :: c :: p).isPrefixOf (x :: rest) = false := by
      simp only [List.isPrefixOf, Bool.and_eq_false_iff]
      by_cases hx : x = c
      · right
        cases rest with
        | nil => simp [List.isPrefixOf]
        | cons y r =>
          simp only [List.isPrefixOf, Bool.and_eq_false_iff]
          by_cases hy : y = c
          · right
            cases r with
            | nil => simp [List.isPrefixOf]
            | cons z r' =>
              have hz : z ≠ c := by
                simp only [noTriple, Bool.and_eq_true, Bool.not_eq_true', Bool.and_eq_false_iff,
                  decide_eq_false_iff_not, decide_eq_true_eq] at h
                rcases h.1 with (h1 | h1) | h1
                · exact absurd hx h1
                · exact absurd hy h1
                · exact h1
              simp only [List.isPrefixOf, Bool.and_eq_false_iff]
              left
              exact beq_eq_false_iff_ne.mpr (fun he => hz he.symm)
          · left
            exact beq_eq_false_iff_ne.mpr (fun he => hy he.symm)
      · left
        exact beq_eq_false_iff_ne.mpr (fun he => hx he.symm)
    simp [hasSubstr, hpre, htail]

theorem codeScan_nofire : ∀ (s : Str) (fuel : Nat), s.length < fuel → '`' ∉ s →
    codeScan fuel s = s := by
  intro s
  induction s with
  | nil =>
    intro fuel hf _
    cases fuel with
    | zero => rfl
    | succ fuel => rfl
  | cons c rest ih =>
    intro fuel hf hm
    simp only [List.mem_cons, not_or] at hm
    cases fuel with
    | zero => simp at hf
    | succ fuel =>
      have hne : c ≠ '`' := fun he => hm.1 he.symm
      simp only [codeScan, matchCodeSpan, if_neg hne]
      rw [ih fuel (by simp at hf; omega) hm.2]

theorem codeScan_fire : ∀ (a body b : Str) (fuel : Nat),
    '`' ∉ a → body ≠ [] → '`' ∉ body → '`' ∉ b →
    (a ++ '`' :: body ++ '`' :: b).length < fuel →
    codeScan fuel (a ++ '`' :: body ++ '`' :: b) =
      a ++ strL "<code>" ++ body ++ strL "</code>" ++ b := by
  intro a
  induction a with
  | nil =>
    intro body b fuel _ hbody hbm hb hf
    cases fuel with
    | zero => simp at hf
    | succ fuel =>
      have hshape : ([] : Str) ++ '`' :: body ++ '`' :: b = '`' :: (body ++ '`' :: b) := by simp
      rw [hshape]
      simp only [codeScan, matchCodeSpan, if_pos rfl]
      rw [splitUntil_append '`' body b hbm]
      simp only [if_neg hbody, if_true]
      rw [codeScan_nofire b fuel (by simp at hf ⊢; omega) hb]
      simp [strL]
  | cons c arest ih =>
    intro body b fuel ha hbody hbm hb hf
    simp only [List.mem_cons, not_or] at ha
    cases fuel with
    | zero => simp at hf
    | succ fuel =>
      have hne : c ≠ '`' := fun he => ha.1 he.symm
      have hshape : (c :: arest) ++ '`' :: body ++ '`' :: b =
          c :: (arest ++ '`' :: body ++ '`' :: b) := by simp
      rw [hshape]
      simp only [codeScan, matchCodeSpan, if_neg hne]
      rw [ih body b fuel ha.2 hbody hbm hb (by simp at hf ⊢; omega)]
      simp

theorem linkScan_nofire : ∀ (s : Str) (fuel : Nat), s.length < fuel → '[' ∉ s →
    linkScan fuel s = s := by
  intro s
  induction s with
  | nil =>
    intro fuel hf _
    cases fuel with
    | zero => rfl
    | succ fuel => rfl
  | cons c rest ih =>
    intro fuel hf hm
    simp only [List.mem_cons, not_or] at hm
    cases fuel with
    | zero => simp at hf
    | succ fuel =>
      have hne : c ≠ '[' := fun he => hm.1 he.symm
      simp only [linkScan, matchLink, if_neg hne]
      rw [ih fuel (by simp at hf; omega) hm.2]

theorem linkScan_fire : ∀ (a t u b : Str) (fuel : Nat),
    '[' ∉ a → t ≠ [] → ']' ∉ t → u ≠ [] → ')' ∉ u → '[' ∉ b →
    (a ++ '[' :: t ++ ']' :: '(' :: u ++ ')' :: b).length < fuel →
    linkScan fuel (a ++ '[' :: t ++ ']' :: '(' :: u ++ ')' :: b) =
      a ++ strL "<a href=\"" ++ u ++ strL "\">" ++ t ++ strL "</a>" ++ b := by
  intro a
  induction a with
  | nil =>
    intro t u b fuel _ ht htm hu hum hb hf
    cases fuel with
    | zero => simp at hf
    | succ fuel =>
      have hshape : ([] : Str) ++ '[' :: t ++ ']' :: '(' :: u ++ ')' :: b =
          '[' :: (t ++ ']' :: ('(' :: (u ++ ')' :: b))) := by simp
      rw [hshape]
      simp only [linkScan, matchLink, if_pos rfl]
      rw [splitUntil_append ']' t ('(' :: (u ++ ')' :: b)) htm]
      simp only [if_neg ht, if_pos rfl]
      rw [splitUntil_append ')' u b hum]
      simp only [if_neg hu, if_true]
      rw [linkScan_nofire b fuel (by simp at hf ⊢; omega) hb]
      simp [strL]
  | cons c arest ih =>
    intro t u b fuel ha ht htm hu hum hb hf
    simp only [List.mem_cons, not_or] at ha
    cases fuel with
    | zero => simp at hf
    | succ fuel =>
      have hne : c ≠ '[' := fun he => ha.1 he.symm
      have hshape : (c :: arest) ++ '[' :: t ++ ']' :: '(' :: u ++ ')' :: b =
          c :: (arest ++ '[' :: t ++ ']' :: '(' :: u ++ ')' :: b) := by simp
      rw [hshape]
      simp only [linkScan, matchLink, if_neg hne]
      rw [ih t u b fuel ha.2 ht htm hu hum hb (by simp at hf ⊢; omega)]
      simp

theorem imageScan_nofire : ∀ (s : Str) (fuel : Nat), s.length < fuel → '!' ∉ s →
    imageScan fuel s = s := by
  intro s
  induction s with
  | nil =>
    intro fuel hf _
    cases fuel with
    | zero => rfl
    | succ fuel => rfl
  | cons c rest ih =>
    intro fuel hf hm
    simp only [List.mem_cons, not_or] at hm
    cases fuel with
    | zero => simp at hf
    | succ fuel =>
      have hne : c ≠ '!' := fun he => hm.1 he.symm
      have hmi : matchImage (c :: rest) = none := by
        cases rest with
        | nil => rfl
        | cons d r =>
          simp only [matchImage]
          rw [if_neg (fun hand => hne hand.1)]
      simp only [imageScan, hmi]
      rw [ih fuel (by simp at hf; omega) hm.2]

theorem not_mem_of_benign (t : Str) (ht : t.all benignChar = true) (c : Char)
    (hc : benignChar c = false) : c ∉ t := by
  intro hm
  rw [List.all_eq_true] at ht
  have := ht c hm
  rw [hc] at this
  exact Bool.false_ne_true this

theorem noAdj_imp_noTriple (c : Char) : ∀ s : Str, noAdj c s = true → noTriple c s = true := by
  intro s
  induction s with
  | nil => intro _; rfl
  | cons x r ih =>
    intro h
    cases r with
    | nil => rfl
    | cons y r' =>
      cases r' with
      | nil => rfl
      | cons z r'' =>
        simp only [noTriple, Bool.and_eq_true, Bool.not_eq_true']
        constructor
        · simp only [noAdj, Bool.and_eq_true, Bool.not_eq_true'] at h
          simp only [Bool.and_eq_false_iff]
          rcases Bool.and_eq_false_iff.mp h.1 with h1 | h1
          · left; left; exact h1
          · left; right; exact h1
        · exact ih (noAdj_tail c x (y :: z :: r'') h)

theorem not_mem_app3 (c : Char) (a X b : Str) (h1 : c ∉ a) (h2 : c ∉ X) (h3 : c ∉ b) :
    c ∉ a ++ X ++ b := by
  simp only [List.mem_append, not_or]
  exact ⟨⟨h1, h2⟩, h3⟩

theorem not_mem_app5 (c : Char) (a o X cl b : Str) (h1 : c ∉ a) (h2 : c ∉ o) (h3 : c ∉ X)
    (h4 : c ∉ cl) (h5 : c ∉ b) : c ∉ a ++ o ++ X ++ cl ++ b := by
  simp only [List.mem_append, not_or]
  exact ⟨⟨⟨⟨h1, h2⟩, h3⟩, h4⟩, h5⟩

theorem replTriple_nofire (s : Str) (h : noTriple '*' s = true) : replTriple s = s := by
  have h3 : strL "***" = '*' :: '*' :: '*' :: [] := rfl
  unfold replTriple
  rw [h3]
  exact wrapScan_nofire _ _ _ _ s (s.length + 1) (Nat.lt_succ_self _)
    (hasSubstr_ccc_false '*' [] s h)

theorem replDouble_nofire (s : Str) (h : noAdj '*' s = true) : replDouble s = s := by
  have h2 : strL "**" = '*' :: '*' :: [] := rfl
  unfold replDouble
  rw [h2]
  exact wrapScan_nofire _ _ _ _ s (s.length + 1) (Nat.lt_succ_self _)
    (hasSubstr_cc_false '*' [] s h)

theorem replSingle_nofire (s : Str) (h : '*' ∉ s) : replSingle s = s := by
  have h1 : strL "*" = '*' :: [] := rfl
  unfold replSingle
  rw [h1]
  exact wrapScan_nofire _ _ _ _ s (s.length + 1) (Nat.lt_succ_self _)
    (hasSubstr_false_of_head '*' [] s h)

theorem replTilde_nofire (s : Str) (h : '~' ∉ s) : replTilde s = s := by
  have h1 : strL "~~" = '~' :: '~' :: [] := rfl
  unfold replTilde
  rw [h1]
  exact wrapScan_nofire _ _ _ _ s (s.length + 1) (Nat.lt_succ_self _)
    (hasSubstr_false_of_head '~' ['~'] s h)

theorem replCode_nofire (s : Str) (h : '`' ∉ s) : replCode s = s := by
  unfold replCode
  exact codeScan_nofire s (s.length + 1) (Nat.lt_succ_self _) h

theorem replImage_nofire (s : Str) (h : '!' ∉ s) : replImage s = s := by
  unfold replImage
  exact imageScan_nofire s (s.length + 1) (Nat.lt_succ_self _) h

theorem replLink_nofire (s : Str) (h : '[' ∉ s) : replLink s = s := by
  unfold replLink
  exact linkScan_nofire s (s.length + 1) (Nat.lt_succ_self _) h

theorem replTriple_fire (a X b : Str) (ha : '*' ∉ a) (hX : X ≠ []) (hs : '*' ∉ X)
    (hnl : '\n' ∉ X) (hb : '*' ∉ b) :
    replTriple (a ++ ('*' :: ['*', '*']) ++ X ++ ('*' :: ['*', '*']) ++ b) =
      a ++ strL "<strong><em>" ++ X ++ strL "</em></strong>" ++ b := by
  have h3 : strL "***" = '*' :: ['*', '*'] := rfl
  unfold replTriple
  rw [h3]
  exact wrapScan_fire '*' ['*', '*'] '*' ['*', '*'] _ _ a X b _ ha hX hs hnl hb
    (Nat.lt_succ_self _)

theorem replDouble_fire (a X b : Str) (ha : '*' ∉ a) (hX : X ≠ []) (hs : '*' ∉ X)
    (hnl : '\n' ∉ X) (hb : '*' ∉ b) :
    replDouble (a ++ ('*' :: ['*']) ++ X ++ ('*' :: ['*']) ++ b) =
      a ++ strL "<strong>" ++ X ++ strL "</strong>" ++ b := by
  have h2 : strL "**" = '*' :: ['*'] := rfl
  unfold replDouble
  rw [h2]
  exact wrapScan_fire '*' ['*'] '*' ['*'] _ _ a X b _ ha hX hs hnl hb (Nat.lt_succ_self _)

theorem replSingle_fire (a X b : Str) (ha : '*' ∉ a) (hX : X ≠ []) (hs : '*' ∉ X)
    (hnl : '\n' ∉ X) (hb : '*' ∉ b) :
    replSingle (a ++ ('*' :: []) ++ X ++ ('*' :: []) ++ b) =
      a ++ strL "<em>" ++ X ++ strL "</em>" ++ b := by
  have h1 : strL "*" = '*' :: [] := rfl
  unfold replSingle
  rw [h1]
  exact wrapScan_fire '*' [] '*' [] _ _ a X b _ ha hX hs hnl hb (Nat.lt_succ_self _)

theorem replCode_fire (a body b : Str) (ha : '`' ∉ a) (hbody : body ≠ []) (hbm : '`' ∉ body)
    (hb : '`' ∉ b) :
    replCode (a ++ ('`' :: []) ++ body ++ ('`' :: []) ++ b) =
      a ++ strL "<code>" ++ body ++ strL "</code>" ++ b := by
  have hsh : a ++ ('`' :: []) ++ body ++ ('`' :: []) ++ b = a ++ '`' :: body ++ '`' :: b := by
    simp
  rw [hsh]
  unfold replCode
  exact codeScan_fire a body b _ ha hbody hbm hb (Nat.lt_succ_self _)

theorem replLink_fire (a t u b : Str) (ha : '[' ∉ a) (ht : t ≠ []) (htm : ']' ∉ t)
    (hu : u ≠ []) (hum : ')' ∉ u) (hb : '[' ∉ b) :
    replLink (a ++ '[' :: t ++ ']' :: '(' :: u ++ ')' :: b) =
      a ++ strL "<a href=\"" ++ u ++ strL "\">" ++ t ++ strL "</a>" ++ b := by
  unfold replLink
  exact linkScan_fire a t u b _ ha ht htm hu hum hb (Nat.lt_succ_self _)

theorem foldlTag_shape : ∀ (tail : List Mark) (X : Str),
    tail.foldl (fun acc m => markTagOpen m ++ acc ++ markTagClose m) X =
      tailOpens tail ++ X ++ tailCloses tail := by
  intro tail
  induction tail with
  | nil => intro X; simp [tailOpens, tailCloses]
  | cons m rest ih =>
    intro X
    simp only [List.foldl]
    rw [ih]
    simp [tailOpens, tailCloses, List.append_assoc]

theorem benignMarksTail_cases (tail : List Mark) (h : benignMarksTail tail = true) :
    tail = [] ∨ tail = [Mark.em] ∨ tail = [Mark.strong] ∨ tail = [Mark.code] ∨
    tail = [Mark.em, Mark.strong] ∨ tail = [Mark.em, Mark.code] ∨
    tail = [Mark.strong, Mark.code] ∨ tail = [Mark.em, Mark.strong, Mark.code] := by
  simp only [benignMarksTail, Bool.or_eq_true, decide_eq_true_eq] at h
  tauto

theorem benignMarks_cases (ms : List Mark) (h : benignMarks ms = true) :
    benignMarksTail ms = true ∨
    (∃ u tail, ms = Mark.link u none :: tail ∧ benignHref u = true ∧
      benignMarksTail tail = true) := by
  cases ms with
  | nil => left; exact h
  | cons m rest =>
    cases m with
    | link u ti =>
      right
      simp only [benignMarks, Bool.and_eq_true, decide_eq_true_eq] at h
      exact ⟨u, rest, by rw [h.1.1], h.1.2, h.2⟩
    | em => left; exact h
    | strong => left; exact h
    | code => left; exact h

theorem escStages (tail : List Mark) (ht : benignMarksTail tail = true) (X : Str)
    (hne : X ≠ []) (hstar : '*' ∉ X) (hbt : '`' ∉ X) (htld : '~' ∉ X) (hnl : '\n' ∉ X) :
    replCode (replTilde (replSingle (replDouble (replTriple
      (tail.foldl (fun acc m => wrapMarkMd m acc) X))))) =
    tailOpens tail ++ X ++ tailCloses tail := by
  rcases benignMarksTail_cases tail ht with h | h | h | h | h | h | h | h <;> subst h
  · simp only [List.foldl]
    rw [replTriple_nofire X (noTriple_of_not_mem '*' X hstar)]
    rw [replDouble_nofire X (noAdj_of_not_mem '*' X hstar)]
    rw [replSingle_nofire X hstar]
    rw [replTilde_nofire X htld]
    rw [replCode_nofire X hbt]
    simp [tailOpens, tailCloses]
  · have hmd : List.foldl (fun acc m => wrapMarkMd m acc) X [Mark.em] =
        ([] : Str) ++ ('*' :: []) ++ X ++ ('*' :: []) ++ [] := by
      simp [wrapMarkMd, strL]
    rw [hmd]
    have hAdj : noAdj '*' (([] : Str) ++ ('*' :: []) ++ X ++ ('*' :: []) ++ []) = true := by
      have h0 := noAdj_wrap '*' X [] hstar hne (List.not_mem_nil '*')
      have hsh : ([] : Str) ++ ('*' :: []) ++ X ++ ('*' :: []) ++ [] =
          '*' :: X ++ '*' :: ([] : Str) := by simp
      rw [hsh]
      exact h0
    rw [replTriple_nofire _ (noAdj_imp_noTriple '*' _ hAdj)]
    rw [replDouble_nofire _ hAdj]
    rw [replSingle_fire [] X [] (List.not_mem_nil _) hne hstar hnl (List.not_mem_nil _)]
    rw [replTilde_nofire _ (not_mem_app5 '~' _ _ _ _ _ (List.not_mem_nil _) (by decide) htld
      (by decide) (List.not_mem_nil _))]
    rw [replCode_nofire _ (not_mem_app5 '`' _ _ _ _ _ (List.not_mem_nil _) (by decide) hbt
      (by decide) (List.not_mem_nil _))]
    simp [tailOpens, tailCloses, markTagOpen, markTagClose, strL]
  · have hmd : List.foldl (fun acc m => wrapMarkMd m acc) X [Mark.strong] =
        ([] : Str) ++ ('*' :: ['*']) ++ X ++ ('*' :: ['*']) ++ [] := by
      simp [wrapMarkMd, strL]
    rw [hmd]
    have hTri : noTriple '*' (([] : Str) ++ ('*' :: ['*']) ++ X ++ ('*' :: ['*']) ++ []) = true := by
      have h0 := noTriple_cc '*' X [] hstar hne (List.not_mem_nil '*')
      have hsh : ([] : Str) ++ ('*' :: ['*']) ++ X ++ ('*' :: ['*']) ++ [] =
          '*' :: '*' :: X ++ '*' :: '*' :: ([] : Str) := by simp
      rw [hsh]
      exact h0
    rw [replTriple_nofire _ hTri]
    rw [replDouble_fire [] X [] (List.not_mem_nil _) hne hstar hnl (List.not_mem_nil _)]
    rw [replSingle_nofire _ (not_mem_app5 '*' _ _ _ _ _ (List.not_mem_nil _) (by decide) hstar
      (by decide) (List.not_mem_nil _))]
    rw [replTilde_nofire _ (not_mem_app5 '~' _ _ _ _ _ (List.not_mem_nil _) (by decide) htld
      (by decide) (List.not_mem_nil _))]
    rw [replCode_nofire _ (not_mem_app5 '`' _ _ _ _ _ (List.not_mem_nil _) (by decide) hbt
      (by decide) (List.not_mem_nil _))]
    simp [tailOpens, tailCloses, markTagOpen, markTagClose, strL]
  · have hmd : List.foldl (fun acc m => wrapMarkMd m acc) X [Mark.code] =
        ([] : Str) ++ ('`' :: []) ++ X ++ ('`' :: []) ++ [] := by
      simp [wrapMarkMd, strL]
    rw [hmd]
    have hstar5 : '*' ∉ ([] : Str) ++ ('`' :: []) ++ X ++ ('`' :: []) ++ [] :=
      not_mem_app5 '*' _ _ _ _ _ (List.not_mem_nil _) (by decide) hstar (by decide)
        (List.not_mem_nil _)
    rw [replTriple_nofire _ (noTriple_of_not_mem '*' _ hstar5)]
    rw [replDouble_nofire _ (noAdj_of_not_mem '*' _ hstar5)]
    rw [replSingle_nofire _ hstar5]
    rw [replTilde_nofire _ (not_mem_app5 '~' _ _ _ _ _ (List.not_mem_nil _) (by decide) htld
      (by decide) (List.not_mem_nil _))]
    rw [replCode_fire [] X [] (List.not_mem_nil _) hne hbt (List.not_mem_nil _)]
    simp [tailOpens, tailCloses, markTagOpen, markTagClose, strL]
  · have hmd : List.foldl (fun acc m => wrapMarkMd m acc) X [Mark.em, Mark.strong] =
        ([] : Str) ++ ('*' :: ['*', '*']) ++ X ++ ('*' :: ['*', '*']) ++ [] := by
      simp [wrapMarkMd, strL]
    rw [hmd]
    rw [replTriple_fire [] X [] (List.not_mem_nil _) hne hstar hnl (List.not_mem_nil _)]
    have hstar5 : '*' ∉ ([] : Str) ++ strL "<strong><em>" ++ X ++ strL "</em></strong>" ++ [] :=
      not_mem_app5 '*' _ _ _ _ _ (List.not_mem_nil _) (by decide) hstar (by decide)
        (List.not_mem_nil _)
    rw [replDouble_nofire _ (noAdj_of_not_mem '*' _ hstar5)]
    rw [replSingle_nofire _ hstar5]
    rw [replTilde_nofire _ (not_mem_app5 '~' _ _ _ _ _ (List.not_mem_nil _) (by decide) htld
      (by decide) (List.not_mem_nil _))]
    rw [replCode_nofire _ (not_mem_app5 '`' _ _ _ _ _ (List.not_mem_nil _) (by decide) hbt
      (by decide) (List.not_mem_nil _))]
    simp [tailOpens, tailCloses, markTagOpen, markTagClose, strL]
  · have hmd : List.foldl (fun acc m => wrapMarkMd m acc) X [Mark.em, Mark.code] =
        ['`'] ++ ('*' :: []) ++ X ++ ('*' :: []) ++ ['`'] := by
      simp [wrapMarkMd, strL]
    rw [hmd]
    have hAdj : noAdj '*' (['`'] ++ ('*' :: []) ++ X ++ ('*' :: []) ++ ['`']) = true := by
      have h0 := noAdj_cons '*' '`' ('*' :: X ++ '*' :: ['`']) (by decide)
        (noAdj_wrap '*' X ['`'] hstar hne (by decide))
      have hsh : ['`'] ++ ('*' :: []) ++ X ++ ('*' :: []) ++ ['`'] =
          '`' :: ('*' :: X ++ '*' :: ['`']) := by simp
      rw [hsh]
      exact h0
    rw [replTriple_nofire _ (noAdj_imp_noTriple '*' _ hAdj)]
    rw [replDouble_nofire _ hAdj]
    rw [replSingle_fire ['`'] X ['`'] (by decide) hne hstar hnl (by decide)]
    rw [replTilde_nofire _ (not_mem_app5 '~' _ _ _ _ _ (by decide) (by decide) htld
      (by decide) (by decide))]
    have hsh2 : ['`'] ++ strL "<em>" ++ X ++ strL "</em>" ++ ['`'] =
        ([] : Str) ++ ('`' :: []) ++ (strL "<em>" ++ X ++ strL "</em>") ++ ('`' :: []) ++ [] := by
      simp
    rw [hsh2]
    rw [replCode_fire [] (strL "<em>" ++ X ++ strL "</em>") [] (List.not_mem_nil _)
      (by simp [strL]) (not_mem_app3 '`' _ _ _ (by decide) hbt (by decide)) (List.not_mem_nil _)]
    simp [tailOpens, tailCloses, markTagOpen, markTagClose, strL]
  · have hmd : List.foldl (fun acc m => wrapMarkMd m acc) X [Mark.strong, Mark.code] =
        ['`'] ++ ('*' :: ['*']) ++ X ++ ('*' :: ['*']) ++ ['`'] := by
      simp [wrapMarkMd, strL]
    rw [hmd]
    have hTri : noTriple '*' (['`'] ++ ('*' :: ['*']) ++ X ++ ('*' :: ['*']) ++ ['`']) = true := by
      have h0 := noTriple_cons '*' '`' ('*' :: '*' :: X ++ '*' :: '*' :: ['`']) (by decide)
        (noTriple_cc '*' X ['`'] hstar hne (by decide))
      have hsh : ['`'] ++ ('*' :: ['*']) ++ X ++ ('*' :: ['*']) ++ ['`'] =
          '`' :: ('*' :: '*' :: X ++ '*' :: '*' :: ['`']) := by simp
      rw [hsh]
      exact h0
    rw [replTriple_nofire _ hTri]
    rw [replDouble_fire ['`'] X ['`'] (by decide) hne hstar hnl (by decide)]
    rw [replSingle_nofire _ (not_mem_app5 '*' _ _ _ _ _ (by decide) (by decide) hstar
      (by decide) (by decide))]
    rw [replTilde_nofire _ (not_mem_app5 '~' _ _ _ _ _ (by decide) (by decide) htld
      (by decide) (by decide))]
    have hsh2 : ['`'] ++ strL "<strong>" ++ X ++ strL "</strong>" ++ ['`'] =
        ([] : Str) ++ ('`' :: []) ++ (strL "<strong>" ++ X ++ strL "</strong>") ++
          ('`' :: []) ++ [] := by
      simp
    rw [hsh2]
    rw [replCode_fire [] (strL "<strong>" ++ X ++ strL "</strong>") [] (List.not_mem_nil _)
      (by simp [strL]) (not_mem_app3 '`' _ _ _ (by decide) hbt (by decide)) (List.not_mem_nil _)]
    simp [tailOpens, tailCloses, markTagOpen, markTagClose, strL]
  · have hmd : List.foldl (fun acc m => wrapMarkMd m acc) X [Mark.em, Mark.strong, Mark.code] =
        ['`'] ++ ('*' :: ['*', '*']) ++ X ++ ('*' :: ['*', '*']) ++ ['`'] := by
      simp [wrapMarkMd, strL]
    rw [hmd]
    rw [replTriple_fire ['`'] X ['`'] (by decide) hne hstar hnl (by decide)]
    have hstar5 : '*' ∉ ['`'] ++ strL "<strong><em>" ++ X ++ strL "</em></strong>" ++ ['`'] :=
      not_mem_app5 '*' _ _ _ _ _ (by decide) (by decide) hstar (by decide) (by decide)
    rw [replDouble_nofire _ (noAdj_of_not_mem '*' _ hstar5)]
    rw [replSingle_nofire _ hstar5]
    rw [replTilde_nofire _ (not_mem_app5 '~' _ _ _ _ _ (by decide) (by decide) htld
      (by decide) (by decide))]
    have hsh2 : ['`'] ++ strL "<strong><em>" ++ X ++ strL "</em></strong>" ++ ['`'] =
        ([] : Str) ++ ('`' :: []) ++ (strL "<strong><em>" ++ X ++ strL "</em></strong>") ++
          ('`' :: []) ++ [] := by
      simp
    rw [hsh2]
    rw [replCode_fire [] (strL "<strong><em>" ++ X ++ strL "</em></strong>") []
      (List.not_mem_nil _) (by simp [strL]) (not_mem_app3 '`' _ _ _ (by decide) hbt (by decide))
      (List.not_mem_nil _)]
    simp [tailOpens, tailCloses, markTagOpen, markTagClose, strL]

theorem benignText_parts (t : Str) (h : benignText t = true) :
    t.all benignChar = true ∧ t ≠ [] ∧ t.getLast? ≠ some ' ' ∧ noDoubleSpace t = true ∧
    (∀ c t', t = c :: t' → benignChar c = true ∧ c.isDigit = false ∧ c ≠ ' ') := by
  have h' := h
  simp only [benignText, Bool.and_eq_true, decide_eq_true_eq] at h'
  refine ⟨h'.1.1.2, ?_, h'.1.2, h'.2, ?_⟩
  · intro hnil
    rw [hnil] at h'
    simpa using h'.1.1.1
  · intro c t' hct
    rw [hct] at h'
    have hm := h'.1.1.1
    simp only [Bool.and_eq_true, decide_eq_true_eq, Bool.not_eq_true'] at hm
    exact ⟨hm.1.1, hm.1.2, hm.2⟩

theorem benignHref_parts (u : Str) (h : benignHref u = true) :
    u ≠ [] ∧ u.all benignChar = true := by
  simp only [benignHref, Bool.and_eq_true, Bool.not_eq_true'] at h
  refine ⟨fun hnil => ?_, h.2⟩
  rw [hnil] at h
  simpa using h.1

theorem tailTags_not_mem (tail : List Mark) (ht : benignMarksTail tail = true) :
    '!' ∉ tailOpens tail ∧ '[' ∉ tailOpens tail ∧ '!' ∉ tailCloses tail ∧
    '[' ∉ tailCloses tail := by
  rcases benignMarksTail_cases tail ht with h | h | h | h | h | h | h | h <;> subst h <;>
    exact ⟨by decide, by decide, by decide, by decide⟩

theorem linkMd_not_mem (c : Char) (t u : Str) (h1 : c ≠ '[') (h2 : c ∉ t) (h3 : c ≠ ']')
    (h4 : c ≠ '(') (h5 : c ∉ u) (h6 : c ≠ ')') :
    c ∉ '[' :: t ++ ']' :: '(' :: u ++ ')' :: ([] : Str) := by
  intro hm
  simp only [List.mem_cons, List.mem_append, List.not_mem_nil, or_false] at hm
  tauto

theorem parseInline_core (tail : List Mark) (ht : benignMarksTail tail = true) (t : Str)
    (hbt : benignText t = true) :
    parseInlineMarkdown (List.foldl (fun acc m => wrapMarkMd m acc) t tail) =
      tailOpens tail ++ t ++ tailCloses tail := by
  obtain ⟨hall, hne, _, _, _⟩ := benignText_parts t hbt
  have hstar : '*' ∉ t := not_mem_of_benign t hall '*' (by decide)
  have hbtk : '`' ∉ t := not_mem_of_benign t hall '`' (by decide)
  have htld : '~' ∉ t := not_mem_of_benign t hall '~' (by decide)
  have hnl : '\n' ∉ t := not_mem_of_benign t hall '\n' (by decide)
  have hbang : '!' ∉ t := not_mem_of_benign t hall '!' (by decide)
  have hbr : '[' ∉ t := not_mem_of_benign t hall '[' (by decide)
  obtain ⟨ho1, ho2, hc1, hc2⟩ := tailTags_not_mem tail ht
  unfold parseInlineMarkdown
  rw [escStages tail ht t hne hstar hbtk htld hnl]
  rw [replImage_nofire _ (not_mem_app3 '!' _ _ _ ho1 hbang hc1)]
  rw [replLink_nofire _ (not_mem_app3 '[' _ _ _ ho2 hbr hc2)]

theorem parseInline_linkcase (tail : List Mark) (ht : benignMarksTail tail = true)
    (t u : Str) (hbt : benignText t = true) (hu : benignHref u = true) :
    parseInlineMarkdown (List.foldl (fun acc m => wrapMarkMd m acc)
      (wrapMarkMd (Mark.link u none) t) tail) =
      tailOpens tail ++ (strL "<a href=\"" ++ u ++ strL "\">" ++ t ++ strL "</a>") ++
        tailCloses tail := by
  obtain ⟨hall, hne, _, _, _⟩ := benignText_parts t hbt
  obtain ⟨hune, huall⟩ := benignHref_parts u hu
  have hXform : wrapMarkMd (Mark.link u none) t =
      '[' :: t ++ ']' :: '(' :: u ++ ')' :: ([] : Str) := by
    simp [wrapMarkMd, strL]
  have hXne : wrapMarkMd (Mark.link u none) t ≠ [] := by
    rw [hXform]; simp
  have hXstar : '*' ∉ wrapMarkMd (Mark.link u none) t := by
    rw [hXform]
    exact linkMd_not_mem '*' t u (by decide) (not_mem_of_benign t hall '*' (by decide))
      (by decide) (by decide) (not_mem_of_benign u huall '*' (by decide)) (by decide)
  have hXbtk : '`' ∉ wrapMarkMd (Mark.link u none) t := by
    rw [hXform]
    exact linkMd_not_mem '`' t u (by decide) (not_mem_of_benign t hall '`' (by decide))
      (by decide) (by decide) (not_mem_of_benign u huall '`' (by decide)) (by decide)
  have hXtld : '~' ∉ wrapMarkMd (Mark.link u none) t := by
    rw [hXform]
    exact linkMd_not_mem '~' t u (by decide) (not_mem_of_benign t hall '~' (by decide))
      (by decide) (by decide) (not_mem_of_benign u huall '~' (by decide)) (by decide)
  have hXnl : '\n' ∉ wrapMarkMd (Mark.link u none) t := by
    rw [hXform]
    exact linkMd_not_mem '\n' t u (by decide) (not_mem_of_benign t hall '\n' (by decide))
      (by decide) (by decide) (not_mem_of_benign u huall '\n' (by decide)) (by decide)
  have hXbang : '!' ∉ wrapMarkMd (Mark.link u none) t := by
    rw [hXform]
    exact linkMd_not_mem '!' t u (by decide) (not_mem_of_benign t hall '!' (by decide))
      (by decide) (by decide) (not_mem_of_benign u huall '!' (by decide)) (by decide)
  obtain ⟨ho1, ho2, hc1, hc2⟩ := tailTags_not_mem tail ht
  unfold parseInlineMarkdown
  rw [escStages tail ht _ hXne hXstar hXbtk hXtld hXnl]
  rw [replImage_nofire _ (not_mem_app3 '!' _ _ _ ho1 hXbang hc1)]
  have hsh : tailOpens tail ++ wrapMarkMd (Mark.link u none) t ++ tailCloses tail =
      tailOpens tail ++ '[' :: t ++ ']' :: '(' :: u ++ ')' :: tailCloses tail := by
    rw [hXform]; simp
  rw [hsh]
  rw [replLink_fire (tailOpens tail) t u (tailCloses tail) ho2 hne
    (not_mem_of_benign t hall ']' (by decide)) hune
    (not_mem_of_benign u huall ')' (by decide)) hc2]
  simp [List.append_assoc]

theorem parseInline_benign (t : Str) (ms : List Mark) (hbt : benignText t = true)
    (hms : benignMarks ms = true) :
    parseInlineMarkdown (inlineToMd (Inline.text t ms)) = inlineHtmlOf t ms := by
  rcases benignMarks_cases ms hms with h | ⟨u, tail, hms', hu, htl⟩
  · have h1 : inlineToMd (Inline.text t ms) =
        List.foldl (fun acc m => wrapMarkMd m acc) t ms := rfl
    rw [h1, parseInline_core ms h t hbt]
    unfold inlineHtmlOf
    rw [foldlTag_shape]
  · subst hms'
    have h1 : inlineToMd (Inline.text t (Mark.link u none :: tail)) =
        List.foldl (fun acc m => wrapMarkMd m acc) (wrapMarkMd (Mark.link u none) t) tail := rfl
    rw [h1, parseInline_linkcase tail htl t u hbt hu]
    unfold inlineHtmlOf
    simp only [List.foldl]
    rw [foldlTag_shape]
    simp [markTagOpen, markTagClose, List.append_assoc]

theorem benign_ne (c : Char) (hb : benignChar c = true) (d : Char)
    (hd : benignChar d = false) : c ≠ d := by
  intro he
  rw [he, hd] at hb
  exact Bool.false_ne_true hb

theorem benign_not_ws (c : Char) (hb : benignChar c = true) (hs : c ≠ ' ') :
    isJsWs c = false := by
  by_contra h
  have h' : isJsWs c = true := by revert h; cases isJsWs c <;> simp
  simp only [isJsWs, Bool.or_eq_true, decide_eq_true_eq] at h'
  rcases h' with ((((((h1 | h1) | h1) | h1) | h1) | h1) | h1)
  · exact hs h1
  · rw [h1] at hb; exact Bool.false_ne_true ((by decide : benignChar '\t' = false) ▸ hb)
  · rw [h1] at hb; exact Bool.false_ne_true ((by decide : benignChar '\n' = false) ▸ hb)
  · rw [h1] at hb; exact Bool.false_ne_true ((by decide : benignChar '\r' = false) ▸ hb)
  · rw [h1] at hb; exact Bool.false_ne_true ((by decide : benignChar '\x0b' = false) ▸ hb)
  · rw [h1] at hb; exact Bool.false_ne_true ((by decide : benignChar '\x0c' = false) ▸ hb)
  · rw [h1] at hb; exact Bool.false_ne_true ((by decide : benignChar '\xa0' = false) ▸ hb)

theorem isPrefixOf_false_head (c d : Char) (pt s : Str) (h : c ≠ d) :
    (c :: pt).isPrefixOf (d :: s) = false := by
  simp [List.isPrefixOf, h]

theorem isPrefixOf_false_two (c y : Char) (pt s : Str) (h : c ≠ y) :
    (c :: c :: pt).isPrefixOf (c :: y :: s) = false := by
  simp [List.isPrefixOf, h]

theorem dropWs_cons (c : Char) (s : Str) (h : isJsWs c = false) : dropWs (c :: s) = c :: s := by
  simp [dropWs, List.dropWhile_cons, h]

theorem dropWhile_id_of_head (p : Char → Bool) (l : Str)
    (h : ∀ c, l.head? = some c → p c = false) : l.dropWhile p = l := by
  cases l with
  | nil => rfl
  | cons c r => simp [List.dropWhile_cons, h c rfl]

theorem getLast?_mem' (l : Str) (a : Char) (h : l.getLast? = some a) : a ∈ l := by
  rw [← List.head?_reverse] at h
  have hm : a ∈ l.reverse := by
    cases hr : l.reverse with
    | nil => rw [hr] at h; simp at h
    | cons x r =>
      rw [hr] at h
      simp only [List.head?_cons, Option.some.injEq] at h
      rw [← h]
      exact List.mem_cons_self _ _
  exact List.mem_reverse.mp hm

theorem getLast?_cons_ne (c : Char) (s : Str) (h : s ≠ []) : (c :: s).getLast? = s.getLast? := by
  cases s with
  | nil => exact absurd rfl h
  | cons d r => exact List.getLast?_cons_cons

theorem getLast?_append_lit (l1 l2 : Str) (h : l2 ≠ []) :
    (l1 ++ l2).getLast? = l2.getLast? := by
  induction l1 with
  | nil => rfl
  | cons c r ih =>
    have hne : r ++ l2 ≠ [] := by
      intro he
      rcases List.append_eq_nil.mp he with ⟨_, h2⟩
      exact h h2
    rw [List.cons_append, getLast?_cons_ne c (r ++ l2) hne, ih]

theorem head?_append_left (l1 l2 : Str) (c : Char) (h : l1.head? = some c) :
    (l1 ++ l2).head? = some c := by
  cases l1 with
  | nil => simp at h
  | cons d r => simpa using h

theorem trimJs_cons (c : Char) (s : Str) (h : isJsWs c = false) :
    trimJs (c :: s) = c :: (s.reverse.dropWhile isJsWs).reverse := by
  unfold trimJs
  rw [List.dropWhile_cons]
  rw [h]
  simp only [Bool.false_eq_true, if_false]
  rw [List.reverse_cons]
  rw [dropWhile_append_aux]
where
  dropWhile_append_aux : ((s.reverse ++ [c]).dropWhile isJsWs).reverse =
      c :: (s.reverse.dropWhile isJsWs).reverse := by
    have hstep : ∀ l : Str, (l ++ [c]).dropWhile isJsWs = l.dropWhile isJsWs ++ [c] := by
      intro l
      induction l with
      | nil => simp [List.dropWhile_cons, h]
      | cons x r ih =>
        by_cases hx : isJsWs x = true
        · simp [List.dropWhile_cons, hx, ih]
        · have hx' : isJsWs x = false := by revert hx; cases isJsWs x <;> simp
          simp [List.dropWhile_cons, hx']
    rw [hstep s.reverse]
    simp

theorem taskMatch_none_head (c : Char) (s : Str) (hws : isJsWs c = false) (hc : c ≠ '-') :
    taskMatch (c :: s) = none := by
  simp only [taskMatch, dropWs_cons c s hws]
  rw [if_neg hc]

theorem listMatch_none_head (c : Char) (s : Str) (hws : isJsWs c = false) (h1 : c ≠ '-')
    (h2 : c ≠ '*') : listMatch (c :: s) = none := by
  simp only [listMatch, dropWs_cons c s hws]
  rw [if_neg ?_]
  simp only [Bool.or_eq_true, decide_eq_true_eq, not_or]
  exact ⟨h1, h2⟩

theorem listMatch_star_none (y : Char) (s : Str) (hy : isJsWs y = false) :
    listMatch ('*' :: y :: s) = none := by
  simp only [listMatch, dropWs_cons '*' (y :: s) (by decide)]
  rw [if_pos (by decide)]
  rw [if_neg (by simp [hy])]

theorem listMatch_dash (md : Str) (hdw : dropWs md = md) :
    listMatch (strL "- " ++ md) = some ('-', md) := by
  have hsh : strL "- " ++ md = '-' :: ' ' :: md := rfl
  rw [hsh]
  simp only [listMatch, dropWs_cons '-' (' ' :: md) (by decide)]
  rw [if_pos (by decide)]
  rw [if_pos (by decide : isJsWs ' ' = true)]
  have : dropWs (' ' :: md) = md := by
    simp only [dropWs, List.dropWhile_cons]
    rw [if_pos (by decide : isJsWs ' ' = true)]
    exact hdw
  rw [this]

theorem orderedMatch_none_head (c : Char) (s : Str) (hws : isJsWs c = false)
    (hd : c.isDigit = false) : orderedMatch (c :: s) = none := by
  simp only [orderedMatch, dropWs_cons c s hws, List.takeWhile_cons, hd]
  simp

theorem headingMatch_none_head (c : Char) (s : Str) (hc : c ≠ '#') :
    headingMatch (c :: s) = none := by
  simp only [headingMatch, List.takeWhile_cons, hc]
  simp [hc]

theorem hrMatch_false_of_mem (line : Str) (c : Char) (hc : c ∈ line)
    (h1 : c ≠ '-') (h2 : c ≠ '_') (h3 : c ≠ '*') : hrMatch line = false := by
  simp only [hrMatch, Bool.and_eq_false_iff]
  right
  simp only [Bool.or_eq_false_iff]
  refine ⟨⟨?_, ?_⟩, ?_⟩
  · exact List.all_eq_false.mpr ⟨c, hc, by simp [h1]⟩
  · exact List.all_eq_false.mpr ⟨c, hc, by simp [h2]⟩
  · exact List.all_eq_false.mpr ⟨c, hc, by simp [h3]⟩

theorem taskMatch_dash (md : Str) (hdw : dropWs md = md) :
    taskMatch (strL "- " ++ md) = taskInner md := by
  have hsh : strL "- " ++ md = '-' :: ' ' :: md := rfl
  rw [hsh]
  simp only [taskMatch, dropWs_cons '-' (' ' :: md) (by decide)]
  rw [if_pos trivial]
  have hws : dropWs (' ' :: md) = md := by
    simp only [dropWs, List.dropWhile_cons]
    rw [if_pos (by decide : isJsWs ' ' = true)]
    exact hdw
  rw [hws]
  rfl

theorem taskMatch_dash_none_of_head (md : Str) (hdw : dropWs md = md) (c : Char) (rest : Str)
    (hmd : md = c :: rest) (hc : c ≠ '[') : taskMatch (strL "- " ++ md) = none := by
  rw [taskMatch_dash md hdw, hmd]
  simp only [taskInner]
  cases rest with
  | nil => rfl
  | cons m r2 =>
    cases r2 with
    | nil => rfl
    | cons c2 s3 =>
      exact if_neg (fun hand => hc hand.1)

theorem getLast?_esc_shape (t' : Str) (lit : List Char) (hlit : lit ≠ []) :
    (t' ++ lit).getLast? = lit.getLast? :=
  getLast?_append_lit t' lit hlit

theorem getLast?_link_shape (t' u : Str) (mid : List Char) (hmid : mid ≠ []) :
    (t' ++ ']' :: '(' :: (u ++ mid)).getLast? = mid.getLast? := by
  rw [getLast?_append_lit t' _ (by simp)]
  rw [getLast?_cons_ne _ _ (by simp)]
  have hum : u ++ mid ≠ [] := by
    intro h
    rcases List.append_eq_nil.mp h with ⟨_, h2⟩
    exact hmid h2
  rw [getLast?_cons_ne _ _ hum]
  rw [getLast?_append_lit u mid hmid]

theorem benignMd_facts (t : Str) (ms : List Mark) (hbt : benignText t = true)
    (hms : benignMarks ms = true) :
    ∃ c rest, inlineToMd (Inline.text t ms) = c :: rest ∧
      isJsWs c = false ∧
      (∀ d, (c :: rest).getLast? = some d → isJsWs d = false) ∧
      (strL "```").isPrefixOf (c :: rest) = false ∧
      (strL "|").isPrefixOf (c :: rest) = false ∧
      (strL ">").isPrefixOf (c :: rest) = false ∧
      taskMatch (c :: rest) = none ∧
      listMatch (c :: rest) = none ∧
      orderedMatch (c :: rest) = none ∧
      headingMatch (c :: rest) = none ∧
      hrMatch (c :: rest) = false ∧
      taskMatch (strL "- " ++ (c :: rest)) = none := by
  obtain ⟨hall, hne, hlastsp, hnds, hheadf⟩ := benignText_parts t hbt
  cases t with
  | nil => exact absurd rfl hne
  | cons t0 t' =>
  obtain ⟨hb0, hd0, hs0⟩ := hheadf t0 t' rfl
  have hw0 : isJsWs t0 = false := benign_not_ws t0 hb0 hs0
  have hall' : t'.all benignChar = true := by
    simp only [List.all_cons, Bool.and_eq_true] at hall
    exact hall.2
  have h3t : ∀ d, (t0 :: t').getLast? = some d → isJsWs d = false := by
    intro d hd
    have hmem := getLast?_mem' _ _ hd
    have hbd : benignChar d = true := by
      rw [List.all_eq_true] at hall
      exact hall d hmem
    have hdsp : d ≠ ' ' := by
      intro he
      rw [he] at hd
      exact hlastsp hd
    exact benign_not_ws d hbd hdsp
  rcases benignMarks_cases ms hms with hmT | ⟨u, tail, hmsE, hu, htl⟩
  · rcases benignMarksTail_cases ms hmT with h | h | h | h | h | h | h | h <;> subst h
    · refine ⟨t0, t', rfl, hw0, h3t, ?_, ?_, ?_, ?_, ?_, ?_, ?_, ?_, ?_⟩
      · exact isPrefixOf_false_head '`' t0 _ _ (Ne.symm (benign_ne t0 hb0 '`' (by decide)))
      · exact isPrefixOf_false_head '|' t0 _ _ (Ne.symm (benign_ne t0 hb0 '|' (by decide)))
      · exact isPrefixOf_false_head '>' t0 _ _ (Ne.symm (benign_ne t0 hb0 '>' (by decide)))
      · exact taskMatch_none_head t0 t' hw0 (benign_ne t0 hb0 '-' (by decide))
      · exact listMatch_none_head t0 t' hw0 (benign_ne t0 hb0 '-' (by decide))
          (benign_ne t0 hb0 '*' (by decide))
      · exact orderedMatch_none_head t0 t' hw0 hd0
      · exact headingMatch_none_head t0 t' (benign_ne t0 hb0 '#' (by decide))
      · exact hrMatch_false_of_mem _ t0 (List.mem_cons_self _ _)
          (benign_ne t0 hb0 '-' (by decide)) (benign_ne t0 hb0 '_' (by decide))
          (benign_ne t0 hb0 '*' (by decide))
      · exact taskMatch_dash_none_of_head _ (dropWs_cons t0 t' hw0) t0 t' rfl
          (benign_ne t0 hb0 '[' (by decide))
    · have hform : inlineToMd (Inline.text (t0 :: t') [Mark.em]) =
          '*' :: t0 :: (t' ++ ['*']) := by
        simp [inlineToMd, wrapMarkMd, strL]
      have hlastC : ('*' :: t0 :: (t' ++ ['*'])).getLast? = some '*' := by
        rw [getLast?_cons_ne _ _ (by simp), getLast?_cons_ne _ _ (by simp),
          List.getLast?_concat]
      refine ⟨'*', t0 :: (t' ++ ['*']), hform, by decide, ?_, ?_, ?_, ?_, ?_, ?_, ?_, ?_, ?_, ?_⟩
      · intro d hd; rw [hlastC] at hd; rw [← Option.some.inj hd]; decide
      · exact isPrefixOf_false_head '`' '*' _ _ (by decide)
      · exact isPrefixOf_false_head '|' '*' _ _ (by decide)
      · exact isPrefixOf_false_head '>' '*' _ _ (by decide)
      · exact taskMatch_none_head '*' _ (by decide) (by decide)
      · exact listMatch_star_none t0 _ hw0
      · exact orderedMatch_none_head '*' _ (by decide) (by decide)
      · exact headingMatch_none_head '*' _ (by decide)
      · exact hrMatch_false_of_mem _ t0 (by simp) (benign_ne t0 hb0 '-' (by decide))
          (benign_ne t0 hb0 '_' (by decide)) (benign_ne t0 hb0 '*' (by decide))
      · exact taskMatch_dash_none_of_head _ (dropWs_cons _ _ (by decide)) '*' _ rfl (by decide)
    · have hform : inlineToMd (Inline.text (t0 :: t') [Mark.strong]) =
          '*' :: '*' :: t0 :: (t' ++ ['*', '*']) := by
        simp [inlineToMd, wrapMarkMd, strL]
      have hlastC : ('*' :: '*' :: t0 :: (t' ++ ['*', '*'])).getLast? = some '*' := by
        rw [getLast?_cons_ne _ _ (by simp), getLast?_cons_ne _ _ (by simp),
          getLast?_cons_ne _ _ (by simp), getLast?_esc_shape t' _ (by decide)]
        decide
      refine ⟨'*', '*' :: t0 :: (t' ++ ['*', '*']), hform, by decide, ?_, ?_, ?_, ?_, ?_, ?_,
        ?_, ?_, ?_, ?_⟩
      · intro d hd; rw [hlastC] at hd; rw [← Option.some.inj hd]; decide
      · exact isPrefixOf_false_head '`' '*' _ _ (by decide)
      · exact isPrefixOf_false_head '|' '*' _ _ (by decide)
      · exact isPrefixOf_false_head '>' '*' _ _ (by decide)
      · exact taskMatch_none_head '*' _ (by decide) (by decide)
      · exact listMatch_star_none '*' _ (by decide)
      · exact orderedMatch_none_head '*' _ (by decide) (by decide)
      · exact headingMatch_none_head '*' _ (by decide)
      · exact hrMatch_false_of_mem _ t0 (by simp) (benign_ne t0 hb0 '-' (by decide))
          (benign_ne t0 hb0 '_' (by decide)) (benign_ne t0 hb0 '*' (by decide))
      · exact taskMatch_dash_none_of_head _ (dropWs_cons _ _ (by decide)) '*' _ rfl (by decide)
    · have hform : inlineToMd (Inline.text (t0 :: t') [Mark.code]) =
          '`' :: t0 :: (t' ++ ['`']) := by
        simp [inlineToMd, wrapMarkMd, strL]
      have hlastC : ('`' :: t0 :: (t' ++ ['`'])).getLast? = some '`' := by
        rw [getLast?_cons_ne _ _ (by simp), getLast?_cons_ne _ _ (by simp),
          List.getLast?_concat]
      refine ⟨'`', t0 :: (t' ++ ['`']), hform, by decide, ?_, ?_, ?_, ?_, ?_, ?_, ?_, ?_, ?_, ?_⟩
      · intro d hd; rw [hlastC] at hd; rw [← Option.some.inj hd]; decide
      · exact isPrefixOf_false_two '`' t0 _ _ (Ne.symm (benign_ne t0 hb0 '`' (by decide)))
      · exact isPrefixOf_false_head '|' '`' _ _ (by decide)
      · exact isPrefixOf_false_head '>' '`' _ _ (by decide)
      · exact taskMatch_none_head '`' _ (by decide) (by decide)
      · exact listMatch_none_head '`' _ (by decide) (by decide) (by decide)
      · exact orderedMatch_none_head '`' _ (by decide) (by decide)
      · exact headingMatch_none_head '`' _ (by decide)
      · exact hrMatch_false_of_mem _ t0 (by simp) (benign_ne t0 hb0 '-' (by decide))
          (benign_ne t0 hb0 '_' (by decide)) (benign_ne t0 hb0 '*' (by decide))
      · exact taskMatch_dash_none_of_head _ (dropWs_cons _ _ (by decide)) '`' _ rfl (by decide)
    · have hform : inlineToMd (Inline.text (t0 :: t') [Mark.em, Mark.strong]) =
          '*' :: '*' :: '*' :: t0 :: (t' ++ ['*', '*', '*']) := by
        simp [inlineToMd, wrapMarkMd, strL]
      have hlastC : ('*' :: '*' :: '*' :: t0 :: (t' ++ ['*', '*', '*'])).getLast? =
          some '*' := by
        rw [getLast?_cons_ne _ _ (by simp), getLast?_cons_ne _ _ (by simp),
          getLast?_cons_ne _ _ (by simp), getLast?_cons_ne _ _ (by simp),
          getLast?_esc_shape t' _ (by decide)]
        decide
      refine ⟨'*', '*' :: '*' :: t0 :: (t' ++ ['*', '*', '*']), hform, by decide, ?_, ?_, ?_,
        ?_, ?_, ?_, ?_, ?_, ?_, ?_⟩
      · intro d hd; rw [hlastC] at hd; rw [← Option.some.inj hd]; decide
      · exact isPrefixOf_false_head '`' '*' _ _ (by decide)
      · exact isPrefixOf_false_head '|' '*' _ _ (by decide)
      · exact isPrefixOf_false_head '>' '*' _ _ (by decide)
      · exact taskMatch_none_head '*' _ (by decide) (by decide)
      · exact listMatch_star_none '*' _ (by decide)
      · exact orderedMatch_none_head '*' _ (by decide) (by decide)
      · exact headingMatch_none_head '*' _ (by decide)
      · exact hrMatch_false_of_mem _ t0 (by simp) (benign_ne t0 hb0 '-' (by decide))
          (benign_ne t0 hb0 '_' (by decide)) (benign_ne t0 hb0 '*' (by decide))
      · exact taskMatch_dash_none_of_head _ (dropWs_cons _ _ (by decide)) '*' _ rfl (by decide)
    · have hform : inlineToMd (Inline.text (t0 :: t') [Mark.em, Mark.code]) =
          '`' :: '*' :: t0 :: (t' ++ ['*', '`']) := by
        simp [inlineToMd, wrapMarkMd, strL]
      have hlastC : ('`' :: '*' :: t0 :: (t' ++ ['*', '`'])).getLast? = some '`' := by
        rw [getLast?_cons_ne _ _ (by simp), getLast?_cons_ne _ _ (by simp),
          getLast?_cons_ne _ _ (by simp), getLast?_esc_shape t' _ (by decide)]
        decide
      refine ⟨'`', '*' :: t0 :: (t' ++ ['*', '`']), hform, by decide, ?_, ?_, ?_, ?_, ?_, ?_,
        ?_, ?_, ?_, ?_⟩
      · intro d hd; rw [hlastC] at hd; rw [← Option.some.inj hd]; decide
      · exact isPrefixOf_false_two '`' '*' _ _ (by decide)
      · exact isPrefixOf_false_head '|' '`' _ _ (by decide)
      · exact isPrefixOf_false_head '>' '`' _ _ (by decide)
      · exact taskMatch_none_head '`' _ (by decide) (by decide)
      · exact listMatch_none_head '`' _ (by decide) (by decide) (by decide)
      · exact orderedMatch_none_head '`' _ (by decide) (by decide)
      · exact headingMatch_none_head '`' _ (by decide)
      · exact hrMatch_false_of_mem _ t0 (by simp) (benign_ne t0 hb0 '-' (by decide))
          (benign_ne t0 hb0 '_' (by decide)) (benign_ne t0 hb0 '*' (by decide))
      · exact taskMatch_dash_none_of_head _ (dropWs_cons _ _ (by decide)) '`' _ rfl (by decide)
    · have hform : inlineToMd (Inline.text (t0 :: t') [Mark.strong, Mark.code]) =
          '`' :: '*' :: '*' :: t0 :: (t' ++ ['*', '*', '`']) := by
        simp [inlineToMd, wrapMarkMd, strL]
      have hlastC : ('`' :: '*' :: '*' :: t0 :: (t' ++ ['*', '*', '`'])).getLast? =
          some '`' := by
        rw [getLast?_cons_ne _ _ (by simp), getLast?_cons_ne _ _ (by simp),
          getLast?_cons_ne _ _ (by simp), getLast?_cons_ne _ _ (by simp),
          getLast?_esc_shape t' _ (by decide)]
        decide
      refine ⟨'`', '*' :: '*' :: t0 :: (t' ++ ['*', '*', '`']), hform, by decide, ?_, ?_, ?_,
        ?_, ?_, ?_, ?_, ?_, ?_, ?_⟩
      · intro d hd; rw [hlastC] at hd; rw [← Option.some.inj hd]; decide
      · exact isPrefixOf_false_two '`' '*' _ _ (by decide)
      · exact isPrefixOf_false_head '|' '`' _ _ (by decide)
      · exact isPrefixOf_false_head '>' '`' _ _ (by decide)
      · exact taskMatch_none_head '`' _ (by decide) (by decide)
      · exact listMatch_none_head '`' _ (by decide) (by decide) (by decide)
      · exact orderedMatch_none_head '`' _ (by decide) (by decide)
      · exact headingMatch_none_head '`' _ (by decide)
      · exact hrMatch_false_of_mem _ t0 (by simp) (benign_ne t0 hb0 '-' (by decide))
          (benign_ne t0 hb0 '_' (by decide)) (benign_ne t0 hb0 '*' (by decide))
      · exact taskMatch_dash_none_of_head _ (dropWs_cons _ _ (by decide)) '`' _ rfl (by decide)
    · have hform : inlineToMd (Inline.text (t0 :: t') [Mark.em, Mark.strong, Mark.code]) =
          '`' :: '*' :: '*' :: '*' :: t0 :: (t' ++ ['*', '*', '*', '`']) := by
        simp [inlineToMd, wrapMarkMd, strL]
      have hlastC :
          ('`' :: '*' :: '*' :: '*' :: t0 :: (t' ++ ['*', '*', '*', '`'])).getLast? =
          some '`' := by
        rw [getLast?_cons_ne _ _ (by simp), getLast?_cons_ne _ _ (by simp),
          getLast?_cons_ne _ _ (by simp), getLast?_cons_ne _ _ (by simp),
          getLast?_cons_ne _ _ (by simp), getLast?_esc_shape t' _ (by decide)]
        decide
      refine ⟨'`', '*' :: '*' :: '*' :: t0 :: (t' ++ ['*', '*', '*', '`']), hform, by decide,
        ?_, ?_, ?_, ?_, ?_, ?_, ?_, ?_, ?_, ?_⟩
      · intro d hd; rw [hlastC] at hd; rw [← Option.some.inj hd]; decide
      · exact isPrefixOf_false_two '`' '*' _ _ (by decide)
      · exact isPrefixOf_false_head '|' '`' _ _ (by decide)
      · exact isPrefixOf_false_head '>' '`' _ _ (by decide)
      · exact taskMatch_none_head '`' _ (by decide) (by decide)
      · exact listMatch_none_head '`' _ (by decide) (by decide) (by decide)
      · exact orderedMatch_none_head '`' _ (by decide) (by decide)
      · exact headingMatch_none_head '`' _ (by decide)
      · exact hrMatch_false_of_mem _ t0 (by simp) (benign_ne t0 hb0 '-' (by decide))
          (benign_ne t0 hb0 '_' (by decide)) (benign_ne t0 hb0 '*' (by decide))
      · exact taskMatch_dash_none_of_head _ (dropWs_cons _ _ (by decide)) '`' _ rfl (by decide)
  · subst hmsE
    obtain ⟨hune, huall⟩ := benignHref_parts u hu
    rcases benignMarksTail_cases tail htl with h | h | h | h | h | h | h | h <;> subst h
    · have hform : inlineToMd (Inline.text (t0 :: t') [Mark.link u none]) =
          '[' :: t0 :: (t' ++ ']' :: '(' :: (u ++ [')'])) := by
        simp [inlineToMd, wrapMarkMd, strL]
      have hlastC : ('[' :: t0 :: (t' ++ ']' :: '(' :: (u ++ [')']))).getLast? = some ')' := by
        rw [getLast?_cons_ne _ _ (by simp), getLast?_cons_ne _ _ (by simp),
          getLast?_link_shape t' u _ (by decide)]
        decide
      refine ⟨'[', t0 :: (t' ++ ']' :: '(' :: (u ++ [')'])), hform, by decide, ?_, ?_, ?_, ?_,
        ?_, ?_, ?_, ?_, ?_, ?_⟩
      · intro d hd; rw [hlastC] at hd; rw [← Option.some.inj hd]; decide
      · exact isPrefixOf_false_head '`' '[' _ _ (by decide)
      · exact isPrefixOf_false_head '|' '[' _ _ (by decide)
      · exact isPrefixOf_false_head '>' '[' _ _ (by decide)
      · exact taskMatch_none_head '[' _ (by decide) (by decide)
      · exact listMatch_none_head '[' _ (by decide) (by decide) (by decide)
      · exact orderedMatch_none_head '[' _ (by decide) (by decide)
      · exact headingMatch_none_head '[' _ (by decide)
      · exact hrMatch_false_of_mem _ t0 (by simp) (benign_ne t0 hb0 '-' (by decide))
          (benign_ne t0 hb0 '_' (by decide)) (benign_ne t0 hb0 '*' (by decide))
      · rw [taskMatch_dash _ (dropWs_cons _ _ (by decide))]
        cases t' with
        | nil =>
          simp only [List.nil_append, taskInner]
          split
          · simp [(by decide : isJsWs '(' = false)]
          · rfl
        | cons t1 t'' =>
          have hb1 : benignChar t1 = true := by
            simp only [List.all_cons, Bool.and_eq_true] at hall'
            exact hall'.1
          simp only [List.cons_append, taskInner]
          split
          · next hcond => exact absurd hcond.2.2 (benign_ne t1 hb1 ']' (by decide))
          · rfl
    · have hform : inlineToMd (Inline.text (t0 :: t') [Mark.link u none, Mark.em]) =
          '*' :: '[' :: t0 :: (t' ++ ']' :: '(' :: (u ++ [')', '*'])) := by
        simp [inlineToMd, wrapMarkMd, strL]
      have hlastC : ('*' :: '[' :: t0 :: (t' ++ ']' :: '(' :: (u ++ [')', '*']))).getLast? =
          some '*' := by
        rw [getLast?_cons_ne _ _ (by simp), getLast?_cons_ne _ _ (by simp),
          getLast?_cons_ne _ _ (by simp), getLast?_link_shape t' u _ (by decide)]
        decide
      refine ⟨'*', '[' :: t0 :: (t' ++ ']' :: '(' :: (u ++ [')', '*'])), hform, by decide,
        ?_, ?_, ?_, ?_, ?_, ?_, ?_, ?_, ?_, ?_⟩
      · intro d hd; rw [hlastC] at hd; rw [← Option.some.inj hd]; decide
      · exact isPrefixOf_false_head '`' '*' _ _ (by decide)
      · exact isPrefixOf_false_head '|' '*' _ _ (by decide)
      · exact isPrefixOf_false_head '>' '*' _ _ (by decide)
      · exact taskMatch_none_head '*' _ (by decide) (by decide)
      · exact listMatch_star_none '[' _ (by decide)
      · exact orderedMatch_none_head '*' _ (by decide) (by decide)
      · exact headingMatch_none_head '*' _ (by decide)
      · exact hrMatch_false_of_mem _ t0 (by simp) (benign_ne t0 hb0 '-' (by decide))
          (benign_ne t0 hb0 '_' (by decide)) (benign_ne t0 hb0 '*' (by decide))
      · exact taskMatch_dash_none_of_head _ (dropWs_cons _ _ (by decide)) '*' _ rfl (by decide)
    · have hform : inlineToMd (Inline.text (t0 :: t') [Mark.link u none, Mark.strong]) =
          '*' :: '*' :: '[' :: t0 :: (t' ++ ']' :: '(' :: (u ++ [')', '*', '*'])) := by
        simp [inlineToMd, wrapMarkMd, strL]
      have hlastC :
          ('*' :: '*' :: '[' :: t0 :: (t' ++ ']' :: '(' :: (u ++ [')', '*', '*']))).getLast? =
          some '*' := by
        rw [getLast?_cons_ne _ _ (by simp), getLast?_cons_ne _ _ (by simp),
          getLast?_cons_ne _ _ (by simp), getLast?_cons_ne _ _ (by simp),
          getLast?_link_shape t' u _ (by decide)]
        decide
      refine ⟨'*', '*' :: '[' :: t0 :: (t' ++ ']' :: '(' :: (u ++ [')', '*', '*'])), hform,
        by decide, ?_, ?_, ?_, ?_, ?_, ?_, ?_, ?_, ?_, ?_⟩
      · intro d hd; rw [hlastC] at hd; rw [← Option.some.inj hd]; decide
      · exact isPrefixOf_false_head '`' '*' _ _ (by decide)
      · exact isPrefixOf_false_head '|' '*' _ _ (by decide)
      · exact isPrefixOf_false_head '>' '*' _ _ (by decide)
      · exact taskMatch_none_head '*' _ (by decide) (by decide)
      · exact listMatch_star_none '*' _ (by decide)
      · exact orderedMatch_none_head '*' _ (by decide) (by decide)
      · exact headingMatch_none_head '*' _ (by decide)
      · exact hrMatch_false_of_mem _ t0 (by simp) (benign_ne t0 hb0 '-' (by decide))
          (benign_ne t0 hb0 '_' (by decide)) (benign_ne t0 hb0 '*' (by decide))
      · exact taskMatch_dash_none_of_head _ (dropWs_cons _ _ (by decide)) '*' _ rfl (by decide)
    · have hform : inlineToMd (Inline.text (t0 :: t') [Mark.link u none, Mark.code]) =
          '`' :: '[' :: t0 :: (t' ++ ']' :: '(' :: (u ++ [')', '`'])) := by
        simp [inlineToMd, wrapMarkMd, strL]
      have hlastC :
          ('`' :: '[' :: t0 :: (t' ++ ']' :: '(' :: (u ++ [')', '`']))).getLast? =
          some '`' := by
        rw [getLast?_cons_ne _ _ (by simp), getLast?_cons_ne _ _ (by simp),
          getLast?_cons_ne _ _ (by simp), getLast?_link_shape t' u _ (by decide)]
        decide
      refine ⟨'`', '[' :: t0 :: (t' ++ ']' :: '(' :: (u ++ [')', '`'])), hform, by decide,
        ?_, ?_, ?_, ?_, ?_, ?_, ?_, ?_, ?_, ?_⟩
      · intro d hd; rw [hlastC] at hd; rw [← Option.some.inj hd]; decide
      · exact isPrefixOf_false_two '`' '[' _ _ (by decide)
      · exact isPrefixOf_false_head '|' '`' _ _ (by decide)
      · exact isPrefixOf_false_head '>' '`' _ _ (by decide)
      · exact taskMatch_none_head '`' _ (by decide) (by decide)
      · exact listMatch_none_head '`' _ (by decide) (by decide) (by decide)
      · exact orderedMatch_none_head '`' _ (by decide) (by decide)
      · exact headingMatch_none_head '`' _ (by decide)
      · exact hrMatch_false_of_mem _ t0 (by simp) (benign_ne t0 hb0 '-' (by decide))
          (benign_ne t0 hb0 '_' (by decide)) (benign_ne t0 hb0 '*' (by decide))
      · exact taskMatch_dash_none_of_head _ (dropWs_cons _ _ (by decide)) '`' _ rfl (by decide)
    · have hform :
          inlineToMd (Inline.text (t0 :: t') [Mark.link u none, Mark.em, Mark.strong]) =
          '*' :: '*' :: '*' :: '[' :: t0 ::
            (t' ++ ']' :: '(' :: (u ++ [')', '*', '*', '*'])) := by
        simp [inlineToMd, wrapMarkMd, strL]
      have hlastC :
          ('*' :: '*' :: '*' :: '[' :: t0 ::
            (t' ++ ']' :: '(' :: (u ++ [')', '*', '*', '*']))).getLast? = some '*' := by
        rw [getLast?_cons_ne _ _ (by simp), getLast?_cons_ne _ _ (by simp),
          getLast?_cons_ne _ _ (by simp), getLast?_cons_ne _ _ (by simp),
          getLast?_cons_ne _ _ (by simp), getLast?_link_shape t' u _ (by decide)]
        decide
      refine ⟨'*', '*' :: '*' :: '[' :: t0 ::
        (t' ++ ']' :: '(' :: (u ++ [')', '*', '*', '*'])), hform, by decide,
        ?_, ?_, ?_, ?_, ?_, ?_, ?_, ?_, ?_, ?_⟩
      · intro d hd; rw [hlastC] at hd; rw [← Option.some.inj hd]; decide
      · exact isPrefixOf_false_head '`' '*' _ _ (by decide)
      · exact isPrefixOf_false_head '|' '*' _ _ (by decide)
      · exact isPrefixOf_false_head '>' '*' _ _ (by decide)
      · exact taskMatch_none_head '*' _ (by decide) (by decide)
      · exact listMatch_star_none '*' _ (by decide)
      · exact orderedMatch_none_head '*' _ (by decide) (by decide)
      · exact headingMatch_none_head '*' _ (by decide)
      · exact hrMatch_false_of_mem _ t0 (by simp) (benign_ne t0 hb0 '-' (by decide))
          (benign_ne t0 hb0 '_' (by decide)) (benign_ne t0 hb0 '*' (by decide))
      · exact taskMatch_dash_none_of_head _ (dropWs_cons _ _ (by decide)) '*' _ rfl (by decide)
    · have hform :
          inlineToMd (Inline.text (t0 :: t') [Mark.link u none, Mark.em, Mark.code]) =
          '`' :: '*' :: '[' :: t0 :: (t' ++ ']' :: '(' :: (u ++ [')', '*', '`'])) := by
        simp [inlineToMd, wrapMarkMd, strL]
      have hlastC :
          ('`' :: '*' :: '[' :: t0 ::
            (t' ++ ']' :: '(' :: (u ++ [')', '*', '`']))).getLast? = some '`' := by
        rw [getLast?_cons_ne _ _ (by simp), getLast?_cons_ne _ _ (by simp),
          getLast?_cons_ne _ _ (by simp), getLast?_cons_ne _ _ (by simp),
          getLast?_link_shape t' u _ (by decide)]
        decide
      refine ⟨'`', '*' :: '[' :: t0 :: (t' ++ ']' :: '(' :: (u ++ [')', '*', '`'])), hform,
        by decide, ?_, ?_, ?_, ?_, ?_, ?_, ?_, ?_, ?_, ?_⟩
      · intro d hd; rw [hlastC] at hd; rw [← Option.some.inj hd]; decide
      · exact isPrefixOf_false_two '`' '*' _ _ (by decide)
      · exact isPrefixOf_false_head '|' '`' _ _ (by decide)
      · exact isPrefixOf_false_head '>' '`' _ _ (by decide)
      · exact taskMatch_none_head '`' _ (by decide) (by decide)
      · exact listMatch_none_head '`' _ (by decide) (by decide) (by decide)
      · exact orderedMatch_none_head '`' _ (by decide) (by decide)
      · exact headingMatch_none_head '`' _ (by decide)
      · exact hrMatch_false_of_mem _ t0 (by simp) (benign_ne t0 hb0 '-' (by decide))
          (benign_ne t0 hb0 '_' (by decide)) (benign_ne t0 hb0 '*' (by decide))
      · exact taskMatch_dash_none_of_head _ (dropWs_cons _ _ (by decide)) '`' _ rfl (by decide)
    · have hform :
          inlineToMd (Inline.text (t0 :: t') [Mark.link u none, Mark.strong, Mark.code]) =
          '`' :: '*' :: '*' :: '[' :: t0 ::
            (t' ++ ']' :: '(' :: (u ++ [')', '*', '*', '`'])) := by
        simp [inlineToMd, wrapMarkMd, strL]
      have hlastC :
          ('`' :: '*' :: '*' :: '[' :: t0 ::
            (t' ++ ']' :: '(' :: (u ++ [')', '*', '*', '`']))).getLast? = some '`' := by
        rw [getLast?_cons_ne _ _ (by simp), getLast?_cons_ne _ _ (by simp),
          getLast?_cons_ne _ _ (by simp), getLast?_cons_ne _ _ (by simp),
          getLast?_cons_ne _ _ (by simp), getLast?_link_shape t' u _ (by decide)]
        decide
      refine ⟨'`', '*' :: '*' :: '[' :: t0 ::
        (t' ++ ']' :: '(' :: (u ++ [')', '*', '*', '`'])), hform, by decide,
        ?_, ?_, ?_, ?_, ?_, ?_, ?_, ?_, ?_, ?_⟩
      · intro d hd; rw [hlastC] at hd; rw [← Option.some.inj hd]; decide
      · exact isPrefixOf_false_two '`' '*' _ _ (by decide)
      · exact isPrefixOf_false_head '|' '`' _ _ (by decide)
      · exact isPrefixOf_false_head '>' '`' _ _ (by decide)
      · exact taskMatch_none_head '`' _ (by decide) (by decide)
      · exact listMatch_none_head '`' _ (by decide) (by decide) (by decide)
      · exact orderedMatch_none_head '`' _ (by decide) (by decide)
      · exact headingMatch_none_head '`' _ (by decide)
      · exact hrMatch_false_of_mem _ t0 (by simp) (benign_ne t0 hb0 '-' (by decide))
          (benign_ne t0 hb0 '_' (by decide)) (benign_ne t0 hb0 '*' (by decide))
      · exact taskMatch_dash_none_of_head _ (dropWs_cons _ _ (by decide)) '`' _ rfl (by decide)
    · have hform :
          inlineToMd (Inline.text (t0 :: t')
            [Mark.link u none, Mark.em, Mark.strong, Mark.code]) =
          '`' :: '*' :: '*' :: '*' :: '[' :: t0 ::
            (t' ++ ']' :: '(' :: (u ++ [')', '*', '*', '*', '`'])) := by
        simp [inlineToMd, wrapMarkMd, strL]
      have hlastC :
          ('`' :: '*' :: '*' :: '*' :: '[' :: t0 ::
            (t' ++ ']' :: '(' :: (u ++ [')', '*', '*', '*', '`']))).getLast? = some '`' := by
        rw [getLast?_cons_ne _ _ (by simp), getLast?_cons_ne _ _ (by simp),
          getLast?_cons_ne _ _ (by simp), getLast?_cons_ne _ _ (by simp),
          getLast?_cons_ne _ _ (by simp), getLast?_cons_ne _ _ (by simp),
          getLast?_link_shape t' u _ (by decide)]
        decide
      refine ⟨'`', '*' :: '*' :: '*' :: '[' :: t0 ::
        (t' ++ ']' :: '(' :: (u ++ [')', '*', '*', '*', '`'])), hform, by decide,
        ?_, ?_, ?_, ?_, ?_, ?_, ?_, ?_, ?_, ?_⟩
      · intro d hd; rw [hlastC] at hd; rw [← Option.some.inj hd]; decide
      · exact isPrefixOf_false_two '`' '*' _ _ (by decide)
      · exact isPrefixOf_false_head '|' '`' _ _ (by decide)
      · exact isPrefixOf_false_head '>' '`' _ _ (by decide)
      · exact taskMatch_none_head '`' _ (by decide) (by decide)
      · exact listMatch_none_head '`' _ (by decide) (by decide) (by decide)
      · exact orderedMatch_none_head '`' _ (by decide) (by decide)
      · exact headingMatch_none_head '`' _ (by decide)
      · exact hrMatch_false_of_mem _ t0 (by simp) (benign_ne t0 hb0 '-' (by decide))
          (benign_ne t0 hb0 '_' (by decide)) (benign_ne t0 hb0 '*' (by decide))
      · exact taskMatch_dash_none_of_head _ (dropWs_cons _ _ (by decide)) '`' _ rfl (by decide)

theorem trimJs_id_of (c : Char) (rest : Str) (hc : isJsWs c = false)
    (hl : ∀ d, (c :: rest).getLast? = some d → isJsWs d = false) :
    trimJs (c :: rest) = c :: rest := by
  rw [trimJs_cons c rest hc]
  congr 1
  cases hrest : rest with
  | nil => rfl
  | cons x r =>
    rw [dropWhile_id_of_head]
    · exact List.reverse_reverse _
    · intro d hd
      rw [List.head?_reverse] at hd
      apply hl
      rw [hrest, getLast?_cons_ne c (x :: r) (by simp)]
      exact hd

theorem wrap_no_nl (m : Mark) (s : Str) (hs : '\n' ∉ s)
    (hm : ∀ u ti, m = Mark.link u ti → '\n' ∉ u) : '\n' ∉ wrapMarkMd m s := by
  cases m with
  | em => simp [wrapMarkMd, strL, hs]
  | strong => simp [wrapMarkMd, strL, hs]
  | code => simp [wrapMarkMd, strL, hs]
  | link u ti => simp [wrapMarkMd, strL, hs, hm u ti rfl]

theorem inlineToMd_no_nl (t : Str) (ms : List Mark) (ht : '\n' ∉ t)
    (hms : benignMarks ms = true) : '\n' ∉ inlineToMd (Inline.text t ms) := by
  rcases benignMarks_cases ms hms with h | ⟨u, tail, hmsE, hu, htl⟩
  · rcases benignMarksTail_cases ms h with h' | h' | h' | h' | h' | h' | h' | h' <;> subst h' <;>
      simp only [inlineToMd, List.foldl] <;>
      [skip;
       exact wrap_no_nl _ _ ht (fun u ti h => nomatch h);
       exact wrap_no_nl _ _ ht (fun u ti h => nomatch h);
       exact wrap_no_nl _ _ ht (fun u ti h => nomatch h);
       exact wrap_no_nl _ _ (wrap_no_nl _ _ ht (fun u ti h => nomatch h))
         (fun u ti h => nomatch h);
       exact wrap_no_nl _ _ (wrap_no_nl _ _ ht (fun u ti h => nomatch h))
         (fun u ti h => nomatch h);
       exact wrap_no_nl _ _ (wrap_no_nl _ _ ht (fun u ti h => nomatch h))
         (fun u ti h => nomatch h);
       exact wrap_no_nl _ _ (wrap_no_nl _ _ (wrap_no_nl _ _ ht (fun u ti h => nomatch h))
         (fun u ti h => nomatch h)) (fun u ti h => nomatch h)]
    exact ht
  · subst hmsE
    obtain ⟨_, huall⟩ := benignHref_parts u hu
    have hunl : '\n' ∉ u := not_mem_of_benign u huall '\n' (by decide)
    have hX : '\n' ∉ wrapMarkMd (Mark.link u none) t :=
      wrap_no_nl _ _ ht (fun u' ti' h => by injection h with h1 _; rw [← h1]; exact hunl)
    rcases benignMarksTail_cases tail htl with h' | h' | h' | h' | h' | h' | h' | h' <;>
      subst h' <;> simp only [inlineToMd, List.foldl] <;>
      [skip;
       exact wrap_no_nl _ _ hX (fun u ti h => nomatch h);
       exact wrap_no_nl _ _ hX (fun u ti h => nomatch h);
       exact wrap_no_nl _ _ hX (fun u ti h => nomatch h);
       exact wrap_no_nl _ _ (wrap_no_nl _ _ hX (fun u ti h => nomatch h))
         (fun u ti h => nomatch h);
       exact wrap_no_nl _ _ (wrap_no_nl _ _ hX (fun u ti h => nomatch h))
         (fun u ti h => nomatch h);
       exact wrap_no_nl _ _ (wrap_no_nl _ _ hX (fun u ti h => nomatch h))
         (fun u ti h => nomatch h);
       exact wrap_no_nl _ _ (wrap_no_nl _ _ (wrap_no_nl _ _ hX (fun u ti h => nomatch h))
         (fun u ti h => nomatch h)) (fun u ti h => nomatch h)]
    exact hX

theorem inlListToMd_single (i : Inline) : inlListToMd [i] = inlineToMd i := by
  simp [inlListToMd]

theorem getTCList_para (inl : List Inline) :
    getTCList [N.paragraph inl] = inlListToMd inl := by
  simp [getTCList, getNodeTextContent]

theorem processLine_blank (res : List Str) : processLine (cleanSt res) [] = cleanSt res := rfl

theorem processLine_hr (res : List Str) :
    processLine (cleanSt res) (strL "---") = cleanSt (res ++ [strL "<hr>"]) := rfl

theorem processLine_para (res : List Str) (t : Str) (ms : List Mark)
    (hbt : benignText t = true) (hms : benignMarks ms = true) :
    processLine (cleanSt res) (inlineToMd (Inline.text t ms)) =
      cleanSt (res ++ [strL "<p>" ++ parseInlineMarkdown (inlineToMd (Inline.text t ms)) ++
        strL "</p>"]) := by
  obtain ⟨c, rest, hform, hws, hlast, hf1, hf2, hf3, htk, hlm, hom, hhm, hhr, _⟩ :=
    benignMd_facts t ms hbt hms
  rw [hform]
  have htrim : trimJs (c :: rest) = c :: rest := trimJs_id_of c rest hws hlast
  simp [processLine, cleanSt, pushR, htrim, hf1, hf2, hf3, htk, hlm, hom, hhm, hhr]

theorem headingMatch_hashes (l' : Nat) (hl : l' + 1 ≤ 6) (md : Str) (hmd : dropWs md = md) :
    headingMatch (List.replicate (l' + 1) '#' ++ strL " " ++ md) = some (l' + 1, md) := by
  have hmd' : List.dropWhile isJsWs md = md := hmd
  have hub : l' ≤ 5 := by omega
  interval_cases l' <;>
    simp [headingMatch, List.replicate, strL, List.takeWhile_cons, dropWs,
      List.dropWhile_cons, hmd', (by decide : isJsWs ' ' = true)]

theorem benignRun_cases (inl : List Inline) (h : benignRun inl = true) :
    inl = [] ∨ ∃ t ms, inl = [Inline.text t ms] ∧ benignText t = true ∧ benignMarks ms = true := by
  cases inl with
  | nil => exact Or.inl rfl
  | cons i rest =>
    cases rest with
    | nil =>
      cases i with
      | text t ms =>
        right
        simp only [benignRun, benignInline, Bool.and_eq_true] at h
        exact ⟨t, ms, rfl, h.1, h.2⟩
      | image src alt ti => simp [benignRun, benignInline] at h
      | hard_break => simp [benignRun, benignInline] at h
    | cons j r => simp [benignRun] at h

theorem processLine_heading (res : List Str) (l : Nat) (h1 : 1 ≤ l) (h6 : l ≤ 6)
    (inl : List Inline) (hinl : benignRun inl = true) :
    processLine (cleanSt res) (List.replicate l '#' ++ strL " " ++ inlListToMd inl) =
      cleanSt (res ++ [strL "<h" ++ natDigits l ++ strL ">" ++
        parseInlineMarkdown (inlListToMd inl) ++ strL "</h" ++ natDigits l ++ strL ">"]) := by
  obtain ⟨l', rfl⟩ : ∃ l', l = l' + 1 := ⟨l - 1, by omega⟩
  have hmd : dropWs (inlListToMd inl) = inlListToMd inl := by
    rcases benignRun_cases inl hinl with h | ⟨t, ms, he, hbt, hms⟩
    · rw [h]; rfl
    · rw [he, inlListToMd_single]
      obtain ⟨c, rest, hform, hws, _⟩ := benignMd_facts t ms hbt hms
      rw [hform]
      exact dropWs_cons c rest hws
  have hshape : List.replicate (l' + 1) '#' ++ strL " " ++ inlListToMd inl =
      '#' :: (List.replicate l' '#' ++ strL " " ++ inlListToMd inl) := by
    simp [List.replicate_succ]
  have hfence : (strL "```").isPrefixOf
      (trimJs (List.replicate (l' + 1) '#' ++ strL " " ++ inlListToMd inl)) = false := by
    rw [hshape, trimJs_cons '#' _ (by decide)]
    exact isPrefixOf_false_head '`' '#' _ _ (by decide)
  have htab : (strL "|").isPrefixOf
      (trimJs (List.replicate (l' + 1) '#' ++ strL " " ++ inlListToMd inl)) = false := by
    rw [hshape, trimJs_cons '#' _ (by decide)]
    exact isPrefixOf_false_head '|' '#' _ _ (by decide)
  have htask : taskMatch (List.replicate (l' + 1) '#' ++ strL " " ++ inlListToMd inl) = none := by
    rw [hshape]
    exact taskMatch_none_head '#' _ (by decide) (by decide)
  have hlist : listMatch (List.replicate (l' + 1) '#' ++ strL " " ++ inlListToMd inl) = none := by
    rw [hshape]
    exact listMatch_none_head '#' _ (by decide) (by decide) (by decide)
  have hord : orderedMatch (List.replicate (l' + 1) '#' ++ strL " " ++ inlListToMd inl) = none := by
    rw [hshape]
    exact orderedMatch_none_head '#' _ (by decide) (by decide)
  have hhead := headingMatch_hashes l' (by omega) (inlListToMd inl) hmd
  set L := List.replicate (l' + 1) '#' ++ strL " " ++ inlListToMd inl with hL
  simp [processLine, cleanSt, pushR, hfence, htab, htask, hlist, hord, hhead]

theorem trimJs_cons_ws (c : Char) (s : Str) (h : isJsWs c = true) :
    trimJs (c :: s) = trimJs s := by
  unfold trimJs
  rw [List.dropWhile_cons, h]
  simp

theorem processLine_quote (res : List Str) (inl : List Inline) (hinl : benignRun inl = true) :
    processLine (cleanSt res) (strL "> " ++ inlListToMd inl) =
      cleanSt (res ++ [strL "<blockquote>" ++ parseInlineMarkdown (inlListToMd inl) ++
        strL "</blockquote>"]) := by
  rcases benignRun_cases inl hinl with he | ⟨t, ms, he, hbt, hms⟩
  · subst he; rfl
  · subst he
    rw [inlListToMd_single]
    obtain ⟨c, rest, hform, hws, hlast, _⟩ := benignMd_facts t ms hbt hms
    rw [hform]
    have hsh : strL "> " ++ (c :: rest) = '>' :: ' ' :: c :: rest := rfl
    rw [hsh]
    have hlastL : ∀ d, ('>' :: ' ' :: c :: rest).getLast? = some d → isJsWs d = false := by
      intro d hd
      rw [getLast?_cons_ne _ _ (by simp), getLast?_cons_ne _ _ (by simp)] at hd
      exact hlast d hd
    have htrim : trimJs ('>' :: ' ' :: c :: rest) = '>' :: ' ' :: c :: rest :=
      trimJs_id_of '>' _ (by decide) hlastL
    have hfence : (strL "```").isPrefixOf ('>' :: ' ' :: c :: rest) = false :=
      isPrefixOf_false_head '`' '>' _ _ (by decide)
    have htab : (strL "|").isPrefixOf ('>' :: ' ' :: c :: rest) = false :=
      isPrefixOf_false_head '|' '>' _ _ (by decide)
    have htask : taskMatch ('>' :: ' ' :: c :: rest) = none :=
      taskMatch_none_head '>' _ (by decide) (by decide)
    have hlist : listMatch ('>' :: ' ' :: c :: rest) = none :=
      listMatch_none_head '>' _ (by decide) (by decide) (by decide)
    have hord : orderedMatch ('>' :: ' ' :: c :: rest) = none :=
      orderedMatch_none_head '>' _ (by decide) (by decide)
    have hhm : headingMatch ('>' :: ' ' :: c :: rest) = none :=
      headingMatch_none_head '>' _ (by decide)
    have hquote : (strL ">").isPrefixOf ('>' :: ' ' :: c :: rest) = true := by
      simp [List.isPrefixOf]
    have hback : trimJs (' ' :: c :: rest) = c :: rest := by
      rw [trimJs_cons_ws ' ' _ (by decide)]
      exact trimJs_id_of c rest hws hlast
    simp [processLine, cleanSt, pushR, hfence, htab, htask, hlist, hord, hhm, hquote, htrim,
      hback]

theorem processLine_li_out (res : List Str) (inl : List Inline) (hinl : benignRun inl = true) :
    processLine (cleanSt res) (strL "- " ++ inlListToMd inl) =
      { cleanSt (res ++ [strL "<ul>",
          strL "<li>" ++ parseInlineMarkdown (inlListToMd inl) ++ strL "</li>"]) with
        inList := true } := by
  rcases benignRun_cases inl hinl with he | ⟨t, ms, he, hbt, hms⟩
  · subst he
    have h0 : strL "- " ++ inlListToMd [] = ['-', ' '] := rfl
    rw [h0]
    simp [processLine, cleanSt, pushR, inlListToMd,
      (by decide : trimJs ['-', ' '] = ['-']),
      (by decide : (strL "```").isPrefixOf ['-'] = false),
      (by decide : (strL "|").isPrefixOf ['-'] = false),
      (by decide : taskMatch ['-', ' '] = none),
      (by decide : listMatch ['-', ' '] = some ('-', []))]
  · subst he
    rw [inlListToMd_single]
    obtain ⟨c, rest, hform, hws, hlast, _, _, _, _, _, _, _, _, htaskd⟩ :=
      benignMd_facts t ms hbt hms
    rw [hform]
    have hlastL : ∀ d, ('-' :: ' ' :: c :: rest).getLast? = some d → isJsWs d = false := by
      intro d hd
      rw [getLast?_cons_ne _ _ (by simp), getLast?_cons_ne _ _ (by simp)] at hd
      exact hlast d hd
    have hsh : strL "- " ++ (c :: rest) = '-' :: ' ' :: c :: rest := rfl
    rw [hsh]
    rw [hsh] at htaskd
    have hlistd := listMatch_dash (c :: rest) (dropWs_cons c rest hws)
    rw [hsh] at hlistd
    have htrim : trimJs ('-' :: ' ' :: c :: rest) = '-' :: ' ' :: c :: rest :=
      trimJs_id_of '-' _ (by decide) hlastL
    have hfence : (strL "```").isPrefixOf ('-' :: ' ' :: c :: rest) = false :=
      isPrefixOf_false_head '`' '-' _ _ (by decide)
    have htab : (strL "|").isPrefixOf ('-' :: ' ' :: c :: rest) = false :=
      isPrefixOf_false_head '|' '-' _ _ (by decide)
    simp [processLine, cleanSt, pushR, htrim, hfence, htab, htaskd, hlistd]

theorem processLine_li_in (res : List Str) (inl : List Inline) (hinl : benignRun inl = true) :
    processLine ({ cleanSt res with inList := true }) (strL "- " ++ inlListToMd inl) =
      { cleanSt (res ++ [strL "<li>" ++ parseInlineMarkdown (inlListToMd inl) ++
          strL "</li>"]) with inList := true } := by
  rcases benignRun_cases inl hinl with he | ⟨t, ms, he, hbt, hms⟩
  · subst he
    have h0 : strL "- " ++ inlListToMd [] = ['-', ' '] := rfl
    rw [h0]
    simp [processLine, cleanSt, pushR, inlListToMd,
      (by decide : trimJs ['-', ' '] = ['-']),
      (by decide : (strL "```").isPrefixOf ['-'] = false),
      (by decide : (strL "|").isPrefixOf ['-'] = false),
      (by decide : taskMatch ['-', ' '] = none),
      (by decide : listMatch ['-', ' '] = some ('-', []))]
  · subst he
    rw [inlListToMd_single]
    obtain ⟨c, rest, hform, hws, hlast, _, _, _, _, _, _, _, _, htaskd⟩ :=
      benignMd_facts t ms hbt hms
    rw [hform]
    have hlastL : ∀ d, ('-' :: ' ' :: c :: rest).getLast? = some d → isJsWs d = false := by
      intro d hd
      rw [getLast?_cons_ne _ _ (by simp), getLast?_cons_ne _ _ (by simp)] at hd
      exact hlast d hd
    have hsh : strL "- " ++ (c :: rest) = '-' :: ' ' :: c :: rest := rfl
    rw [hsh]
    rw [hsh] at htaskd
    have hlistd := listMatch_dash (c :: rest) (dropWs_cons c rest hws)
    rw [hsh] at hlistd
    have htrim : trimJs ('-' :: ' ' :: c :: rest) = '-' :: ' ' :: c :: rest :=
      trimJs_id_of '-' _ (by decide) hlastL
    have hfence : (strL "```").isPrefixOf ('-' :: ' ' :: c :: rest) = false :=
      isPrefixOf_false_head '`' '-' _ _ (by decide)
    have htab : (strL "|").isPrefixOf ('-' :: ' ' :: c :: rest) = false :=
      isPrefixOf_false_head '|' '-' _ _ (by decide)
    simp [processLine, cleanSt, pushR, htrim, hfence, htab, htaskd, hlistd]

theorem processLine_ul_blank (res : List Str) :
    processLine ({ cleanSt res with inList := true }) [] = cleanSt (res ++ [strL "</ul>"]) := rfl

theorem benignRun1_cases (inl : List Inline) (h : benignRun1 inl = true) :
    ∃ t ms, inl = [Inline.text t ms] ∧ benignText t = true ∧ benignMarks ms = true := by
  cases inl with
  | nil => exact absurd h (by simp [benignRun1])
  | cons i rest =>
    cases rest with
    | cons j r => exact absurd h (by simp [benignRun1])
    | nil =>
      cases i with
      | text t ms =>
        simp only [benignRun1, benignInline, Bool.and_eq_true] at h
        exact ⟨t, ms, rfl, h.1, h.2⟩
      | image src alt ti => exact absurd h (by simp [benignRun1, benignInline])
      | hard_break => exact absurd h (by simp [benignRun1, benignInline])

theorem benignItem_cases (li : N) (h : benignItem li = true) :
    ∃ inl, li = N.list_item [N.paragraph inl] ∧ benignRun inl = true := by
  cases li
  case list_item cs =>
    cases cs
    case nil => exact absurd h (by simp [benignItem])
    case cons c0 cs' =>
      cases cs'
      case cons d ds => exact absurd h (by simp [benignItem])
      case nil =>
        cases c0
        case paragraph inl => exact ⟨inl, rfl, h⟩
        all_goals exact absurd h (by simp [benignItem])
  all_goals exact absurd h (by simp [benignItem])

theorem benignBlock_cases (n : N) (h : benignBlock n = true) :
    (∃ inl, n = N.paragraph inl ∧ benignRun1 inl = true) ∨
    (∃ l inl, n = N.heading l inl ∧ 1 ≤ l ∧ l ≤ 6 ∧ benignRun inl = true) ∨
    (∃ inl, n = N.blockquote [N.paragraph inl] ∧ benignRun inl = true) ∨
    (∃ cs, n = N.bullet_list cs ∧ cs ≠ [] ∧ cs.all benignItem = true) ∨
    n = N.horizontal_rule := by
  cases n
  case paragraph inl => exact Or.inl ⟨inl, rfl, h⟩
  case heading l inl =>
    right; left
    simp only [benignBlock, Bool.and_eq_true, decide_eq_true_eq] at h
    exact ⟨l, inl, rfl, h.1.1, h.1.2, h.2⟩
  case blockquote cs =>
    right; right; left
    cases cs
    case nil => exact absurd h (by simp [benignBlock])
    case cons c0 cs' =>
      cases cs'
      case cons d ds => exact absurd h (by simp [benignBlock])
      case nil =>
        cases c0
        case paragraph inl => exact ⟨inl, rfl, h⟩
        all_goals exact absurd h (by simp [benignBlock])
  case bullet_list cs =>
    right; right; right; left
    simp only [benignBlock, Bool.and_eq_true, Bool.not_eq_true'] at h
    refine ⟨cs, rfl, ?_, h.2⟩
    intro he
    rw [he] at h
    simp at h
  case horizontal_rule => exact Or.inr (Or.inr (Or.inr (Or.inr rfl)))
  all_goals exact absurd h (by simp [benignBlock])

theorem getNTC_item (inl : List Inline) :
    getNodeTextContent (N.list_item [N.paragraph inl]) = inlListToMd inl := by
  simp [getNodeTextContent, getTCList]

theorem processItems (items : List N) : ∀ res, items.all benignItem = true →
    List.foldl processLine ({ cleanSt res with inList := true })
      (items.map fun li => strL "- " ++ getNodeTextContent li) =
    { cleanSt (res ++ items.map fun li =>
        strL "<li>" ++ parseInlineMarkdown (getNodeTextContent li) ++ strL "</li>") with
      inList := true } := by
  induction items with
  | nil => intro res _; simp
  | cons li rest ih =>
    intro res hall
    simp only [List.all_cons, Bool.and_eq_true] at hall
    obtain ⟨inl, he, hrun⟩ := benignItem_cases li hall.1
    subst he
    simp only [List.map_cons, List.foldl_cons, getNTC_item]
    rw [processLine_li_in res inl hrun]
    rw [ih _ hall.2]
    simp [List.append_assoc, getNTC_item]

theorem processBlock_benign (n : N) (h : benignBlock n = true) (res : List Str) :
    List.foldl processLine (cleanSt res) (blockLinesOf n) = cleanSt (res ++ blockFrags n) := by
  rcases benignBlock_cases n h with ⟨inl, he, h1⟩ | ⟨l, inl, he, h1, h6, hr⟩ | ⟨inl, he, hr⟩ |
    ⟨cs, he, hne, hall⟩ | he <;> subst he
  · obtain ⟨t, ms, hie, hbt, hms⟩ := benignRun1_cases inl h1
    subst hie
    simp only [blockLinesOf, blockFrags, List.foldl_cons, List.foldl_nil, inlListToMd_single]
    rw [processLine_para res t ms hbt hms]
  · simp only [blockLinesOf, blockFrags, List.foldl_cons, List.foldl_nil]
    exact processLine_heading res l h1 h6 inl hr
  · simp only [blockLinesOf, blockFrags, List.foldl_cons, List.foldl_nil, getTCList_para]
    exact processLine_quote res inl hr
  · cases cs with
    | nil => exact absurd rfl hne
    | cons li0 rest =>
      simp only [List.all_cons, Bool.and_eq_true] at hall
      obtain ⟨inl, hie, hrun⟩ := benignItem_cases li0 hall.1
      subst hie
      simp only [blockLinesOf, blockFrags, List.map_cons, List.cons_append,
        List.foldl_cons, List.foldl_append, getNTC_item]
      rw [processLine_li_out res inl hrun]
      rw [processItems rest _ hall.2]
      rw [processLine_ul_blank]
      simp [List.append_assoc, getNTC_item]
  · simp only [blockLinesOf, blockFrags, List.foldl_cons, List.foldl_nil]
    rw [processLine_hr, processLine_blank]

theorem processDoc_benign (doc : Doc) : ∀ res, doc.all benignBlock = true →
    List.foldl processLine (cleanSt res) (doc.flatMap blockLinesOf) =
      cleanSt (res ++ doc.flatMap blockFrags) := by
  induction doc with
  | nil => intro res _; simp
  | cons n rest ih =>
    intro res hall
    simp only [List.all_cons, Bool.and_eq_true] at hall
    simp only [List.flatMap_cons, List.foldl_append]
    rw [processBlock_benign n hall.1 res, ih _ hall.2]
    simp [List.append_assoc]

theorem run_no_nl (inl : List Inline) (h : benignRun inl = true) :
    '\n' ∉ inlListToMd inl := by
  rcases benignRun_cases inl h with he | ⟨t, ms, he, hbt, hms⟩
  · rw [he]; exact List.not_mem_nil _
  · rw [he, inlListToMd_single]
    obtain ⟨hall, _⟩ := benignText_parts t hbt
    exact inlineToMd_no_nl t ms (not_mem_of_benign t hall '\n' (by decide)) hms

theorem blockLines_no_nl (n : N) (h : benignBlock n = true) :
    ∀ l ∈ blockLinesOf n, '\n' ∉ l := by
  rcases benignBlock_cases n h with ⟨inl, he, h1⟩ | ⟨l', inl, he, h1, h6, hr⟩ | ⟨inl, he, hr⟩ |
    ⟨cs, he, hne, hall⟩ | he <;> subst he <;> intro l hl
  · simp only [blockLinesOf, List.mem_singleton] at hl
    subst hl
    obtain ⟨t, ms, hie, hbt, hms⟩ := benignRun1_cases inl h1
    rw [hie, inlListToMd_single]
    obtain ⟨hall, _⟩ := benignText_parts t hbt
    exact inlineToMd_no_nl t ms (not_mem_of_benign t hall '\n' (by decide)) hms
  · simp only [blockLinesOf, List.mem_singleton] at hl
    subst hl
    intro hm
    simp only [List.mem_append] at hm
    rcases hm with (hm | hm) | hm
    · rw [List.mem_replicate] at hm
      exact absurd hm.2 (by decide)
    · exact absurd hm (by decide)
    · exact run_no_nl inl hr hm
  · simp only [blockLinesOf, List.mem_singleton] at hl
    subst hl
    intro hm
    rw [getTCList_para] at hm
    simp only [List.mem_append] at hm
    rcases hm with hm | hm
    · exact absurd hm (by decide)
    · exact run_no_nl inl hr hm
  · simp only [blockLinesOf, List.mem_append, List.mem_map, List.mem_singleton] at hl
    rcases hl with ⟨li, hmem, hl⟩ | hl
    · subst hl
      rw [List.all_eq_true] at hall
      obtain ⟨inl, hie, hrun⟩ := benignItem_cases li (hall li hmem)
      subst hie
      rw [getNTC_item]
      intro hm
      simp only [List.mem_append] at hm
      rcases hm with hm | hm
      · exact absurd hm (by decide)
      · exact run_no_nl inl hrun hm
    · subst hl
      exact List.not_mem_nil _
  · simp only [blockLinesOf, List.mem_cons, List.mem_singleton] at hl
    rcases hl with hl | hl | hl
    · subst hl; decide
    · subst hl; exact List.not_mem_nil _
    · exact absurd hl (List.not_mem_nil _)

theorem splitOnChar_append_sep (sep : Char) :
    ∀ (a rest : Str), sep ∉ a → splitOnChar sep (a ++ sep :: rest) = a :: splitOnChar sep rest := by
  intro a
  induction a with
  | nil =>
    intro rest _
    simp [splitOnChar]
  | cons c r ih =>
    intro rest h
    simp only [List.mem_cons, not_or] at h
    have hcne : c ≠ sep := fun he => h.1 he.symm
    simp only [List.cons_append, splitOnChar, if_neg hcne, List.append_eq]
    rw [ih rest h.2]

theorem splitNL_unlinesT : ∀ (ls : List Str), (∀ l ∈ ls, '\n' ∉ l) →
    splitNL (unlinesT ls) = ls ++ [[]] := by
  intro ls
  induction ls with
  | nil => intro _; rfl
  | cons l rest ih =>
    intro h
    have hshape : unlinesT (l :: rest) = l ++ '\n' :: unlinesT rest := by
      simp [unlinesT]
    rw [hshape]
    unfold splitNL
    rw [splitOnChar_append_sep '\n' l (unlinesT rest) (h l (List.mem_cons_self _ _))]
    have := ih (fun x hx => h x (List.mem_cons_of_mem _ hx))
    unfold splitNL at this
    rw [this]
    rfl

theorem blockStrings_benign (p : Nat) (n : N) (h : benignBlock n = true) :
    (blockStrings scEmpty p n).flatten = unlinesT (blockLinesOf n) := by
  rcases benignBlock_cases n h with ⟨inl, he, h1⟩ | ⟨l', inl, he, h1, h6, hr⟩ | ⟨inl, he, hr⟩ |
    ⟨cs, he, hne, hall⟩ | he <;> subst he
  · obtain ⟨t, ms, hie, hbt, hms⟩ := benignRun1_cases inl h1
    subst hie
    obtain ⟨c, rest, hform, hws, hlast, _⟩ := benignMd_facts t ms hbt hms
    simp only [blockStrings, blockLinesOf, inlListToMd_single, hform]
    rw [trimJs_id_of c rest hws hlast]
    rw [if_neg (by simp)]
    simp [unlinesT, strL]
  · simp [blockStrings, blockLinesOf, unlinesT, strL, List.append_assoc]
  · simp [blockStrings, blockLinesOf, unlinesT, strL, List.append_assoc]
  · simp [blockStrings, blockLinesOf, unlinesT, strL, List.append_assoc, List.map_map,
      Function.comp_def]
  · rfl

theorem pmBlocks_flatten_benign (doc : Doc) : ∀ off, doc.all benignBlock = true →
    (pmBlocksGo scEmpty off doc).flatten = unlinesT (doc.flatMap blockLinesOf) := by
  induction doc with
  | nil => intro off _; rfl
  | cons n rest ih =>
    intro off hall
    simp only [List.all_cons, Bool.and_eq_true] at hall
    simp only [pmBlocksGo, List.flatMap_cons, List.flatten_append]
    rw [blockStrings_benign (off + 1) n hall.1, ih _ hall.2]
    simp [unlinesT]

theorem serializeDoc_benign (doc : Doc) (h : doc.all benignBlock = true) :
    serializeDoc doc = unlinesT (doc.flatMap blockLinesOf) := by
  unfold serializeDoc prosemirrorToMarkdown
  exact pmBlocks_flatten_benign doc 0 h

theorem mdToHTML_benign (doc : Doc) (hb : benignDoc doc = true) :
    markdownToHTML (serializeDoc doc) = joinNL (doc.flatMap blockFrags) := by
  have hall : doc.all benignBlock = true := by
    simp only [benignDoc, Bool.and_eq_true] at hb
    exact hb.2
  rw [serializeDoc_benign doc hall]
  unfold markdownToHTML
  rw [splitNL_unlinesT _ (by
    intro l hl
    rw [List.mem_flatMap] at hl
    obtain ⟨n, hn, hln⟩ := hl
    rw [List.all_eq_true] at hall
    exact blockLines_no_nl n (hall n hn) l hln)]
  rw [List.foldl_append]
  have h0 : mdInit = cleanSt [] := rfl
  rw [h0, processDoc_benign doc [] hall]
  simp only [List.foldl_cons, List.foldl_nil]
  rw [processLine_blank]
  rfl


theorem decodeEntities_id : ∀ (s : Str), '&' ∉ s → ∀ fuel, decodeEntities fuel s = s := by
  intro s
  induction s with
  | nil =>
    intro _ fuel
    cases fuel with
    | zero => rfl
    | succ f => rfl
  | cons c rest ih =>
    intro h fuel
    simp only [List.mem_cons, not_or] at h
    have hamp : '&' ≠ c := h.1
    cases fuel with
    | zero => rfl
    | succ f =>
      have hp : ∀ (p : Str), ('&' :: p).isPrefixOf (c :: rest) = false := fun p =>
        isPrefixOf_false_head '&' c p rest (fun he => hamp he)
      simp only [decodeEntities]
      rw [show (strL "&amp;") = '&' :: strL "amp;" from rfl, hp]
      rw [show (strL "&lt;") = '&' :: strL "lt;" from rfl, hp]
      rw [show (strL "&gt;") = '&' :: strL "gt;" from rfl, hp]
      rw [show (strL "&quot;") = '&' :: strL "quot;" from rfl, hp]
      rw [show (strL "&nbsp;") = '&' :: strL "nbsp;" from rfl, hp]
      simp only [Bool.false_eq_true, if_false]
      rw [ih h.2 f]

theorem flushText_nil (toks : List Tok) : flushText [] toks = toks := rfl

theorem flushText_rev (t : Str) (hne : t ≠ []) (hamp : '&' ∉ t) (toks : List Tok) :
    flushText t.reverse toks = Tok.textTok t :: toks := by
  unfold flushText
  rw [if_neg (by simp [hne])]
  rw [List.reverse_reverse]
  rw [decodeEntities_id t hamp]

theorem parseAttrs_gt (rest : Str) (fuel : Nat) :
    parseAttrs (fuel + 1) ('>' :: rest) = ([], rest) := by
  simp [parseAttrs, (by decide : isJsWs '>' = false)]

theorem takeWhile_lit (p : Char → Bool) : ∀ (tag : Str), tag.all p = true →
    ∀ (c : Char), p c = false → ∀ (rest : Str), (tag ++ c :: rest).takeWhile p = tag := by
  intro tag
  induction tag with
  | nil =>
    intro _ c hc rest
    simp [List.takeWhile_cons, hc]
  | cons x r ih =>
    intro h c hc rest
    simp only [List.all_cons, Bool.and_eq_true] at h
    simp only [List.cons_append, List.takeWhile_cons, h.1, if_true]
    rw [ih h.2 c hc rest]

theorem tokGo_text : ∀ (a : Str), '<' ∉ a → ∀ (fuel : Nat) (pend rest : Str),
    tokenizeGo (fuel + a.length) pend (a ++ rest) =
      tokenizeGo fuel (a.reverse ++ pend) rest := by
  intro a
  induction a with
  | nil => intro _ fuel pend rest; rfl
  | cons c a' ih =>
    intro h fuel pend rest
    simp only [List.mem_cons, not_or] at h
    have hc : c ≠ '<' := fun he => h.1 he.symm
    have harith : fuel + (c :: a').length = (fuel + a'.length) + 1 := by
      simp [List.length_cons]
      omega
    rw [harith]
    simp only [List.cons_append, tokenizeGo, if_neg hc, List.append_eq]
    rw [ih h.2 fuel (c :: pend) rest]
    simp

theorem tokGo_close (tg : Str) (htg : tg.all isTagChar = true) (hne : tg ≠ [])
    (fuel : Nat) (pend rest : Str) :
    tokenizeGo (fuel + 1) pend (strL "</" ++ tg ++ '>' :: rest) =
      flushText pend (Tok.closeTag tg :: tokenizeGo fuel [] rest) := by
  have hshape : strL "</" ++ tg ++ '>' :: rest = '<' :: '/' :: (tg ++ '>' :: rest) := by
    simp [strL]
  rw [hshape]
  have hcomm : (strL "!--").isPrefixOf ('/' :: (tg ++ '>' :: rest)) = false :=
    isPrefixOf_false_head '!' '/' _ _ (by decide)
  have htk : (tg ++ '>' :: rest).takeWhile isTagChar = tg :=
    takeWhile_lit isTagChar tg htg '>' (by decide) rest
  have hdrop : (tg ++ '>' :: rest).drop tg.length = '>' :: rest := List.drop_left tg _
  simp only [tokenizeGo, if_pos rfl, if_true, hcomm, Bool.false_eq_true, if_false, htk, hdrop,
    if_neg hne, List.append_eq]
  simp [List.dropWhile_cons]

theorem tokGo_open (tg : Str) (htg : tg.all isTagChar = true) (hne : tg ≠ [])
    (hbang : ∀ d r, tg = d :: r → d ≠ '!' ∧ d ≠ '/') (fuel : Nat) (pend rest : Str) :
    tokenizeGo (fuel + 1) pend ('<' :: tg ++ '>' :: rest) =
      flushText pend (Tok.openTag tg [] :: tokenizeGo fuel [] rest) := by
  cases tg with
  | nil => exact absurd rfl hne
  | cons d r =>
    obtain ⟨hd1, hd2⟩ := hbang d r rfl
    have hcomm : List.isPrefixOf (strL "!--") (d :: (r ++ '>' :: rest)) = false :=
      isPrefixOf_false_head '!' d _ _ (fun he => hd1 he.symm)
    have htk : List.takeWhile isTagChar (d :: (r ++ '>' :: rest)) = d :: r := by
      have := takeWhile_lit isTagChar (d :: r) htg '>' (by decide) rest
      simpa using this
    have hdrop : List.drop (d :: r).length (d :: (r ++ '>' :: rest)) = '>' :: rest := by
      have := List.drop_left (d :: r) ('>' :: rest)
      simpa using this
    simp only [List.cons_append, tokenizeGo, if_pos rfl, if_true, hcomm, Bool.false_eq_true,
      if_false, List.append_eq]
    rw [if_neg (fun he => hd2 he)]
    rw [htk]
    rw [if_neg (by simp : ¬(d :: r = ([] : Str)))]
    rw [hdrop]
    have hlen : ('>' :: rest).length + 1 = (rest.length + 1) + 1 := by simp
    rw [hlen, parseAttrs_gt rest (rest.length + 1)]

theorem parseAttrs_href (u : Str) (hq : '"' ∉ u) (rest : Str) : ∀ (fuel : Nat),
    (strL " href=\"" ++ u ++ strL "\">" ++ rest).length < fuel →
    parseAttrs fuel (strL " href=\"" ++ u ++ strL "\">" ++ rest) =
      ([(strL "href", some u)], rest) := by
  intro fuel hf
  have hlen : (strL " href=\"" ++ u ++ strL "\">" ++ rest).length =
      9 + u.length + rest.length := by
    simp [strL]
    omega
  rw [hlen] at hf
  have hshape : strL " href=\"" ++ u ++ strL "\">" ++ rest =
      ' ' :: (strL "href" ++ '=' :: '"' :: (u ++ '"' :: '>' :: rest)) := by
    simp [strL]
  rw [hshape]
  cases fuel with
  | zero => omega
  | succ f =>
    simp only [parseAttrs, if_pos (by decide : isJsWs ' ' = true), if_true]
    cases f with
    | zero => omega
    | succ f2 =>
      have htk : (strL "href" ++ '=' :: '"' :: (u ++ '"' :: '>' :: rest)).takeWhile
          isAttrNameChar = strL "href" := by
        have := takeWhile_lit isAttrNameChar (strL "href") (by decide) '='
          (by decide) ('"' :: (u ++ '"' :: '>' :: rest))
        simpa using this
      have hdrop : (strL "href" ++ '=' :: '"' :: (u ++ '"' :: '>' :: rest)).drop
          (strL "href").length = '=' :: '"' :: (u ++ '"' :: '>' :: rest) :=
        List.drop_left (strL "href") _
      have hhd : (strL "href" ++ '=' :: '"' :: (u ++ '"' :: '>' :: rest)) =
          'h' :: (strL "ref" ++ '=' :: '"' :: (u ++ '"' :: '>' :: rest)) := by
        simp [strL]
      rw [hhd] at htk hdrop ⊢
      simp only [parseAttrs, if_neg (by decide : ¬ isJsWs 'h' = true),
        if_neg (by decide : ¬ 'h' = '>'), if_neg (by decide : ¬ 'h' = '/'), htk, hdrop]
      have hsp : splitUntil '"' (u ++ '"' :: '>' :: rest) = some (u, '>' :: rest) :=
        splitUntil_append '"' u ('>' :: rest) hq
      simp only [if_pos rfl, hsp]
      cases f2 with
      | zero => omega
      | succ f3 =>
        rw [parseAttrs_gt rest f3]
        simp [strL]

theorem tokGo_openA (u : Str) (hq : '"' ∉ u) (fuel : Nat) (pend rest : Str) :
    tokenizeGo (fuel + 1) pend (strL "<a href=\"" ++ u ++ strL "\">" ++ rest) =
      flushText pend (Tok.openTag (strL "a") [(strL "href", some u)] ::
        tokenizeGo fuel [] rest) := by
  have hshape : strL "<a href=\"" ++ u ++ strL "\">" ++ rest =
      '<' :: 'a' :: (strL " href=\"" ++ u ++ strL "\">" ++ rest) := by
    simp [strL]
  rw [hshape]
  have hcomm : List.isPrefixOf (strL "!--")
      ('a' :: (strL " href=\"" ++ u ++ strL "\">" ++ rest)) = false :=
    isPrefixOf_false_head '!' 'a' _ _ (by decide)
  have htk : List.takeWhile isTagChar
      ('a' :: (strL " href=\"" ++ u ++ strL "\">" ++ rest)) = ['a'] := by
    have := takeWhile_lit isTagChar ['a'] (by decide) ' ' (by decide)
      (strL "href=\"" ++ u ++ strL "\">" ++ rest)
    have hsh2 : ('a' :: (strL " href=\"" ++ u ++ strL "\">" ++ rest)) =
        ['a'] ++ ' ' :: (strL "href=\"" ++ u ++ strL "\">" ++ rest) := by
      simp [strL]
    rw [hsh2]
    simpa using this
  have hdrop : List.drop (['a'] : Str).length
      ('a' :: (strL " href=\"" ++ u ++ strL "\">" ++ rest)) =
      strL " href=\"" ++ u ++ strL "\">" ++ rest := by
    simp
  simp only [tokenizeGo, if_pos rfl, if_true, hcomm, Bool.false_eq_true, if_false,
    List.append_eq]
  rw [if_neg (by decide : ¬ 'a' = '/')]
  rw [htk]
  rw [if_neg (by simp : ¬ (['a'] : Str) = [])]
  rw [hdrop]
  rw [parseAttrs_href u hq rest _ (Nat.lt_succ_self _)]
  rfl

theorem inlineHtmlOf_snoc (t : Str) (ms : List Mark) (m : Mark) :
    inlineHtmlOf t (ms ++ [m]) = markTagOpen m ++ inlineHtmlOf t ms ++ markTagClose m := by
  simp [inlineHtmlOf, List.foldl_append]

theorem inlineToks_snoc (t : Str) (ms : List Mark) (m : Mark) :
    inlineToks t (ms ++ [m]) =
      markOpenTok m :: (inlineToks t ms ++ [markCloseTok m]) := by
  simp [inlineToks, List.append_assoc]

theorem tokGo_run (t : Str) (ht : t ≠ []) (hlt : '<' ∉ t) (hamp : '&' ∉ t) :
    ∀ (ms : List Mark), (∀ u ti, Mark.link u ti ∈ ms → '"' ∉ u) →
    ∀ (fuel : Nat) (tg : Str), tg.all isTagChar = true → tg ≠ [] →
    ∀ (r2 : Str),
      tokenizeGo ((fuel + 1) + (t.length + 2 * ms.length)) []
          (inlineHtmlOf t ms ++ (strL "</" ++ tg ++ '>' :: r2)) =
        inlineToks t ms ++ Tok.closeTag tg :: tokenizeGo fuel [] r2 := by
  intro ms
  induction ms using List.reverseRecOn with
  | nil =>
    intro _ fuel tg htg htgne r2
    have h0 : inlineHtmlOf t [] = t := rfl
    rw [h0]
    have harith : (fuel + 1) + (t.length + 2 * ([] : List Mark).length) =
        (fuel + 1) + t.length := by simp
    rw [harith]
    rw [tokGo_text t hlt (fuel + 1) [] _]
    rw [List.append_nil]
    rw [tokGo_close tg htg htgne fuel t.reverse r2]
    rw [flushText_rev t ht hamp]
    simp [inlineToks]
  | append_singleton ms m ih =>
    intro hq fuel tg htg htgne r2
    have hms : ∀ u ti, Mark.link u ti ∈ ms → '"' ∉ u := fun u ti hm =>
      hq u ti (List.mem_append_left _ hm)
    have hfull : inlineHtmlOf t (ms ++ [m]) ++ (strL "</" ++ tg ++ '>' :: r2) =
        markTagOpen m ++ (inlineHtmlOf t ms ++
          (markTagClose m ++ (strL "</" ++ tg ++ '>' :: r2))) := by
      rw [inlineHtmlOf_snoc]
      simp [List.append_assoc]
    rw [hfull]
    have harith : (fuel + 1) + (t.length + 2 * (ms ++ [m]).length) =
        ((((fuel + 1) + 1) + (t.length + 2 * ms.length))) + 1 := by
      simp [List.length_append]
      omega
    rw [harith]
    rw [inlineToks_snoc]
    cases m with
    | em =>
      rw [show markTagOpen Mark.em ++ (inlineHtmlOf t ms ++
          (markTagClose Mark.em ++ (strL "</" ++ tg ++ '>' :: r2))) =
        '<' :: strL "em" ++ '>' :: (inlineHtmlOf t ms ++
          (markTagClose Mark.em ++ (strL "</" ++ tg ++ '>' :: r2))) from rfl]
      rw [tokGo_open (strL "em") (by decide) (by decide) (by intro d r hdr; cases hdr; exact ⟨by decide, by decide⟩)]
      rw [flushText_nil]
      rw [show markTagClose Mark.em ++ (strL "</" ++ tg ++ '>' :: r2) =
        strL "</" ++ strL "em" ++ '>' :: (strL "</" ++ tg ++ '>' :: r2) from rfl]
      rw [ih hms (fuel + 1) (strL "em") (by decide) (by decide) _]
      rw [tokGo_close tg htg htgne fuel [] r2]
      rw [flushText_nil]
      simp [markOpenTok, markCloseTok]
    | strong =>
      rw [show markTagOpen Mark.strong ++ (inlineHtmlOf t ms ++
          (markTagClose Mark.strong ++ (strL "</" ++ tg ++ '>' :: r2))) =
        '<' :: strL "strong" ++ '>' :: (inlineHtmlOf t ms ++
          (markTagClose Mark.strong ++ (strL "</" ++ tg ++ '>' :: r2))) from rfl]
      rw [tokGo_open (strL "strong") (by decide) (by decide) (by intro d r hdr; cases hdr; exact ⟨by decide, by decide⟩)]
      rw [flushText_nil]
      rw [show markTagClose Mark.strong ++ (strL "</" ++ tg ++ '>' :: r2) =
        strL "</" ++ strL "strong" ++ '>' :: (strL "</" ++ tg ++ '>' :: r2) from rfl]
      rw [ih hms (fuel + 1) (strL "strong") (by decide) (by decide) _]
      rw [tokGo_close tg htg htgne fuel [] r2]
      rw [flushText_nil]
      simp [markOpenTok, markCloseTok]
    | code =>
      rw [show markTagOpen Mark.code ++ (inlineHtmlOf t ms ++
          (markTagClose Mark.code ++ (strL "</" ++ tg ++ '>' :: r2))) =
        '<' :: strL "code" ++ '>' :: (inlineHtmlOf t ms ++
          (markTagClose Mark.code ++ (strL "</" ++ tg ++ '>' :: r2))) from rfl]
      rw [tokGo_open (strL "code") (by decide) (by decide) (by intro d r hdr; cases hdr; exact ⟨by decide, by decide⟩)]
      rw [flushText_nil]
      rw [show markTagClose Mark.code ++ (strL "</" ++ tg ++ '>' :: r2) =
        strL "</" ++ strL "code" ++ '>' :: (strL "</" ++ tg ++ '>' :: r2) from rfl]
      rw [ih hms (fuel + 1) (strL "code") (by decide) (by decide) _]
      rw [tokGo_close tg htg htgne fuel [] r2]
      rw [flushText_nil]
      simp [markOpenTok, markCloseTok]
    | link u ti =>
      have hqu : '"' ∉ u := hq u ti (List.mem_append_right _ (List.mem_singleton.mpr rfl))
      rw [show markTagOpen (Mark.link u ti) ++ (inlineHtmlOf t ms ++
          (markTagClose (Mark.link u ti) ++ (strL "</" ++ tg ++ '>' :: r2))) =
        strL "<a href=\"" ++ u ++ strL "\">" ++ (inlineHtmlOf t ms ++
          (markTagClose (Mark.link u ti) ++ (strL "</" ++ tg ++ '>' :: r2))) from by
        simp [markTagOpen, List.append_assoc]]
      rw [tokGo_openA u hqu]
      rw [flushText_nil]
      rw [show markTagClose (Mark.link u ti) ++ (strL "</" ++ tg ++ '>' :: r2) =
        strL "</" ++ strL "a" ++ '>' :: (strL "</" ++ tg ++ '>' :: r2) from rfl]
      rw [ih hms (fuel + 1) (strL "a") (by decide) (by decide) _]
      rw [tokGo_close tg htg htgne fuel [] r2]
      rw [flushText_nil]
      simp [markOpenTok, markCloseTok]

theorem ihtml_len_ge (t : Str) : ∀ (ms : List Mark),
    t.length + 2 * ms.length ≤ (inlineHtmlOf t ms).length := by
  intro ms
  induction ms using List.reverseRecOn with
  | nil => simp [inlineHtmlOf]
  | append_singleton ms m ih =>
    rw [inlineHtmlOf_snoc]
    have h1 : 1 ≤ (markTagOpen m).length := by
      cases m <;> simp [markTagOpen, strL]
    have h2 : 1 ≤ (markTagClose m).length := by
      cases m <;> simp [markTagClose, strL]
    simp only [List.length_append, List.length_cons, List.length_nil]
    simp only [List.length_append, List.length_cons, List.length_nil] at ih
    omega

theorem benignMarks_linkq (ms : List Mark) (hms : benignMarks ms = true) :
    ∀ u ti, Mark.link u ti ∈ ms → '"' ∉ u := by
  intro u ti hm
  rcases benignMarks_cases ms hms with h | ⟨u', tail, hmsE, hu', htl⟩
  · rcases benignMarksTail_cases ms h with h' | h' | h' | h' | h' | h' | h' | h' <;> subst h' <;>
      simp at hm
  · subst hmsE
    rcases List.mem_cons.mp hm with h' | h'
    · injection h' with h1 h2
      subst h1
      obtain ⟨_, huall⟩ := benignHref_parts u hu'
      exact not_mem_of_benign u huall '"' (by decide)
    · rcases benignMarksTail_cases tail htl with h'' | h'' | h'' | h'' | h'' | h'' | h'' | h'' <;>
        subst h'' <;> simp at h'

theorem parseInline_nil : parseInlineMarkdown ([] : Str) = [] := rfl

theorem tokGo_wrapRun (tg : Str) (htg : tg.all isTagChar = true) (htgne : tg ≠ [])
    (hbang : ∀ d r, tg = d :: r → d ≠ '!' ∧ d ≠ '/') (inl : List Inline)
    (hrun : benignRun inl = true) :
    ∀ (fuel : Nat) (pend rest : Str),
      ('<' :: tg ++ '>' :: (parseInlineMarkdown (inlListToMd inl) ++
        (strL "</" ++ tg ++ '>' :: rest))).length < fuel →
      ∃ fuel', rest.length < fuel' ∧
        tokenizeGo fuel pend ('<' :: tg ++ '>' :: (parseInlineMarkdown (inlListToMd inl) ++
          (strL "</" ++ tg ++ '>' :: rest))) =
        flushText pend (Tok.openTag tg [] ::
          (runToks inl ++ (Tok.closeTag tg :: tokenizeGo fuel' [] rest))) := by
  intro fuel pend rest hf
  rcases benignRun_cases inl hrun with he | ⟨t, ms, he, hbt, hms⟩
  · subst he
    have h0 : parseInlineMarkdown (inlListToMd ([] : List Inline)) = [] := rfl
    rw [h0] at hf ⊢
    have hlen : ('<' :: tg ++ '>' :: (([] : Str) ++
        (strL "</" ++ tg ++ '>' :: rest))).length = 2 * tg.length + 5 + rest.length := by
      simp [strL]
      omega
    rw [hlen] at hf
    obtain ⟨f1, rfl⟩ : ∃ f1, fuel = f1 + 1 := ⟨fuel - 1, by omega⟩
    rw [tokGo_open tg htg htgne hbang f1 pend _]
    simp only [List.nil_append]
    obtain ⟨f2, rfl⟩ : ∃ f2, f1 = f2 + 1 := ⟨f1 - 1, by omega⟩
    rw [tokGo_close tg htg htgne f2 [] rest]
    rw [flushText_nil]
    exact ⟨f2, by omega, by simp [runToks]⟩
  · subst he
    rw [inlListToMd_single, parseInline_benign t ms hbt hms] at hf ⊢
    obtain ⟨hall, htne, _⟩ := benignText_parts t hbt
    have hlt : '<' ∉ t := not_mem_of_benign t hall '<' (by decide)
    have hamp : '&' ∉ t := not_mem_of_benign t hall '&' (by decide)
    have hq := benignMarks_linkq ms hms
    have hge := ihtml_len_ge t ms
    have hlen : ('<' :: tg ++ '>' :: (inlineHtmlOf t ms ++
        (strL "</" ++ tg ++ '>' :: rest))).length =
        2 * tg.length + 5 + (inlineHtmlOf t ms).length + rest.length := by
      simp [strL]
      omega
    rw [hlen] at hf
    obtain ⟨f1, rfl⟩ : ∃ f1, fuel = f1 + 1 := ⟨fuel - 1, by omega⟩
    rw [tokGo_open tg htg htgne hbang f1 pend _]
    have hf1 : f1 = ((f1 - 1 - (t.length + 2 * ms.length)) + 1) +
        (t.length + 2 * ms.length) := by omega
    rw [hf1]
    rw [tokGo_run t htne hlt hamp ms hq _ tg htg htgne rest]
    refine ⟨f1 - 1 - (t.length + 2 * ms.length), by omega, ?_⟩
    simp [runToks]

theorem benignRun_of_run1 (inl : List Inline) (h : benignRun1 inl = true) :
    benignRun inl = true := by
  obtain ⟨t, ms, rfl, ht, hm⟩ := benignRun1_cases inl h
  simp only [benignRun, benignInline, Bool.and_eq_true]
  exact ⟨ht, hm⟩

theorem flushText_nl (toks : List Tok) :
    flushText ['\n'] toks = Tok.textTok ['\n'] :: toks := by
  have := flushText_rev ['\n'] (by simp) (by decide) toks
  simpa using this

theorem tokGo_nl (fuel : Nat) (rest : Str) :
    tokenizeGo (fuel + 1) [] ('\n' :: rest) = tokenizeGo fuel ['\n'] rest := by
  have := tokGo_text ['\n'] (by decide) fuel [] rest
  simpa using this

theorem joinNL_cons_pair (a y : Str) (r : List Str) :
    joinNL (a :: y :: r) = a ++ '\n' :: joinNL (y :: r) := by
  simp [joinNL, List.intersperse, strL]

theorem joinNL_cons_all (xs : List Str) (a : Str) :
    joinNL (a :: xs) = a ++ (xs.map fun x => '\n' :: x).flatten := by
  induction xs generalizing a with
  | nil => simp [joinNL]
  | cons y r ih =>
    rw [joinNL_cons_pair, ih y]
    simp

theorem tokItemStep (inl : List Inline) (hrun : benignRun inl = true)
    (fuel : Nat) (REST : Str)
    (hf : ('\n' :: (strL "<li>" ++ (parseInlineMarkdown (inlListToMd inl) ++
      (strL "</li>" ++ REST)))).length < fuel) :
    ∃ fuel', REST.length < fuel' ∧
      tokenizeGo fuel [] ('\n' :: (strL "<li>" ++ (parseInlineMarkdown (inlListToMd inl) ++
        (strL "</li>" ++ REST)))) =
      Tok.textTok ['\n'] :: Tok.openTag (strL "li") [] ::
        (runToks inl ++ (Tok.closeTag (strL "li") :: tokenizeGo fuel' [] REST)) := by
  obtain ⟨f1, rfl⟩ : ∃ f1, fuel = f1 + 1 := by
    refine ⟨fuel - 1, ?_⟩
    simp only [List.length_cons] at hf
    omega
  rw [tokGo_nl]
  have hshape : strL "<li>" ++ (parseInlineMarkdown (inlListToMd inl) ++
      (strL "</li>" ++ REST)) =
      '<' :: strL "li" ++ '>' :: (parseInlineMarkdown (inlListToMd inl) ++
        (strL "</" ++ strL "li" ++ '>' :: REST)) := by
    simp [strL]
  rw [hshape]
  obtain ⟨f2, hb2, heq2⟩ := tokGo_wrapRun (strL "li") (by decide) (by simp [strL])
    (by
      intro d r hdr
      simp only [strL] at hdr
      injection hdr with h1 h2
      constructor <;> (rw [← h1]; decide)) inl hrun f1 ['\n'] REST
    (by rw [← hshape]; simp only [List.length_cons] at hf ⊢; omega)
  rw [heq2, flushText_nl]
  exact ⟨f2, hb2, by simp⟩

theorem tokItems : ∀ (items : List N), items.all benignItem = true →
    ∀ (fuel : Nat) (rest : Str),
      ((items.map fun li =>
          '\n' :: (strL "<li>" ++ (parseInlineMarkdown (getNodeTextContent li) ++
            strL "</li>"))).flatten ++ ('\n' :: (strL "</ul>" ++ rest))).length < fuel →
      ∃ fuel', rest.length < fuel' ∧
        tokenizeGo fuel [] ((items.map fun li =>
            '\n' :: (strL "<li>" ++ (parseInlineMarkdown (getNodeTextContent li) ++
              strL "</li>"))).flatten ++ ('\n' :: (strL "</ul>" ++ rest))) =
          (items.map fun li =>
            Tok.textTok ['\n'] :: Tok.openTag (strL "li") [] ::
              (runToks (match li with
                        | N.list_item [N.paragraph inl] => inl
                        | _ => []) ++ [Tok.closeTag (strL "li")])).flatten ++
          (Tok.textTok ['\n'] :: Tok.closeTag (strL "ul") :: tokenizeGo fuel' [] rest) := by
  intro items
  induction items with
  | nil =>
    intro _ fuel rest hf
    simp only [List.map_nil, List.flatten_nil, List.nil_append] at hf ⊢
    obtain ⟨f1, rfl⟩ : ∃ f1, fuel = f1 + 1 := by
      refine ⟨fuel - 1, ?_⟩
      simp only [List.length_cons] at hf
      omega
    rw [tokGo_nl]
    obtain ⟨f2, rfl⟩ : ∃ f2, f1 = f2 + 1 := by
      refine ⟨f1 - 1, ?_⟩
      simp only [List.length_cons, List.length_append, strL] at hf
      simp at hf
      omega
    have hshape : strL "</ul>" ++ rest = strL "</" ++ strL "ul" ++ '>' :: rest := by
      simp [strL]
    rw [hshape, tokGo_close (strL "ul") (by decide) (by simp [strL]) f2 ['\n'] rest,
      flushText_nl]
    refine ⟨f2, ?_, rfl⟩
    simp only [List.length_cons, List.length_append, strL] at hf
    simp at hf
    omega
  | cons li rl ih =>
    intro hall fuel rest hf
    simp only [List.all_cons, Bool.and_eq_true] at hall
    obtain ⟨inl, rfl, hrun⟩ := benignItem_cases li hall.1
    simp only [List.map_cons, List.flatten_cons, getNTC_item, List.cons_append,
      List.append_assoc] at hf ⊢
    obtain ⟨f2, hb2, heq2⟩ := tokItemStep inl hrun fuel
      ((rl.map fun li2 =>
        '\n' :: (strL "<li>" ++ (parseInlineMarkdown (getNodeTextContent li2) ++
          strL "</li>"))).flatten ++ ('\n' :: (strL "</ul>" ++ rest)))
      (by simp only [List.length_cons, List.length_append] at hf ⊢; omega)
    obtain ⟨f3, hb3, heq3⟩ := ih hall.2 f2 rest hb2
    refine ⟨f3, hb3, ?_⟩
    rw [heq2, heq3]
    simp

theorem joinNL_single (x : Str) : joinNL [x] = x := by
  simp [joinNL]

theorem tokHeadAux (l : Nat) (d : Char) (hnd : natDigits l = [d])
    (hd : isTagChar d = true) (inl : List Inline) (hrun : benignRun inl = true)
    (fuel : Nat) (pend rest : Str)
    (hf : (blockHtml (N.heading l inl) ++ rest).length < fuel) :
    ∃ fuel', rest.length < fuel' ∧
      tokenizeGo fuel pend (blockHtml (N.heading l inl) ++ rest) =
        flushText pend (blockToks (N.heading l inl) ++ tokenizeGo fuel' [] rest) := by
  have hshape : blockHtml (N.heading l inl) ++ rest =
      '<' :: ('h' :: [d]) ++ '>' :: (parseInlineMarkdown (inlListToMd inl) ++
        (strL "</" ++ ('h' :: [d]) ++ '>' :: rest)) := by
    simp [blockHtml, blockFrags, joinNL_single, hnd, strL]
  rw [hshape]
  obtain ⟨f2, hb2, heq2⟩ := tokGo_wrapRun ('h' :: [d])
    (by simp only [List.all_cons, List.all_nil, hd]; decide)
    (by simp) (by intro d0 r0 h0; injection h0 with h1 h2; rw [← h1]; decide)
    inl hrun fuel pend rest (by rw [← hshape]; exact hf)
  rw [heq2]
  refine ⟨f2, hb2, ?_⟩
  simp [blockToks, hnd]

theorem tokBlock (n : N) (h : benignBlock n = true) :
    ∀ (fuel : Nat) (pend rest : Str),
      (blockHtml n ++ rest).length < fuel →
      ∃ fuel', rest.length < fuel' ∧
        tokenizeGo fuel pend (blockHtml n ++ rest) =
          flushText pend (blockToks n ++ tokenizeGo fuel' [] rest) := by
  intro fuel pend rest hf
  rcases benignBlock_cases n h with ⟨inl, rfl, hrun1⟩ | ⟨l, inl, rfl, hl1, hl6, hrun⟩ |
    ⟨inl, rfl, hrun⟩ | ⟨cs, rfl, hne, hall⟩ | rfl
  · have hrun := benignRun_of_run1 inl hrun1
    have hshape : blockHtml (N.paragraph inl) ++ rest =
        '<' :: strL "p" ++ '>' :: (parseInlineMarkdown (inlListToMd inl) ++
          (strL "</" ++ strL "p" ++ '>' :: rest)) := by
      simp [blockHtml, blockFrags, joinNL_single, strL]
    rw [hshape]
    obtain ⟨f2, hb2, heq2⟩ := tokGo_wrapRun (strL "p") (by decide) (by simp [strL])
      (by intro d0 r0 h0; simp only [strL] at h0; injection h0 with h1 h2; rw [← h1]; decide)
      inl hrun fuel pend rest (by rw [← hshape]; exact hf)
    rw [heq2]
    refine ⟨f2, hb2, ?_⟩
    simp [blockToks]
  · have hub : l ≤ 6 := hl6
    interval_cases l
    · exact tokHeadAux 1 '1' (by decide) (by decide) inl hrun fuel pend rest hf
    · exact tokHeadAux 2 '2' (by decide) (by decide) inl hrun fuel pend rest hf
    · exact tokHeadAux 3 '3' (by decide) (by decide) inl hrun fuel pend rest hf
    · exact tokHeadAux 4 '4' (by decide) (by decide) inl hrun fuel pend rest hf
    · exact tokHeadAux 5 '5' (by decide) (by decide) inl hrun fuel pend rest hf
    · exact tokHeadAux 6 '6' (by decide) (by decide) inl hrun fuel pend rest hf
  · have hshape : blockHtml (N.blockquote [N.paragraph inl]) ++ rest =
        '<' :: strL "blockquote" ++ '>' :: (parseInlineMarkdown (inlListToMd inl) ++
          (strL "</" ++ strL "blockquote" ++ '>' :: rest)) := by
      simp [blockHtml, blockFrags, joinNL_single, getTCList_para, strL]
    rw [hshape]
    obtain ⟨f2, hb2, heq2⟩ := tokGo_wrapRun (strL "blockquote") (by decide) (by simp [strL])
      (by intro d0 r0 h0; simp only [strL] at h0; injection h0 with h1 h2; rw [← h1]; decide)
      inl hrun fuel pend rest (by rw [← hshape]; exact hf)
    rw [heq2]
    refine ⟨f2, hb2, ?_⟩
    simp [blockToks]
  · have hb1 : blockHtml (N.bullet_list cs) ++ rest =
        '<' :: strL "ul" ++ '>' :: ((cs.map fun li =>
          '\n' :: (strL "<li>" ++ (parseInlineMarkdown (getNodeTextContent li) ++
            strL "</li>"))).flatten ++ ('\n' :: (strL "</ul>" ++ rest))) := by
      simp [blockHtml, blockFrags, joinNL_cons_all, strL, Function.comp_def]
    rw [hb1] at hf ⊢
    obtain ⟨f1, rfl⟩ : ∃ f1, fuel = f1 + 1 := by
      refine ⟨fuel - 1, ?_⟩
      simp only [List.length_cons, List.length_append] at hf
      omega
    rw [tokGo_open (strL "ul") (by decide) (by simp [strL])
      (by intro d0 r0 h0; simp only [strL] at h0; injection h0 with h1 h2; rw [← h1]; decide)
      f1 pend _]
    obtain ⟨f2, hb2, heq2⟩ := tokItems cs hall f1 rest
      (by simp only [List.length_cons, List.length_append] at hf ⊢; omega)
    rw [heq2]
    refine ⟨f2, hb2, ?_⟩
    simp [blockToks]
  · have hshape : blockHtml N.horizontal_rule ++ rest =
        '<' :: strL "hr" ++ '>' :: rest := by
      simp [blockHtml, blockFrags, joinNL_single, strL]
    rw [hshape] at hf ⊢
    obtain ⟨f1, rfl⟩ : ∃ f1, fuel = f1 + 1 := by
      refine ⟨fuel - 1, ?_⟩
      simp only [List.length_cons, List.length_append] at hf
      omega
    rw [tokGo_open (strL "hr") (by decide) (by simp [strL])
      (by intro d0 r0 h0; simp only [strL] at h0; injection h0 with h1 h2; rw [← h1]; decide)
      f1 pend rest]
    refine ⟨f1, ?_, ?_⟩
    · simp only [List.length_cons, List.length_append] at hf
      omega
    · simp [blockToks]

theorem blockFrags_ne (n : N) (h : benignBlock n = true) : blockFrags n ≠ [] := by
  rcases benignBlock_cases n h with ⟨inl, rfl, _⟩ | ⟨l, inl, rfl, _, _, _⟩ |
    ⟨inl, rfl, _⟩ | ⟨cs, rfl, _, _⟩ | rfl <;> simp [blockFrags]

theorem joinNL_append_ne (A B : List Str) (hA : A ≠ []) (hB : B ≠ []) :
    joinNL (A ++ B) = joinNL A ++ '\n' :: joinNL B := by
  cases A with
  | nil => exact absurd rfl hA
  | cons a A' =>
    cases B with
    | nil => exact absurd rfl hB
    | cons b B' =>
      simp [joinNL_cons_all, List.append_assoc]

theorem docHtml_eq : ∀ (bs : List N) (b : N), benignBlock b = true →
    bs.all benignBlock = true →
    joinNL ((b :: bs).flatMap blockFrags) =
      blockHtml b ++ (bs.map fun b2 => '\n' :: blockHtml b2).flatten := by
  intro bs
  induction bs with
  | nil =>
    intro b _ _
    simp [List.flatMap, blockHtml]
  | cons b2 bs' ih =>
    intro b hb hall
    simp only [List.all_cons, Bool.and_eq_true] at hall
    have h1 : (b :: b2 :: bs').flatMap blockFrags =
        blockFrags b ++ (b2 :: bs').flatMap blockFrags := by
      simp [List.flatMap]
    rw [h1]
    have hBne : (b2 :: bs').flatMap blockFrags ≠ [] := by
      have := blockFrags_ne b2 hall.1
      simp only [List.flatMap_cons]
      intro he
      rcases List.append_eq_nil.mp he with ⟨h2, _⟩
      exact this h2
    rw [joinNL_append_ne _ _ (blockFrags_ne b hb) hBne]
    rw [ih b2 hall.1 hall.2]
    simp [blockHtml]

theorem tokGo_docAux : ∀ (bs : List N), bs.all benignBlock = true →
    ∀ (fuel : Nat) (rest : Str),
      ((bs.map fun b2 => '\n' :: blockHtml b2).flatten ++ rest).length < fuel →
      ∃ fuel', rest.length < fuel' ∧
        tokenizeGo fuel [] ((bs.map fun b2 => '\n' :: blockHtml b2).flatten ++ rest) =
          (bs.map fun b2 => Tok.textTok ['\n'] :: blockToks b2).flatten ++
            tokenizeGo fuel' [] rest := by
  intro bs
  induction bs with
  | nil =>
    intro _ fuel rest hf
    simp only [List.map_nil, List.flatten_nil, List.nil_append] at hf ⊢
    exact ⟨fuel, hf, rfl⟩
  | cons b2 bs' ih =>
    intro hall fuel rest hf
    simp only [List.all_cons, Bool.and_eq_true] at hall
    simp only [List.map_cons, List.flatten_cons, List.cons_append, List.append_assoc] at hf ⊢
    obtain ⟨f1, rfl⟩ : ∃ f1, fuel = f1 + 1 := by
      refine ⟨fuel - 1, ?_⟩
      simp only [List.length_cons] at hf
      omega
    rw [tokGo_nl]
    obtain ⟨f2, hb2, heq2⟩ := tokBlock b2 hall.1 f1 ['\n']
      ((bs'.map fun b3 => '\n' :: blockHtml b3).flatten ++ rest)
      (by simp only [List.length_cons] at hf; omega)
    rw [heq2, flushText_nl]
    obtain ⟨f3, hb3, heq3⟩ := ih hall.2 f2 rest hb2
    rw [heq3]
    exact ⟨f3, hb3, by simp⟩

theorem tokGo_nil_input (fuel : Nat) (h : 0 < fuel) : tokenizeGo fuel [] [] = [] := by
  obtain ⟨f1, rfl⟩ : ∃ f1, fuel = f1 + 1 := ⟨fuel - 1, by omega⟩
  rfl

theorem tokenize_doc (doc : Doc) (h : benignDoc doc = true) :
    tokenize (joinNL (doc.flatMap blockFrags)) = docToks doc := by
  simp only [benignDoc, Bool.and_eq_true, Bool.not_eq_true'] at h
  cases doc with
  | nil => simp at h
  | cons b bs =>
    simp only [List.all_cons, Bool.and_eq_true] at h
    rw [docHtml_eq bs b h.2.1 h.2.2]
    show tokenize (blockHtml b ++ (bs.map fun b2 => '\n' :: blockHtml b2).flatten) = _
    rw [tokenize]
    obtain ⟨f2, hb2, heq2⟩ := tokBlock b h.2.1
      ((blockHtml b ++ (bs.map fun b2 => '\n' :: blockHtml b2).flatten).length + 1) []
      ((bs.map fun b2 => '\n' :: blockHtml b2).flatten) (by omega)
    rw [heq2, flushText_nil]
    obtain ⟨f3, hb3, heq3⟩ := tokGo_docAux bs h.2.2 f2 []
      (by simpa using hb2)
    rw [List.append_nil] at heq3
    rw [heq3, tokGo_nil_input f3 (by omega)]
    simp [docToks]

theorem isTextblock_npre (k : FrameKind) (h : isTextblock k = true) :
    isPreKind k = false := by
  cases k <;> simp [isPreKind] <;> simp [isTextblock] at h

theorem applyOpen_em (st : BuildState) :
    applyOpen st (strL "em") [] = pushMark st Mark.em := by
  simp [applyOpen, strL]

theorem applyOpen_strong (st : BuildState) :
    applyOpen st (strL "strong") [] = pushMark st Mark.strong := by
  simp [applyOpen, strL]

theorem applyOpen_a (st : BuildState) (u : Str) :
    applyOpen st (strL "a") [(strL "href", some u)] =
      pushMark st (Mark.link u none) := by
  simp [applyOpen, strL, attrVal, lookupAttr]

theorem applyOpen_code_np (f : Frame) (fr : List Frame)
    (hpre : isPreKind f.kind = false) (mks : List Mark) :
    applyOpen ⟨f :: fr, mks⟩ (strL "code") [] = pushMark ⟨f :: fr, mks⟩ Mark.code := by
  simp only [applyOpen, strL]
  norm_num
  cases hk : f.kind <;> simp [hk] <;> simp [isPreKind, hk] at hpre

theorem applyClose_em_np (f : Frame) (fr : List Frame)
    (hpre : isPreKind f.kind = false) (mks : List Mark) :
    applyClose ⟨f :: fr, mks⟩ (strL "em") = popMark ⟨f :: fr, mks⟩ Mark.em := by
  simp [applyClose, strL, hpre]

theorem applyClose_strong_np (f : Frame) (fr : List Frame)
    (hpre : isPreKind f.kind = false) (mks : List Mark) :
    applyClose ⟨f :: fr, mks⟩ (strL "strong") = popMark ⟨f :: fr, mks⟩ Mark.strong := by
  simp [applyClose, strL, hpre]

theorem applyClose_code_np (f : Frame) (fr : List Frame)
    (hpre : isPreKind f.kind = false) (mks : List Mark) :
    applyClose ⟨f :: fr, mks⟩ (strL "code") = popMark ⟨f :: fr, mks⟩ Mark.code := by
  simp [applyClose, strL, hpre]

theorem applyClose_a_np (f : Frame) (fr : List Frame)
    (hpre : isPreKind f.kind = false) (mks : List Mark) :
    applyClose ⟨f :: fr, mks⟩ (strL "a") = popMark ⟨f :: fr, mks⟩ (Mark.link [] none) := by
  simp [applyClose, strL, hpre]

theorem opensFold (ms : List Mark) (hm : benignMarks ms = true) (f : Frame)
    (hpre : isPreKind f.kind = false) (fr : List Frame) :
    (ms.reverse.map markOpenTok).foldl applyTok ⟨f :: fr, []⟩ = ⟨f :: fr, ms⟩ := by
  rcases benignMarks_cases ms hm with ht | ⟨u, tail, rfl, hu, ht⟩
  · rcases benignMarksTail_cases ms ht with rfl | rfl | rfl | rfl | rfl | rfl | rfl | rfl <;>
      simp [markOpenTok, applyTok, applyOpen_em, applyOpen_strong,
        applyOpen_code_np f fr hpre, pushMark, addMark, sameMarkType, markRank]
  · rcases benignMarksTail_cases tail ht with rfl | rfl | rfl | rfl | rfl | rfl | rfl | rfl <;>
      simp [markOpenTok, applyTok, applyOpen_em, applyOpen_strong, applyOpen_a,
        applyOpen_code_np f fr hpre, pushMark, addMark, sameMarkType, markRank]

theorem closesFold (ms : List Mark) (hm : benignMarks ms = true) (f : Frame)
    (hpre : isPreKind f.kind = false) (fr : List Frame) :
    (ms.map markCloseTok).foldl applyTok ⟨f :: fr, ms⟩ = ⟨f :: fr, []⟩ := by
  rcases benignMarks_cases ms hm with ht | ⟨u, tail, rfl, hu, ht⟩
  · rcases benignMarksTail_cases ms ht with rfl | rfl | rfl | rfl | rfl | rfl | rfl | rfl <;>
      simp [markCloseTok, applyTok, applyClose_em_np f fr hpre, applyClose_strong_np f fr hpre,
        applyClose_code_np f fr hpre, applyClose_a_np f fr hpre, popMark, removeMark,
        sameMarkType, markRank]
  · rcases benignMarksTail_cases tail ht with rfl | rfl | rfl | rfl | rfl | rfl | rfl | rfl <;>
      simp [markCloseTok, applyTok, applyClose_em_np f fr hpre, applyClose_strong_np f fr hpre,
        applyClose_code_np f fr hpre, applyClose_a_np f fr hpre, popMark, removeMark,
        sameMarkType, markRank]

theorem benign_not_collWs (c : Char) (hb : benignChar c = true) (hs : c ≠ ' ') :
    isCollWs c = false := by
  simp only [isCollWs, Bool.or_eq_false_iff, decide_eq_false_iff_not]
  refine ⟨⟨⟨⟨hs, ?_⟩, ?_⟩, ?_⟩, ?_⟩ <;>
    (intro he; rw [he] at hb; simp [benignChar] at hb)

theorem collapseGo_benign : ∀ (t : Str), t.all benignChar = true → noDoubleSpace t = true →
    ∀ (b : Bool), (b = true → t.head? ≠ some ' ') → collapseGo b t = t := by
  intro t
  induction t with
  | nil => intro _ _ b _; cases b <;> rfl
  | cons c r ih =>
    intro hall hnd b hb
    simp only [List.all_cons, Bool.and_eq_true] at hall
    by_cases hsp : c = ' '
    · subst hsp
      have hbf : b = false := by
        cases b with
        | true => exact absurd rfl (hb rfl)
        | false => rfl
      subst hbf
      rw [collapseGo, if_pos (by decide), if_neg (by simp)]
      congr 1
      refine ih hall.2 ?_ true ?_
      · cases r with
        | nil => rfl
        | cons d r' =>
          simp only [noDoubleSpace, Bool.and_eq_true] at hnd
          exact hnd.2
      · intro _
        cases r with
        | nil => simp
        | cons d r' =>
          simp only [noDoubleSpace, Bool.and_eq_true, Bool.not_eq_true',
            Bool.and_eq_false_iff, decide_eq_false_iff_not] at hnd
          simp only [List.head?_cons, ne_eq, Option.some.injEq]
          rcases hnd.1 with h | h
          · exact absurd trivial h
          · exact h
    · rw [collapseGo, if_neg (by rw [benign_not_collWs c hall.1 hsp]; simp)]
      congr 1
      refine ih hall.2 ?_ false (by simp)
      cases r with
      | nil => rfl
      | cons d r' =>
        simp only [noDoubleSpace, Bool.and_eq_true] at hnd
        exact hnd.2

theorem collapseWs_benign (t : Str) (ht : benignText t = true) : collapseWs t = t := by
  obtain ⟨hall, hne, hlast, hnd, hhead⟩ := benignText_parts t ht
  exact collapseGo_benign t hall hnd false (by simp)

theorem stripTrailingInl_benign (t : Str) (ht : benignText t = true) (ms : List Mark) :
    stripTrailingInl [Inline.text t ms] = [Inline.text t ms] := by
  obtain ⟨hall, hne, hlast, hnd, hhead⟩ := benignText_parts t ht
  cases hrev : t.reverse with
  | nil => exact absurd (by simpa using congrArg List.reverse hrev) hne
  | cons c r =>
    have hcl : t.getLast? = some c := by
      rw [List.getLast?_eq_head?_reverse, hrev]
      rfl
    have hcm : c ∈ t := by
      have : c ∈ t.reverse := by rw [hrev]; exact List.mem_cons_self c r
      simpa using this
    have hbc : benignChar c = true := by
      rw [List.all_eq_true] at hall
      exact hall c hcm
    have hcs : c ≠ ' ' := by
      intro he
      rw [he] at hcl
      exact hlast hcl
    have hdrop : t.reverse.dropWhile isCollWs = t.reverse := by
      rw [hrev, List.dropWhile_cons, benign_not_collWs c hbc hcs]
      simp
    simp [stripTrailingInl, hdrop, hne]

theorem addTextIn_empty (t : Str) (ht : benignText t = true) (K : FrameKind)
    (ch : List N) (raw : Str) (mo : List Mark) (fr : List Frame) (mks : List Mark) :
    addTextIn ⟨⟨K, ch, [], raw, mo⟩ :: fr, mks⟩ t =
      ⟨⟨K, ch, [Inline.text t mks], raw, mo⟩ :: fr, mks⟩ := by
  obtain ⟨hall, hne, hlast, hnd, hhead⟩ := benignText_parts t ht
  cases t with
  | nil => exact absurd rfl hne
  | cons c t' =>
    obtain ⟨hbc, hdig, hsp⟩ := hhead c t' rfl
    have hcoll : collapseWs (c :: t') = c :: t' := collapseWs_benign _ ht
    simp only [addTextIn, hcoll, lastInl, List.getLast?_nil, List.head?_cons,
      Option.some.injEq]
    rw [if_neg hsp]
    simp [pushInline]

theorem applyTok_text (st : BuildState) (s : Str) :
    applyTok st (Tok.textTok s) = applyText st s := rfl

theorem textTok_textblock (t : Str) (ht : benignText t = true) (K : FrameKind)
    (htb : isTextblock K = true) (ch : List N) (raw : Str) (mo : List Mark)
    (fr : List Frame) (mks : List Mark) :
    applyTok ⟨⟨K, ch, [], raw, mo⟩ :: fr, mks⟩ (Tok.textTok t) =
      ⟨⟨K, ch, [Inline.text t mks], raw, mo⟩ :: fr, mks⟩ := by
  rw [applyTok_text]
  cases K <;> first
    | (simp only [applyText]
       rw [if_pos htb]
       exact addTextIn_empty t ht _ ch raw mo fr mks)
    | (exfalso; revert htb; simp [isTextblock]; done)

theorem applyText_ws_skip (s : Str) (hs : s.all isCollWs = true) (K : FrameKind)
    (hpre : isPreKind K = false) (hntb : isTextblock K = false)
    (ch : List N) (inl : List Inline) (raw : Str) (mo : List Mark)
    (fr : List Frame) (mks : List Mark) :
    applyText ⟨⟨K, ch, inl, raw, mo⟩ :: fr, mks⟩ s = ⟨⟨K, ch, inl, raw, mo⟩ :: fr, mks⟩ := by
  cases K <;> first
    | (simp only [applyText]
       rw [if_neg (by rw [hntb]; simp), if_pos hs])
    | (exfalso; revert hntb; simp [isTextblock]; done)
    | (exfalso; revert hpre; simp [isPreKind]; done)

theorem textTok_wrap (t : Str) (ht : benignText t = true) (K : FrameKind)
    (hw : inlineWrappers ⟨K, [], [], [], []⟩ = [FrameKind.fPara])
    (hpre : isPreKind K = false) (hntb : isTextblock K = false)
    (ch : List N) (inl : List Inline) (raw : Str) (mo : List Mark)
    (fr : List Frame) (mks : List Mark) :
    applyTok ⟨⟨K, ch, inl, raw, mo⟩ :: fr, mks⟩ (Tok.textTok t) =
      ⟨⟨FrameKind.fPara, [], [Inline.text t mks], [], mks⟩ ::
        ⟨K, ch, inl, raw, mo⟩ :: fr, mks⟩ := by
  obtain ⟨hall, hne, hlast, hnd, hhead⟩ := benignText_parts t ht
  have hnotws : t.all isCollWs = false := by
    cases t with
    | nil => exact absurd rfl hne
    | cons c t' =>
      obtain ⟨hbc, hdig, hsp⟩ := hhead c t' rfl
      simp [List.all_cons, benign_not_collWs c hbc hsp]
  have hw' : inlineWrappers ⟨K, ch, inl, raw, mo⟩ = [FrameKind.fPara] := by
    cases K <;> simp [inlineWrappers] at hw ⊢
  have hplace : placeInline ⟨⟨K, ch, inl, raw, mo⟩ :: fr, mks⟩ =
      ⟨⟨FrameKind.fPara, [], [], [], mks⟩ :: ⟨K, ch, inl, raw, mo⟩ :: fr, mks⟩ := by
    simp only [placeInline, hw']
    simp [newFrame]
  rw [applyTok_text]
  cases K <;> first
    | (simp only [applyText]
       rw [if_neg (by rw [hntb]; simp), if_neg (by rw [hnotws]; simp), hplace]
       exact addTextIn_empty t ht _ [] [] mks _ mks)
    | (exfalso; revert hntb; simp [isTextblock]; done)
    | (exfalso; revert hpre; simp [isPreKind]; done)

theorem runFold_textblock (t : Str) (ht : benignText t = true) (ms : List Mark)
    (hm : benignMarks ms = true) (K : FrameKind) (htb : isTextblock K = true)
    (ch : List N) (raw : Str) (mo : List Mark) (fr : List Frame) :
    (inlineToks t ms).foldl applyTok ⟨⟨K, ch, [], raw, mo⟩ :: fr, []⟩ =
      ⟨⟨K, ch, [Inline.text t ms], raw, mo⟩ :: fr, []⟩ := by
  rw [inlineToks, List.foldl_append, List.foldl_append]
  rw [opensFold ms hm _ (isTextblock_npre K htb) fr]
  have h1 : List.foldl applyTok (⟨⟨K, ch, [], raw, mo⟩ :: fr, ms⟩ : BuildState)
      [Tok.textTok t] = ⟨⟨K, ch, [Inline.text t ms], raw, mo⟩ :: fr, ms⟩ := by
    simp only [List.foldl_cons, List.foldl_nil]
    exact textTok_textblock t ht K htb ch raw mo fr ms
  rw [h1]
  exact closesFold ms hm _ (isTextblock_npre K htb) fr

theorem runFold_wrap (t : Str) (ht : benignText t = true) (ms : List Mark)
    (hm : benignMarks ms = true) (K : FrameKind)
    (hw : inlineWrappers ⟨K, [], [], [], []⟩ = [FrameKind.fPara])
    (hpre : isPreKind K = false) (hntb : isTextblock K = false)
    (ch : List N) (inl : List Inline) (raw : Str) (mo : List Mark) (fr : List Frame) :
    (inlineToks t ms).foldl applyTok ⟨⟨K, ch, inl, raw, mo⟩ :: fr, []⟩ =
      ⟨⟨FrameKind.fPara, [], [Inline.text t ms], [], ms⟩ ::
        ⟨K, ch, inl, raw, mo⟩ :: fr, []⟩ := by
  rw [inlineToks, List.foldl_append, List.foldl_append]
  rw [opensFold ms hm _ hpre fr]
  have h1 : List.foldl applyTok (⟨⟨K, ch, inl, raw, mo⟩ :: fr, ms⟩ : BuildState)
      [Tok.textTok t] = ⟨⟨FrameKind.fPara, [], [Inline.text t ms], [], ms⟩ ::
        ⟨K, ch, inl, raw, mo⟩ :: fr, ms⟩ := by
    simp only [List.foldl_cons, List.foldl_nil]
    exact textTok_wrap t ht K hw hpre hntb ch inl raw mo fr ms
  rw [h1]
  exact closesFold ms hm _ (by simp [isPreKind]) _

theorem open_p_doc (cs : List N) :
    applyTok (mkDocState cs) (Tok.openTag (strL "p") []) =
      ⟨[⟨FrameKind.fPara, [], [], [], []⟩, ⟨FrameKind.fDoc, cs, [], [], []⟩], []⟩ := rfl

theorem close_p_doc (cs : List N) (inl : List Inline) :
    applyTok ⟨[⟨FrameKind.fPara, [], inl, [], []⟩, ⟨FrameKind.fDoc, cs, [], [], []⟩], []⟩
      (Tok.closeTag (strL "p")) =
      mkDocState (cs ++ [N.paragraph (stripTrailingInl inl)]) := rfl

theorem open_bq_doc (cs : List N) :
    applyTok (mkDocState cs) (Tok.openTag (strL "blockquote") []) =
      ⟨[⟨FrameKind.fBlockquote, [], [], [], []⟩, ⟨FrameKind.fDoc, cs, [], [], []⟩], []⟩ := rfl

theorem close_bq_empty (cs : List N) :
    applyTok ⟨[⟨FrameKind.fBlockquote, [], [], [], []⟩, ⟨FrameKind.fDoc, cs, [], [], []⟩], []⟩
      (Tok.closeTag (strL "blockquote")) =
      mkDocState (cs ++ [N.blockquote [N.paragraph []]]) := rfl

theorem close_bq_full (cs : List N) (inl : List Inline) (ms : List Mark) :
    applyTok ⟨⟨FrameKind.fPara, [], inl, [], ms⟩ ::
        [⟨FrameKind.fBlockquote, [], [], [], []⟩, ⟨FrameKind.fDoc, cs, [], [], []⟩], []⟩
      (Tok.closeTag (strL "blockquote")) =
      mkDocState (cs ++ [N.blockquote [N.paragraph (stripTrailingInl inl)]]) := rfl

theorem open_hr_doc (cs : List N) :
    applyTok (mkDocState cs) (Tok.openTag (strL "hr") []) =
      mkDocState (cs ++ [N.horizontal_rule]) := rfl

theorem open_ul_doc (cs : List N) :
    applyTok (mkDocState cs) (Tok.openTag (strL "ul") []) = mkUlState cs [] := rfl

theorem close_ul_doc (cs items : List N) :
    applyTok (mkUlState cs items) (Tok.closeTag (strL "ul")) =
      mkDocState (cs ++ [N.bullet_list
        (if items.isEmpty then [N.list_item [N.paragraph []]] else items)]) := rfl

theorem open_li_ul (cs items : List N) :
    applyTok (mkUlState cs items) (Tok.openTag (strL "li") []) =
      ⟨⟨FrameKind.fListIt, [], [], [], []⟩ ::
        [⟨FrameKind.fBulletL, items, [], [], []⟩, ⟨FrameKind.fDoc, cs, [], [], []⟩], []⟩ := rfl

theorem close_li_empty (cs items : List N) :
    applyTok ⟨⟨FrameKind.fListIt, [], [], [], []⟩ ::
        [⟨FrameKind.fBulletL, items, [], [], []⟩, ⟨FrameKind.fDoc, cs, [], [], []⟩], []⟩
      (Tok.closeTag (strL "li")) =
      mkUlState cs (items ++ [N.list_item [N.paragraph []]]) := rfl

theorem close_li_full (cs items : List N) (inl : List Inline) (ms : List Mark) :
    applyTok ⟨⟨FrameKind.fPara, [], inl, [], ms⟩ :: ⟨FrameKind.fListIt, [], [], [], []⟩ ::
        [⟨FrameKind.fBulletL, items, [], [], []⟩, ⟨FrameKind.fDoc, cs, [], [], []⟩], []⟩
      (Tok.closeTag (strL "li")) =
      mkUlState cs (items ++ [N.list_item [N.paragraph (stripTrailingInl inl)]]) := rfl

theorem sep_nl_doc (cs : List N) :
    applyTok (mkDocState cs) (Tok.textTok ['\n']) = mkDocState cs := by
  rw [applyTok_text]
  exact applyText_ws_skip ['\n'] (by decide) FrameKind.fDoc (by decide) (by decide)
    cs [] [] [] [] []

theorem sep_nl_ul (cs items : List N) :
    applyTok (mkUlState cs items) (Tok.textTok ['\n']) = mkUlState cs items := by
  rw [applyTok_text]
  exact applyText_ws_skip ['\n'] (by decide) FrameKind.fBulletL (by decide) (by decide)
    items [] [] [] [⟨FrameKind.fDoc, cs, [], [], []⟩] []

theorem headStep (l : Nat) (hl1 : 1 ≤ l) (hl6 : l ≤ 6) (cs : List N) :
    applyTok (mkDocState cs) (Tok.openTag ('h' :: natDigits l) []) =
      ⟨[⟨FrameKind.fHeading l, [], [], [], []⟩, ⟨FrameKind.fDoc, cs, [], [], []⟩], []⟩ := by
  interval_cases l <;> rfl

theorem headClose (l : Nat) (hl1 : 1 ≤ l) (hl6 : l ≤ 6) (cs : List N) (inl : List Inline) :
    applyTok ⟨[⟨FrameKind.fHeading l, [], inl, [], []⟩, ⟨FrameKind.fDoc, cs, [], [], []⟩], []⟩
      (Tok.closeTag ('h' :: natDigits l)) =
      mkDocState (cs ++ [N.heading l (stripTrailingInl inl)]) := by
  interval_cases l <;> rfl

theorem itemsFold (cs : List N) : ∀ (items done : List N), items.all benignItem = true →
    ((items.map fun li =>
        Tok.textTok ['\n'] :: Tok.openTag (strL "li") [] ::
          (runToks (match li with
                    | N.list_item [N.paragraph inl] => inl
                    | _ => []) ++ [Tok.closeTag (strL "li")])).flatten).foldl
      applyTok (mkUlState cs done) = mkUlState cs (done ++ items) := by
  intro items
  induction items with
  | nil => intro done _; simp
  | cons li rl ih =>
    intro done hall
    simp only [List.all_cons, Bool.and_eq_true] at hall
    obtain ⟨inl, rfl, hrun⟩ := benignItem_cases li hall.1
    simp only [List.map_cons, List.flatten_cons, List.foldl_append, List.foldl_cons]
    rw [sep_nl_ul, open_li_ul]
    rcases benignRun_cases inl hrun with rfl | ⟨t, ms, rfl, ht, hm⟩
    · have hrt : runToks ([] : List Inline) = [] := rfl
      rw [hrt]
      simp only [List.foldl_nil, List.foldl_cons]
      rw [close_li_empty]
      simpa [List.append_assoc] using ih (done ++ [N.list_item [N.paragraph []]]) hall.2
    · have hrt : runToks [Inline.text t ms] = inlineToks t ms := rfl
      rw [hrt]
      rw [runFold_wrap t ht ms hm FrameKind.fListIt (by rfl) (by decide) (by decide)
        [] [] [] [] [⟨FrameKind.fBulletL, done, [], [], []⟩, ⟨FrameKind.fDoc, cs, [], [], []⟩]]
      simp only [List.foldl_cons, List.foldl_nil]
      rw [close_li_full, stripTrailingInl_benign t ht ms]
      simpa [List.append_assoc] using
        ih (done ++ [N.list_item [N.paragraph [Inline.text t ms]]]) hall.2

theorem blockToks_fold (b : N) (hb : benignBlock b = true) (cs : List N) :
    (blockToks b).foldl applyTok (mkDocState cs) = mkDocState (cs ++ [b]) := by
  rcases benignBlock_cases b hb with ⟨inl, rfl, hrun1⟩ | ⟨l, inl, rfl, hl1, hl6, hrun⟩ |
    ⟨inl, rfl, hrun⟩ | ⟨csl, rfl, hne, hall⟩ | rfl
  · obtain ⟨t, ms, rfl, ht, hm⟩ := benignRun1_cases inl hrun1
    have hrt : runToks [Inline.text t ms] = inlineToks t ms := rfl
    simp only [blockToks, hrt, List.foldl_cons]
    rw [open_p_doc, List.foldl_append]
    rw [runFold_textblock t ht ms hm FrameKind.fPara (by decide) [] [] []
      [⟨FrameKind.fDoc, cs, [], [], []⟩]]
    simp only [List.foldl_cons, List.foldl_nil]
    rw [close_p_doc, stripTrailingInl_benign t ht ms]
  · rcases benignRun_cases inl hrun with rfl | ⟨t, ms, rfl, ht, hm⟩
    · have hrt : runToks ([] : List Inline) = [] := rfl
      simp only [blockToks, hrt, List.nil_append, List.foldl_cons, List.foldl_nil]
      rw [headStep l hl1 hl6, headClose l hl1 hl6]
      rfl
    · have hrt : runToks [Inline.text t ms] = inlineToks t ms := rfl
      simp only [blockToks, hrt, List.foldl_cons]
      rw [headStep l hl1 hl6, List.foldl_append]
      rw [runFold_textblock t ht ms hm (FrameKind.fHeading l) (by simp [isTextblock]) [] [] []
        [⟨FrameKind.fDoc, cs, [], [], []⟩]]
      simp only [List.foldl_cons, List.foldl_nil]
      rw [headClose l hl1 hl6, stripTrailingInl_benign t ht ms]
  · rcases benignRun_cases inl hrun with rfl | ⟨t, ms, rfl, ht, hm⟩
    · have hrt : runToks ([] : List Inline) = [] := rfl
      simp only [blockToks, hrt, List.nil_append, List.foldl_cons, List.foldl_nil]
      rw [open_bq_doc, close_bq_empty]
    · have hrt : runToks [Inline.text t ms] = inlineToks t ms := rfl
      simp only [blockToks, hrt, List.foldl_cons]
      rw [open_bq_doc, List.foldl_append]
      rw [runFold_wrap t ht ms hm FrameKind.fBlockquote (by rfl) (by decide) (by decide)
        [] [] [] [] [⟨FrameKind.fDoc, cs, [], [], []⟩]]
      simp only [List.foldl_cons, List.foldl_nil]
      rw [close_bq_full, stripTrailingInl_benign t ht ms]
  · simp only [blockToks, List.foldl_cons]
    rw [open_ul_doc, List.foldl_append]
    rw [itemsFold cs csl [] hall]
    simp only [List.nil_append, List.foldl_cons, List.foldl_nil]
    rw [sep_nl_ul, close_ul_doc]
    rw [if_neg (by simpa using hne)]
  · simp only [blockToks, List.foldl_cons, List.foldl_nil]
    rw [open_hr_doc]

theorem docToksFoldAux : ∀ (bs : List N), bs.all benignBlock = true → ∀ (cs : List N),
    ((bs.map fun b2 => Tok.textTok ['\n'] :: blockToks b2).flatten).foldl applyTok
      (mkDocState cs) = mkDocState (cs ++ bs) := by
  intro bs
  induction bs with
  | nil => intro _ cs; simp
  | cons b2 bs' ih =>
    intro hall cs
    simp only [List.all_cons, Bool.and_eq_true] at hall
    simp only [List.map_cons, List.flatten_cons, List.foldl_append, List.foldl_cons]
    rw [sep_nl_doc, blockToks_fold b2 hall.1 cs]
    simpa [List.append_assoc] using ih hall.2 (cs ++ [b2])

theorem buildDoc_benign (doc : Doc) (h : benignDoc doc = true) :
    (docToks doc).foldl applyTok buildInit = mkDocState doc := by
  simp only [benignDoc, Bool.and_eq_true, Bool.not_eq_true'] at h
  cases doc with
  | nil => simp at h
  | cons b bs =>
    simp only [List.all_cons, Bool.and_eq_true] at h
    have hinit : buildInit = mkDocState [] := rfl
    simp only [docToks, List.foldl_append, hinit]
    rw [blockToks_fold b h.2.1 []]
    simpa using docToksFoldAux bs h.2.2 [b]

theorem docOfState_mk (doc : Doc) (hne : doc ≠ []) :
    docOfState (mkDocState doc) = doc := by
  cases doc with
  | nil => exact absurd rfl hne
  | cons b bs => rfl

theorem benign_roundtrip (doc : Doc) (h : benignDoc doc = true) :
    parseMarkdown (serializeDoc doc) = doc := by
  have hne : doc ≠ [] := by
    simp only [benignDoc, Bool.and_eq_true, Bool.not_eq_true'] at h
    intro he
    rw [he] at h
    simp at h
  rw [parseMarkdown, htmlToTree, mdToHTML_benign doc h, tokenize_doc doc h,
    buildDoc_benign doc h]
  exact docOfState_mk doc hne

/-- C1 (amended): for every document in the benign class — paragraphs of
one benign text node, headings of level one to six, single-paragraph
blockquotes, nonempty bullet lists of single-paragraph items and
horizontal rules, with marks drawn from link/em/strong/code in rank
order over benign text — parsing the serialization reproduces the
document exactly. -/
theorem roundtrip_benign_class (doc : Doc) (h : benignDoc doc = true) :
    parseMarkdown (serializeDoc doc) = doc :=
  benign_roundtrip doc h

theorem roundtrip_benign_class_witness :
    benignDoc [N.paragraph [Inline.text (strL "hello world") [Mark.em]],
      N.heading 2 [Inline.text (strL "title") []],
      N.blockquote [N.paragraph [Inline.text (strL "quote") [Mark.strong]]],
      N.bullet_list [N.list_item [N.paragraph [Inline.text (strL "item") [Mark.code]]]],
      N.horizontal_rule] = true ∧
    parseMarkdown (serializeDoc [N.paragraph [Inline.text (strL "hello world") [Mark.em]],
      N.heading 2 [Inline.text (strL "title") []],
      N.blockquote [N.paragraph [Inline.text (strL "quote") [Mark.strong]]],
      N.bullet_list [N.list_item [N.paragraph [Inline.text (strL "item") [Mark.code]]]],
      N.horizontal_rule]) =
      [N.paragraph [Inline.text (strL "hello world") [Mark.em]],
       N.heading 2 [Inline.text (strL "title") []],
       N.blockquote [N.paragraph [Inline.text (strL "quote") [Mark.strong]]],
       N.bullet_list [N.list_item [N.paragraph [Inline.text (strL "item") [Mark.code]]]],
       N.horizontal_rule] :=
  ⟨by decide, roundtrip_benign_class _ (by decide)⟩

/-- C2 (amended): on the benign document class the serialize-parse
round trip is the identity, so serialization is a fixed point of
serialize-after-parse: serializing the reparse of a serialization
returns the same Markdown text. -/
theorem serialize_parse_idempotent_benign (doc : Doc) (h : benignDoc doc = true) :
    serializeDoc (parseMarkdown (serializeDoc doc)) = serializeDoc doc :=
  congrArg serializeDoc (benign_roundtrip doc h)

theorem serialize_parse_idempotent_benign_witness :
    benignDoc [N.heading 1 [Inline.text (strL "abc") [Mark.link (strL "u") none, Mark.em]],
      N.paragraph [Inline.text (strL "tail text") []]] = true ∧
    serializeDoc (parseMarkdown (serializeDoc
      [N.heading 1 [Inline.text (strL "abc") [Mark.link (strL "u") none, Mark.em]],
       N.paragraph [Inline.text (strL "tail text") []]])) =
      serializeDoc [N.heading 1 [Inline.text (strL "abc") [Mark.link (strL "u") none, Mark.em]],
        N.paragraph [Inline.text (strL "tail text") []]] :=
  ⟨by decide, serialize_parse_idempotent_benign _ (by decide)⟩

theorem docOfState_ne (st : BuildState) : docOfState st ≠ [] := by
  simp only [docOfState]
  cases hs : (closeMany (st.stack.length - 1) st).stack with
  | nil => simp
  | cons f r =>
    by_cases he : f.children.isEmpty
    · simp [he]
    · simp only [he, Bool.false_eq_true, if_false]
      intro hc
      rw [hc] at he
      simp at he

/-- C8: the Markdown-to-tree parse is a total function of the input
string that always yields a nonempty document — malformed input cannot
fail, and a line of unrecognized syntax (here a stray angle bracket)
degrades to a paragraph holding the literal text. -/
theorem parser_totality_degradation :
    (∀ md : Str, parseMarkdown md ≠ []) ∧
    parseMarkdown (strL "< not a tag") =
      [N.paragraph [Inline.text (strL "< not a tag") []]] :=
  ⟨fun _ => docOfState_ne _, rfl⟩
